import Mathlib

/-!
# Arpeggiator (`Arp31c.cpp`): a shallow embedding

The four arpeggio patterns and the `Arp31::process` step function of
`src/Arp31c.cpp`, translated function by function.

Conventions.
* C++ `int` is `Int`.  Signed overflow has no defined behaviour in C++, so the
  unbounded model agrees with the program wherever the program is defined;
  `%` is the truncating remainder `Int.tmod`, `abs` is `cabs`.
* `float` voltages are exact rationals (no NaN, no rounding).
* A read `pitches[i]` outside the vector and a `%` by zero are faults:
  `Arp31.process` returns `none` there.
-/

namespace AH

/-! ## C integer helpers -/

/-- The C library `abs` on `int`. -/
def cabs (x : Int) : Int := if x < 0 then -x else x

/-- The C operator `%` on `int` (remainder of the division truncated toward zero). -/
def cmod (a b : Int) : Int := Int.tmod a b

/-! ## The four patterns -/

/-- Fields of `struct RightArp` with their default member initialisers. -/
structure RightArp where
  index : Int := 0
  nPitches : Int := 0
deriving DecidableEq, Repr

namespace RightArp

/-- `RightArp::initialise`. -/
def initialise (a : RightArp) (np offset : Int) (_repeatEnds : Bool) : RightArp :=
  let a := if offset ≠ 0 then { a with index := cmod offset np } else { a with index := 0 }
  { a with nPitches := np }

/-- `RightArp::advance`. -/
def advance (a : RightArp) : RightArp := { a with index := a.index + 1 }

/-- `RightArp::getPitch`. -/
def getPitch (a : RightArp) : Int := a.index

/-- `RightArp::isArpeggioFinished`. -/
def isArpeggioFinished (a : RightArp) : Bool := decide (a.index ≥ a.nPitches - 1)

end RightArp

/-- Fields of `struct LeftArp`. -/
structure LeftArp where
  index : Int := 0
  nPitches : Int := 0
deriving DecidableEq, Repr

namespace LeftArp

/-- `LeftArp::initialise`; the parameter `offset` is overwritten in the first branch. -/
def initialise (a : LeftArp) (np offset : Int) (_repeatEnds : Bool) : LeftArp :=
  let a :=
    if offset ≠ 0 then
      let offset := cmod offset np
      { a with index := np - offset - 1 }
    else
      { a with index := np - 1 }
  { a with nPitches := np }

/-- `LeftArp::advance`. -/
def advance (a : LeftArp) : LeftArp := { a with index := a.index - 1 }

/-- `LeftArp::getPitch`. -/
def getPitch (a : LeftArp) : Int := a.index

/-- `LeftArp::isArpeggioFinished`. -/
def isArpeggioFinished (a : LeftArp) : Bool := decide (a.index = 0)

end LeftArp

/-- Fields of `struct RightLeftArp`; `end` is a Lean keyword, the field is `end_`. -/
structure RightLeftArp where
  currSt : Int := 0
  mag : Int := 0
  end_ : Int := 0
  nPitches : Int := 0
deriving DecidableEq, Repr

namespace RightLeftArp

/-- `RightLeftArp::initialise`, assignment by assignment. -/
def initialise (a : RightLeftArp) (np offset : Int) (repeatEnds : Bool) : RightLeftArp :=
  let a := { a with nPitches := np }
  let a := { a with mag := np - 1 }
  let a := { a with end_ := 2 * a.mag - 1 }
  let a := if a.end_ < 1 then { a with end_ := 1 } else a
  let a := { a with currSt := offset }
  let a :=
    if a.end_ < a.currSt then { a with end_ := a.currSt }
    else if offset > 0 then { a with end_ := a.end_ + 1 } else a
  if repeatEnds then { a with end_ := a.end_ + 1 } else a

/-- `RightLeftArp::advance`. -/
def advance (a : RightLeftArp) : RightLeftArp := { a with currSt := a.currSt + 1 }

/-- `RightLeftArp::getPitch`. -/
def getPitch (a : RightLeftArp) : Int :=
  cabs (cmod (a.mag - cabs (a.mag - a.currSt)) a.nPitches)

/-- `RightLeftArp::isArpeggioFinished`. -/
def isArpeggioFinished (a : RightLeftArp) : Bool := decide (a.currSt = a.end_)

end RightLeftArp

/-- Fields of `struct LeftRightArp`. -/
structure LeftRightArp where
  currSt : Int := 0
  mag : Int := 0
  end_ : Int := 0
  nPitches : Int := 0
deriving DecidableEq, Repr

namespace LeftRightArp

/-- `LeftRightArp::initialise`, assignment by assignment. -/
def initialise (a : LeftRightArp) (np offset : Int) (repeatEnds : Bool) : LeftRightArp :=
  let a := { a with nPitches := np }
  let a := { a with mag := np - 1 }
  let a := { a with end_ := 2 * a.mag - 1 }
  let a := if a.end_ < 1 then { a with end_ := 1 } else a
  let a := { a with currSt := offset }
  let a :=
    if a.end_ < a.currSt then { a with end_ := a.currSt }
    else if offset > 0 then { a with end_ := a.end_ + 1 } else a
  if repeatEnds then { a with end_ := a.end_ + 1 } else a

/-- `LeftRightArp::advance`. -/
def advance (a : LeftRightArp) : LeftRightArp := { a with currSt := a.currSt + 1 }

/-- `LeftRightArp::getPitch`. -/
def getPitch (a : LeftRightArp) : Int :=
  cabs (cabs (cmod (a.mag - a.currSt) a.nPitches))

/-- `LeftRightArp::isArpeggioFinished`. -/
def isArpeggioFinished (a : LeftRightArp) : Bool := decide (a.currSt = a.end_)

end LeftRightArp

/-- An object of one of the four subclasses of the abstract `struct Arpeggio`. -/
inductive Arpeggio where
  | right (a : RightArp)
  | left (a : LeftArp)
  | rightLeft (a : RightLeftArp)
  | leftRight (a : LeftRightArp)
deriving DecidableEq, Repr

namespace Arpeggio

/-- Virtual call `initialise`. -/
def initialise (p : Arpeggio) (np offset : Int) (repeatEnds : Bool) : Arpeggio :=
  match p with
  | right a => right (a.initialise np offset repeatEnds)
  | left a => left (a.initialise np offset repeatEnds)
  | rightLeft a => rightLeft (a.initialise np offset repeatEnds)
  | leftRight a => leftRight (a.initialise np offset repeatEnds)

/-- Virtual call `advance`. -/
def advance : Arpeggio → Arpeggio
  | right a => right a.advance
  | left a => left a.advance
  | rightLeft a => rightLeft a.advance
  | leftRight a => leftRight a.advance

/-- Virtual call `getPitch`. -/
def getPitch : Arpeggio → Int
  | right a => a.getPitch
  | left a => a.getPitch
  | rightLeft a => a.getPitch
  | leftRight a => a.getPitch

/-- Virtual call `isArpeggioFinished`. -/
def isArpeggioFinished : Arpeggio → Bool
  | right a => a.isArpeggioFinished
  | left a => a.isArpeggioFinished
  | rightLeft a => a.isArpeggioFinished
  | leftRight a => a.isArpeggioFinished

/-- The member `nPitches` of the object. -/
def nPitches : Arpeggio → Int
  | right a => a.nPitches
  | left a => a.nPitches
  | rightLeft a => a.nPitches
  | leftRight a => a.nPitches

/-- The states reached from `a` by `advance()` calls, each made while
`isArpeggioFinished()` was false. -/
inductive Steps (a : Arpeggio) : Arpeggio → Prop
  | refl : Steps a a
  | step {b : Arpeggio} : Steps a b → b.isArpeggioFinished = false → Steps a b.advance

/-- The indices of one cycle: `getPitch()` in the given state and after each
`advance()`, up to and including the first state in which `isArpeggioFinished()`
holds.  `none` when that state is not met within `fuel` calls of `advance()`. -/
def cycle : Nat → Arpeggio → Option (List Int)
  | 0, a => if a.isArpeggioFinished then some [a.getPitch] else none
  | fuel + 1, a =>
    if a.isArpeggioFinished then some [a.getPitch]
    else (cycle fuel a.advance).map (fun l => a.getPitch :: l)

end Arpeggio

/-! ## Host services used by the engine -/

/-- Modelled from the spec: `clamp` of the host library, absent from the sources;
the value `x` limited to the range `[a, b]`. -/
def clamp (x a b : ℚ) : ℚ := max (min x b) a

/-- Implicit conversion `float → int`: truncation toward zero. -/
def toInt (q : ℚ) : Int := Int.tdiv q.num q.den

/-- Modelled from the spec: the host library's one-shot timer (`PulseGenerator`),
absent from the sources; it holds the remaining active duration. -/
structure PulseGenerator where
  remaining : ℚ := 0
deriving DecidableEq, Repr

namespace PulseGenerator

/-- Modelled from the spec: `trigger(duration)` of the host timer; it (re)starts
the duration. -/
def trigger (_p : PulseGenerator) (duration : ℚ) : PulseGenerator := { remaining := duration }

/-- Modelled from the spec: `process(deltaTime)` of the host timer; the remaining
duration is decremented by the elapsed time, never below zero, and the pulse is
reported active while some duration remains. -/
def process (p : PulseGenerator) (deltaTime : ℚ) : PulseGenerator × Bool :=
  let r := max 0 (p.remaining - deltaTime)
  ({ remaining := r }, decide (0 < r))

end PulseGenerator

/-- What one invocation of `Arp31::process` reads from the host. -/
structure Inputs where
  /-- Value of the inherited counter `stepX` after `AHModule::step()`
  (`AHCommon.hpp` is not among the sources). -/
  stepX : Int
  /-- Result of `clockTrigger.process(clockInput)`, the host's edge detector. -/
  clockStatus : Bool
  /-- `inputs[CLOCK_INPUT].isConnected()`. -/
  clockActive : Bool
  /-- `inputs[ARP_INPUT].isConnected()`. -/
  arpConnected : Bool
  /-- `inputs[ARP_INPUT].getVoltage()`. -/
  arpVoltage : ℚ
  /-- `params[ARP_PARAM].getValue()`. -/
  arpParam : ℚ
  /-- `params[OFFSET_PARAM].getValue()`. -/
  offsetParam : ℚ
  /-- `inputs[PITCH_INPUT].isConnected()`. -/
  pitchConnected : Bool
  /-- `inputs[PITCH_INPUT].getChannels()`. -/
  pitchChannels : Nat
  /-- `inputs[PITCH_INPUT].getVoltage(p)`. -/
  pitchVoltage : Nat → ℚ
  /-- `inputs[GATE_INPUT].isConnected()`. -/
  gateConnected : Bool
  /-- `inputs[GATE_INPUT].getVoltage(p)`. -/
  gateVoltage : Nat → ℚ
  /-- `args.sampleTime`. -/
  sampleTime : ℚ

/-- Targets of the pointer `currArp`. -/
inductive ArpRef where
  | arp_right | arp_left | arp_rightleft | arp_leftright
deriving DecidableEq, Repr

/-- Targets of the pointer `uiArp`: initially `&arp_right`, afterwards one of the
four `ui_arp_*` members. -/
inductive UiRef where
  | arp_right | ui_arp_right | ui_arp_left | ui_arp_rightleft | ui_arp_leftright
deriving DecidableEq, Repr

/-- `enum GateMode`, kept as the integer it is cast from in `dataFromJson`. -/
abbrev GateMode := Int

/-- `Arp31::TRIGGER`. -/
def GateMode.TRIGGER : GateMode := 0
/-- `Arp31::RETRIGGER`. -/
def GateMode.RETRIGGER : GateMode := 1
/-- `Arp31::CONTINUOUS`. -/
def GateMode.CONTINUOUS : GateMode := 2

/-- Data members of `struct Arp31` that `process` reads or writes, with their
default member initialisers, and the voltages of its three output ports.  The
edge detector `clockTrigger` lives in the host; its result is an input. -/
structure Arp31 where
  gateMode : GateMode := GateMode.TRIGGER
  gatePulse : PulseGenerator := {}
  eocPulse : PulseGenerator := {}
  outVolts : ℚ := 0
  isRunning : Bool := false
  inputArp : Int := 0
  arp : Int := 0
  eoc : Bool := false
  repeatEnd : Bool := false
  arp_right : RightArp := {}
  arp_left : LeftArp := {}
  arp_rightleft : RightLeftArp := {}
  arp_leftright : LeftRightArp := {}
  ui_arp_right : RightArp := {}
  ui_arp_left : LeftArp := {}
  ui_arp_rightleft : RightLeftArp := {}
  ui_arp_leftright : LeftRightArp := {}
  currArp : ArpRef := ArpRef.arp_right
  uiArp : UiRef := UiRef.arp_right
  pitches : List ℚ := []
  pitchIndex : List Int := []
  /-- Voltage of `outputs[OUT_OUTPUT]`. -/
  out_OUT : ℚ := 0
  /-- Voltage of `outputs[GATE_OUTPUT]`. -/
  out_GATE : ℚ := 0
  /-- Voltage of `outputs[EOC_OUTPUT]`. -/
  out_EOC : ℚ := 0
deriving DecidableEq, Repr

namespace Arpeggio

/-- The call `initialise(np, offset, _)` evaluates `offset % np` with `np = 0`. -/
def initialiseFaults : Arpeggio → Int → Int → Bool
  | right _, np, offset => offset != 0 && np == 0
  | left _, np, offset => offset != 0 && np == 0
  | rightLeft _, _, _ => false
  | leftRight _, _, _ => false

/-- The call `getPitch()` evaluates `… % nPitches` with `nPitches = 0`. -/
def getPitchFaults : Arpeggio → Bool
  | right _ => false
  | left _ => false
  | rightLeft a => a.nPitches == 0
  | leftRight a => a.nPitches == 0

end Arpeggio

/-- The read `pitches[i]` of a `std::vector<float>`; `none` outside the vector. -/
def readPitch (pitches : List ℚ) (i : Int) : Option ℚ :=
  if 0 ≤ i then pitches[i.toNat]? else none

namespace Arp31

/-- The object `*r` for a target `r` of `currArp`. -/
def get (s : Arp31) : ArpRef → Arpeggio
  | .arp_right => .right s.arp_right
  | .arp_left => .left s.arp_left
  | .arp_rightleft => .rightLeft s.arp_rightleft
  | .arp_leftright => .leftRight s.arp_leftright

/-- Writes an object back to the engine member of its own subclass. -/
def set (s : Arp31) : Arpeggio → Arp31
  | .right a => { s with arp_right := a }
  | .left a => { s with arp_left := a }
  | .rightLeft a => { s with arp_rightleft := a }
  | .leftRight a => { s with arp_leftright := a }

/-- The object `*r` for a target `r` of `uiArp`. -/
def getUi (s : Arp31) : UiRef → Arpeggio
  | .arp_right => .right s.arp_right
  | .ui_arp_right => .right s.ui_arp_right
  | .ui_arp_left => .left s.ui_arp_left
  | .ui_arp_rightleft => .rightLeft s.ui_arp_rightleft
  | .ui_arp_leftright => .leftRight s.ui_arp_leftright

/-- Writes an object back through a target of `uiArp`. -/
def setUi (s : Arp31) : UiRef → Arpeggio → Arp31
  | .arp_right, .right a => { s with arp_right := a }
  | .ui_arp_right, .right a => { s with ui_arp_right := a }
  | .ui_arp_left, .left a => { s with ui_arp_left := a }
  | .ui_arp_rightleft, .rightLeft a => { s with ui_arp_rightleft := a }
  | .ui_arp_leftright, .leftRight a => { s with ui_arp_leftright := a }
  | _, _ => s

/-- The `switch(arp)` that sets `currArp`. -/
def selectArp (arp : Int) : ArpRef :=
  if arp = 0 then .arp_right
  else if arp = 1 then .arp_left
  else if arp = 2 then .arp_rightleft
  else if arp = 3 then .arp_leftright
  else .arp_right

/-- The `switch(inputArp)` that sets `uiArp`. -/
def selectUi (inputArp : Int) : UiRef :=
  if inputArp = 0 then .ui_arp_right
  else if inputArp = 1 then .ui_arp_left
  else if inputArp = 2 then .ui_arp_rightleft
  else if inputArp = 3 then .ui_arp_leftright
  else .ui_arp_right

/-- The local `inputPitches` after the two reading loops of the restart block
(`push_back` appends at the end). -/
def readInputPitches (inp : Inputs) : List ℚ :=
  if inp.pitchConnected then
    if inp.gateConnected then
      (List.range inp.pitchChannels).foldl
        (fun acc p => if inp.gateVoltage p > 0 then acc ++ [inp.pitchVoltage p] else acc) []
    else
      (List.range inp.pitchChannels).foldl (fun acc p => acc ++ [inp.pitchVoltage p]) []
  else []

/-- The body of `if (clockStatus) { … }`; the result carries the local `restart`. -/
def clockBlock (TRIGGER : ℚ) (s : Arp31) : Option (Arp31 × Bool) :=
  let s := if s.eoc then
      { s with eocPulse := s.eocPulse.trigger TRIGGER, eoc := false }
    else s
  if s.isRunning then
    let fin := (s.get s.currArp).isArpeggioFinished
    let s := if fin then { s with eoc := true } else s
    if (s.get s.currArp).getPitchFaults then none else
    let i := (s.get s.currArp).getPitch
    match readPitch s.pitches i with
    | none => none
    | some v =>
      let s := { s with outVolts := clamp v (-10) 10 }
      let s := { s with gatePulse := s.gatePulse.trigger TRIGGER }
      let s := s.set (s.get s.currArp).advance
      some (s, fin)
  else
    some (s, true)

/-- The body of `if (restart) { … }`. -/
def restartBlock (s : Arp31) (inp : Inputs) (offset : Int) : Option Arp31 :=
  let inputPitches := readInputPitches inp
  let grow := decide (inputPitches.length = 0)
  let inputPitches := if grow then inputPitches ++ [0] else inputPitches
  let s := if grow then { s with pitchIndex := s.pitchIndex ++ [0] } else s
  let s := { s with arp := s.inputArp }
  let s := { s with currArp := selectArp s.arp }
  let s := { s with pitches := [] }
  let s := { s with pitches := inputPitches.foldl (fun acc x => acc ++ [x]) s.pitches }
  if (s.get s.currArp).initialiseFaults s.pitches.length offset then none else
  let s := s.set ((s.get s.currArp).initialise s.pitches.length offset s.repeatEnd)
  some { s with isRunning := true }

/-- The tail of `process`: UI pattern, output voltage, gate and end-of-cycle outputs. -/
def outputBlock (s : Arp31) (inp : Inputs) (offset : Int) : Option Arp31 :=
  let s := { s with uiArp := selectUi s.inputArp }
  let np : Int := if s.pitches.length ≠ 0 then s.pitches.length else 1
  if (s.getUi s.uiArp).initialiseFaults np offset then none else
  let s := s.setUi s.uiArp ((s.getUi s.uiArp).initialise np offset s.repeatEnd)
  let s := { s with out_OUT := s.outVolts }
  let r := s.gatePulse.process inp.sampleTime
  let s := { s with gatePulse := r.1 }
  let gPulse := r.2
  let gatesOn := s.isRunning
  let gatesOn :=
    if s.gateMode = GateMode.TRIGGER then gatesOn && gPulse
    else if s.gateMode = GateMode.RETRIGGER then gatesOn && !gPulse
    else gatesOn
  let r := s.eocPulse.process inp.sampleTime
  let s := { s with eocPulse := r.1 }
  let cPulse := r.2
  let s := { s with out_GATE := if gatesOn then 10 else 0 }
  some { s with out_EOC := if cPulse then 10 else 0 }

/-- The head of `process` after the warm-up test: the member `inputArp` is read from
the selector input or the knob, and an unconnected clock forces Idle. -/
def prologue (s : Arp31) (inp : Inputs) : Arp31 :=
  let s := { s with inputArp :=
    if inp.arpConnected then toInt inp.arpVoltage else toInt inp.arpParam }
  if !inp.clockActive then { s with isRunning := false } else s

/-- `Arp31::process`.  `TRIGGER` is the pulse width `digital::TRIGGER`, declared in
the absent `AHCommon.hpp`.  `none` is a fault (a read outside `pitches`, `%` by zero). -/
def process (TRIGGER : ℚ) (s : Arp31) (inp : Inputs) : Option Arp31 :=
  if inp.stepX < 10 then some s else
  let s := prologue s inp
  let offset := toInt inp.offsetParam
  let clockStatus := inp.clockStatus
  match (if clockStatus then clockBlock TRIGGER s else some (s, false)) with
  | none => none
  | some (s, restart) =>
    match (if restart then restartBlock s inp offset else some s) with
    | none => none
    | some s => outputBlock s inp offset

/-- `Arp31::onReset`. -/
def onReset (s : Arp31) : Arp31 := { s with isRunning := false }

/-- The engine as constructed: default member initialisers, then `onReset()`. -/
def initial : Arp31 := onReset {}

/-- The context-menu actions `GateModeItem::onAction` and `RepeatModeItem::onAction`. -/
def setGateMode (s : Arp31) (m : GateMode) : Arp31 := { s with gateMode := m }

/-- The context-menu action `RepeatModeItem::onAction`. -/
def setRepeatEnd (s : Arp31) (r : Bool) : Arp31 := { s with repeatEnd := r }

end Arp31

namespace Arpeggio

/-- A freshly constructed object of the same subclass as `p`. -/
def fresh : Arpeggio → Arpeggio
  | right _ => right {}
  | left _ => left {}
  | rightLeft _ => rightLeft {}
  | leftRight _ => leftRight {}

/-- Range invariant of a pattern of length `N`: the one-directional patterns keep
their index inside `[0, N-1]`; the folding patterns only need `nPitches = N`. -/
def InRange (N : Int) : Arpeggio → Prop
  | right a => a.nPitches = N ∧ 0 ≤ a.index ∧ a.index ≤ N - 1
  | left a => a.nPitches = N ∧ 0 ≤ a.index ∧ a.index ≤ N - 1
  | rightLeft a => a.nPitches = N
  | leftRight a => a.nPitches = N

end Arpeggio

/-- The settings of the host for which the engine is meant: the offset knob is
configured with the range `[0, 10]`. -/
def Inputs.Valid (inp : Inputs) : Prop := 0 ≤ inp.offsetParam ∧ inp.offsetParam ≤ 10

/-- A freshly constructed object of the class of the member that `r` points to. -/
def ArpRef.fresh : ArpRef → Arpeggio
  | .arp_right => .right {}
  | .arp_left => .left {}
  | .arp_rightleft => .rightLeft {}
  | .arp_leftright => .leftRight {}

/-- The value of the local `gatesOn` for a given mode, running flag and pulse report. -/
def gatesOn (mode : GateMode) (isRunning gPulse : Bool) : Bool :=
  if mode = GateMode.TRIGGER then isRunning && gPulse
  else if mode = GateMode.RETRIGGER then isRunning && !gPulse
  else isRunning

/-- The pattern selector read by one invocation, as the `int` stored in `inputArp`. -/
def Inputs.selector (inp : Inputs) : Int :=
  if inp.arpConnected then toInt inp.arpVoltage else toInt inp.arpParam

/-- The pitch set a restart captures, in the words of the specification: the
pitches of the channels whose gate is high when both inputs are connected, all
channel pitches when only the pitch input is connected, and the single pitch `0`
when that list is empty. -/
def capturedPitchSet (inp : Inputs) : List ℚ :=
  let l :=
    if inp.pitchConnected then
      if inp.gateConnected then
        ((List.range inp.pitchChannels).filter (fun p => decide (inp.gateVoltage p > 0))).map
          inp.pitchVoltage
      else (List.range inp.pitchChannels).map inp.pitchVoltage
    else []
  if l = [] then [0] else l

namespace Arp31

/-- The states of the engine met in operation: the constructed engine, then any
sequence of `process` invocations with valid inputs, menu actions and resets. -/
inductive Reachable (TRIGGER : ℚ) : Arp31 → Prop
  | initial : Reachable TRIGGER initial
  | process {s s' : Arp31} (inp : Inputs) : Reachable TRIGGER s → inp.Valid →
      process TRIGGER s inp = some s' → Reachable TRIGGER s'
  | setGateMode {s : Arp31} (m : GateMode) : Reachable TRIGGER s →
      Reachable TRIGGER (s.setGateMode m)
  | setRepeatEnd {s : Arp31} (r : Bool) : Reachable TRIGGER s →
      Reachable TRIGGER (s.setRepeatEnd r)
  | onReset {s : Arp31} : Reachable TRIGGER s → Reachable TRIGGER s.onReset

/-- While Running, the active pattern has the length of the stored pitch set, which
is at least 1, and its index is in range. -/
def Safe (s : Arp31) : Prop :=
  s.isRunning = true →
    1 ≤ s.pitches.length ∧ Arpeggio.InRange s.pitches.length (s.get s.currArp)

/-- Runs `process` over successive invocations and collects the voltage of the
output port after each invocation that had a clock edge. -/
def edgeOutputs (TRIGGER : ℚ) : Arp31 → List Inputs → Option (List ℚ × Arp31)
  | s, [] => some ([], s)
  | s, inp :: rest =>
    match process TRIGGER s inp with
    | none => none
    | some s1 =>
      match edgeOutputs TRIGGER s1 rest with
      | none => none
      | some (outs, s2) => some (if inp.clockStatus then s1.out_OUT :: outs else outs, s2)

end Arp31

namespace Arp31

/-- The engine is Running on the pitch set `P` with the Ascending pattern at index `k`. -/
def AscendingAt (P : List ℚ) (k : Nat) (s : Arp31) : Prop :=
  s.isRunning = true ∧ s.pitches = P ∧ s.currArp = ArpRef.arp_right ∧
    s.get s.currArp = Arpeggio.right { index := k, nPitches := P.length }

/-- The number of invocations of a list that have a clock edge. -/
def edgeCount (l : List Inputs) : Nat := (l.filter (fun i => i.clockStatus)).length

end Arp31

/-! ## A concrete scenario -/

/-- A pulse width of one millisecond. -/
def pulseWidth : ℚ := 1 / 1000

/-- One invocation after the warm-up at 48 kHz: clock connected, selector knob at 0,
offset knob at 0, a two-channel pitch input carrying 5 V and 12 V, no gate input;
`edge` says whether the clock rises. -/
def chordInput (edge : Bool) : Inputs :=
  { stepX := 10, clockStatus := edge, clockActive := true, arpConnected := false,
    arpVoltage := 0, arpParam := 0, offsetParam := 0, pitchConnected := true,
    pitchChannels := 2, pitchVoltage := fun p => if p = 0 then 5 else 12,
    gateConnected := false, gateVoltage := fun _ => 0, sampleTime := 1 / 48000 }

/-- The engine after the clock edge that starts the first cycle on the chord. -/
def started : Arp31 := (Arp31.process pulseWidth Arp31.initial (chordInput true)).getD {}

/-- The engine after the next clock edge. -/
def played : Arp31 := (Arp31.process pulseWidth started (chordInput true)).getD {}

/-- The value that `RightLeftArp::initialise` and `LeftRightArp::initialise` leave
in the member `end`, as a function of their arguments. -/
def foldEnd (np offset : Int) (repeatEnds : Bool) : Int :=
  let e0 := if 2 * (np - 1) - 1 < 1 then 1 else 2 * (np - 1) - 1
  let e1 := if e0 < offset then offset else if offset > 0 then e0 + 1 else e0
  if repeatEnds then e1 + 1 else e1

/-! ## Vocabulary for the end-of-cycle pulse -/

namespace Arp31

/-- This invocation runs the edge detector and it reports a clock edge; a warm-up
invocation returns before the detector is run. -/
def clocked (inp : Inputs) : Bool := decide (10 ≤ inp.stepX) && inp.clockStatus

/-- This invocation executes `eocPulse.trigger(digital::TRIGGER)`: it is clocked and
finds the flag `eoc` set. -/
def eocTriggers (s : Arp31) (inp : Inputs) : Bool := clocked inp && s.eoc

/-- This invocation is clocked and finds the engine Running (clock connected) with
the active pattern reporting finished. -/
def detectsFinished (s : Arp31) (inp : Inputs) : Bool :=
  clocked inp && (s.isRunning && inp.clockActive) &&
    (s.get s.currArp).isArpeggioFinished

end Arp31

namespace Arp31

/-- The end-of-cycle timer of one invocation past the warm-up: triggered when
`eocTriggers`, then advanced by the sample time; the second component is the
report `cPulse`. -/
def eocPulseStep (T : ℚ) (s : Arp31) (inp : Inputs) : PulseGenerator × Bool :=
  (if eocTriggers s inp then s.eocPulse.trigger T else s.eocPulse).process inp.sampleTime

end Arp31
/-- Modelled from the spec: the host library's edge detector (`dsp::SchmittTrigger`),
absent from the sources; it remembers whether the signal is high. -/
structure SchmittTrigger where
  state : Bool := true
deriving DecidableEq, Repr

namespace SchmittTrigger

/-- Modelled from the spec: `process(in)` of the host's edge detector, a rising-edge
event with hysteresis, with the host library's fixed thresholds.  A low detector goes
high and reports an edge when the signal reaches 1 V, a high detector goes low when
the signal is at or below 0 V, and nothing else is reported as an edge. -/
def process (t : SchmittTrigger) (v : ℚ) : SchmittTrigger × Bool :=
  if t.state then (if v ≤ 0 then { state := false } else t, false)
  else if 1 ≤ v then ({ state := true }, true) else (t, false)

end SchmittTrigger

/-- Modelled from the spec: `getVoltage()` of a host input port, absent from the
sources: the voltage on the cable; the host clears the voltages of a port whose
cable is removed, so a port without a cable reads 0 V. -/
def portVoltage (connected : Bool) (cable : ℚ) : ℚ := if connected then cable else 0

/-- The inputs of an invocation with `clockStatus` computed as `process` does,
`clockTrigger.process(inputs[CLOCK_INPUT].getVoltage())`, from the state `t` of the
detector `clockTrigger` and the voltage on the clock cable. -/
def Inputs.withClock (inp : Inputs) (t : SchmittTrigger) (cable : ℚ) : Inputs :=
  { inp with clockStatus := (t.process (portVoltage inp.clockActive cable)).2 }

/-- The chord scenario without a pitch source: the pitch input is not connected, so
every cycle is played on the single default pitch. -/
def soloInput : Inputs := { chordInput true with pitchConnected := false }

/-- What an observer of the end-of-cycle mechanism records about one invocation:
whether it had a clock edge, whether on that edge the engine was Running with the
active pattern reporting finished, and whether `eocPulse.trigger` was executed. -/
structure EocStep where
  edge : Bool
  finished : Bool
  fired : Bool
deriving DecidableEq, Repr

/-- The immediately preceding clock edge: the last record of `pre` that has a clock
edge, if there is one. -/
def lastEdge (pre : List EocStep) : Option EocStep :=
  pre.reverse.find? (fun st => st.edge)

/-- The flag `eoc` as the records predict it, starting from `p`: each clock edge
overwrites it with its `finished`, and `eocPulse.trigger` is executed on a clock
edge that finds it set. -/
def EocConsistent : Bool → List EocStep → Prop
  | _, [] => True
  | p, st :: rest =>
    st.fired = (st.edge && p) ∧ EocConsistent (if st.edge then st.finished else p) rest

namespace Arp31

/-- Runs `process` over successive invocations and records the end-of-cycle
observations; `none` when an invocation faults. -/
def eocTrace (T : ℚ) : Arp31 → List Inputs → Option (List EocStep)
  | _, [] => some []
  | s, inp :: rest =>
    match process T s inp with
    | none => none
    | some s1 =>
      (eocTrace T s1 rest).map
        (fun l => { edge := clocked inp, finished := detectsFinished s inp,
                    fired := eocTriggers s inp } :: l)

end Arp31
/-- The chord scenario with three pitches 1 V, 2 V, 3 V on the pitch input. -/
def triadInput (edge : Bool) : Inputs :=
  { chordInput edge with pitchChannels := 3, pitchVoltage := fun p => (p : ℚ) + 1 }

/-- An invocation in normal operation past the warm-up without a clock edge: clock
connected, offset knob in range, a sample time that is not negative. -/
def Inputs.Quiet (inp : Inputs) : Prop :=
  inp.Valid ∧ inp.clockActive = true ∧ 10 ≤ inp.stepX ∧ inp.clockStatus = false ∧
    0 ≤ inp.sampleTime

/-- An invocation in normal operation past the warm-up with a clock edge. -/
def Inputs.Edge (inp : Inputs) : Prop :=
  inp.Valid ∧ inp.clockActive = true ∧ 10 ≤ inp.stepX ∧ inp.clockStatus = true ∧
    0 ≤ inp.sampleTime

namespace Arp31

/-- Runs `process` over successive invocations; `none` when one of them faults. -/
def run (T : ℚ) : Arp31 → List Inputs → Option Arp31
  | s, [] => some s
  | s, inp :: rest =>
    match process T s inp with
    | none => none
    | some s1 => run T s1 rest

end Arp31
/-- The engine after the starting edge and three further clock edges on the triad. -/
def afterThirdEdge : Arp31 :=
  (Arp31.run pulseWidth Arp31.initial
    [triadInput true, triadInput true, triadInput true, triadInput true]).getD {}
/-! ## Persisted settings -/

/-- Modelled from the spec: a value of the host's JSON library, absent from the
sources; the settings payload holds an integer and a boolean, `other` stands for
every other kind of value. -/
inductive JsonValue where
  | integer (n : Int)
  | boolean (b : Bool)
  | other
deriving DecidableEq, Repr

/-- Modelled from the spec: a JSON object of the host's library, the settings
payload: its members by key. -/
abbrev JsonObject := List (String × JsonValue)

/-- Modelled from the spec: `json_object()`, the empty object. -/
def json_object : JsonObject := []

/-- Modelled from the spec: `json_object_set_new`, which sets the member `key`,
replacing an earlier member of that key. -/
def json_object_set_new (obj : JsonObject) (key : String) (v : JsonValue) : JsonObject :=
  (obj.filter (fun m => m.1 != key)) ++ [(key, v)]

/-- Modelled from the spec: `json_object_get`, the member `key`; `none` is the
null pointer returned for an absent key. -/
def json_object_get (obj : JsonObject) (key : String) : Option JsonValue :=
  (obj.find? (fun m => m.1 == key)).map (fun m => m.2)

/-- Modelled from the spec: `json_integer_value`, 0 for a value that is no integer. -/
def json_integer_value : JsonValue → Int
  | .integer n => n
  | _ => 0

/-- Modelled from the spec: `json_boolean_value`, false for a value that is not true. -/
def json_boolean_value : JsonValue → Bool
  | .boolean b => b
  | _ => false

namespace Arp31

/-- `Arp31::dataToJson`. -/
def dataToJson (s : Arp31) : JsonObject :=
  let rootJ := json_object
  let gateModeJ := JsonValue.integer s.gateMode
  let rootJ := json_object_set_new rootJ "gateMode" gateModeJ
  let repeatModeJ := JsonValue.boolean s.repeatEnd
  let rootJ := json_object_set_new rootJ "repeatMode" repeatModeJ
  rootJ

/-- `Arp31::dataFromJson`. -/
def dataFromJson (s : Arp31) (rootJ : JsonObject) : Arp31 :=
  let s :=
    match json_object_get rootJ "gateMode" with
    | some gateModeJ => { s with gateMode := json_integer_value gateModeJ }
    | none => s
  match json_object_get rootJ "repeatMode" with
  | some repeatModeJ => { s with repeatEnd := json_boolean_value repeatModeJ }
  | none => s

end Arp31

/-! ## The scale quantizer (`ScaleQuantizerMkII.cpp`) -/

/-- The functions and constants of `namespace music` that `ScaleQuantizer2::process`
uses; they are declared in the absent `AHCommon.hpp` and are parameters here. -/
structure Music where
  /-- `music::getPitchFromVolts(volts, root, scale)`, the quantization lookup. -/
  getPitchFromVolts : ℚ → Int → Int → ℚ
  /-- `music::getKeyFromVolts(volts)`. -/
  getKeyFromVolts : ℚ → Int
  /-- `music::getScaleFromVolts(volts)`. -/
  getScaleFromVolts : ℚ → Int
  /-- `music::NOTE_C`. -/
  NOTE_C : Int
  /-- `music::SCALE_CHROMATIC`. -/
  SCALE_CHROMATIC : Int
  /-- `music::NUM_NOTES`. -/
  NUM_NOTES : Nat

/-- What one invocation of `ScaleQuantizer2::process` reads from the host; lanes and
channels are indexed by natural numbers. -/
structure QInputs where
  /-- `inputs[KEY_INPUT].isConnected()`. -/
  keyConnected : Bool
  /-- `inputs[KEY_INPUT].getVoltage()`. -/
  keyVoltage : ℚ
  /-- `params[KEY_PARAM].getValue()`. -/
  keyParam : ℚ
  /-- `inputs[SCALE_INPUT].isConnected()`. -/
  scaleConnected : Bool
  /-- `inputs[SCALE_INPUT].getVoltage()`. -/
  scaleVoltage : ℚ
  /-- `params[SCALE_PARAM].getValue()`. -/
  scaleParam : ℚ
  /-- `inputs[TRANS_INPUT].getVoltage()`. -/
  transVoltage : ℚ
  /-- `params[TRANS_PARAM].getValue()`. -/
  transParam : ℚ
  /-- `params[SHIFT_PARAM + i].getValue()`. -/
  shiftParam : Nat → ℚ
  /-- `inputs[IN_INPUT + i].getChannels()`. -/
  cvChannels : Nat → Nat
  /-- `inputs[HOLD_INPUT + i].getChannels()`. -/
  holdChannels : Nat → Nat
  /-- `inputs[IN_INPUT + i].getVoltage(j)`. -/
  cvVoltage : Nat → Nat → ℚ
  /-- Result of `holdTrigger[i][j].process(inputs[HOLD_INPUT + i].getVoltage(j))`, the
  host's edge detector on hold channel `j` of lane `i`. -/
  holdEdge : Nat → Nat → Bool
  /-- `args.sampleTime`. -/
  sampleTime : ℚ

/-- Data members of `struct ScaleQuantizer2` with their default member
initialisers, and what it writes to its output ports and lights.  The arrays
`[8][16]` are functions of lane and channel; the edge detectors `holdTrigger` live
in the host, their results are inputs. -/
structure ScaleQuantizer2 where
  firstStep : Bool := true
  lastScale : Int := 0
  lastRoot : Int := 0
  lastTrans : ℚ := -10000
  triggerPulse : Nat → Nat → PulseGenerator := fun _ _ => {}
  holdPitch : Nat → Nat → ℚ := fun _ _ => 0
  lastPitch : Nat → Nat → ℚ := fun _ _ => 0
  /-- `bool holdState[8][16]` has no initialiser. -/
  holdState : Nat → Nat → Bool
  currScale : Int := 0
  currRoot : Int := 0
  /-- Channel count of `outputs[OUT_OUTPUT + i]`. -/
  outChannels : Nat → Nat := fun _ => 0
  /-- Channel count of `outputs[TRIG_OUTPUT + i]`. -/
  trigChannels : Nat → Nat := fun _ => 0
  /-- Voltage of channel `j` of `outputs[OUT_OUTPUT + i]`. -/
  out_OUT : Nat → Nat → ℚ := fun _ _ => 0
  /-- Voltage of channel `j` of `outputs[TRIG_OUTPUT + i]`. -/
  out_TRIG : Nat → Nat → ℚ := fun _ _ => 0
  /-- Brightness of `lights[SCALE_LIGHT + k]`. -/
  scaleLight : Int → ℚ := fun _ => 0
  /-- Brightness of `lights[KEY_LIGHT + k]`. -/
  keyLight : Int → ℚ := fun _ => 0

/-- The assignment `a[i][j] = v` to a two-dimensional array. -/
def set2 {α : Type} (a : Nat → Nat → α) (i j : Nat) (v : α) : Nat → Nat → α :=
  fun x y => if x = i ∧ y = j then v else a x y

namespace ScaleQuantizer2

/-- The quantizer as constructed; `holdState0` is the indeterminate content of the
uninitialised array `holdState`. -/
def initial (holdState0 : Nat → Nat → Bool) : ScaleQuantizer2 := { holdState := holdState0 }

/-- The computation of the local `trans`, with the cache `lastTrans`; the result
carries the value of `trans` that the lanes use. -/
def transBlock (M : Music) (s : ScaleQuantizer2) (inp : QInputs) : ScaleQuantizer2 × ℚ :=
  let trans := (inp.transVoltage + inp.transParam) / 12
  if trans ≠ 0 then
    if trans ≠ s.lastTrans then
      let trans := M.getPitchFromVolts trans M.NOTE_C M.SCALE_CHROMATIC
      ({ s with lastTrans := trans }, trans)
    else
      (s, s.lastTrans)
  else (s, trans)

/-- The hold logic of the channel loop: the edge detector of hold channel `j` is
run, then the held pitch is re-quantized according to the number of hold channels. -/
def holdBlock (M : Music) (inp : QInputs) (i : Nat) (nCVChannels nHoldChannels : Nat)
    (s : ScaleQuantizer2) (j : Nat) : ScaleQuantizer2 :=
  let s : ScaleQuantizer2 := { s with holdState := set2 s.holdState i j (inp.holdEdge i j) }
  let quantized := fun (c : Nat) =>
    M.getPitchFromVolts (inp.cvVoltage i c) s.currRoot s.currScale
  if nHoldChannels = 0 then
    { s with holdPitch := set2 s.holdPitch i j (quantized j) }
  else if nHoldChannels = 1 then
    if s.holdState i 0 then { s with holdPitch := set2 s.holdPitch i j (quantized j) }
    else s
  else
    if nCVChannels = 1 then
      if s.holdState i j then { s with holdPitch := set2 s.holdPitch i j (quantized 0) }
      else s
    else
      if s.holdState i j then { s with holdPitch := set2 s.holdPitch i j (quantized j) }
      else s

/-- The change detection of the channel loop: `if (lastPitch[i][j] != holdPitch[i][j])`. -/
def changeBlock (T : ℚ) (i : Nat) (s : ScaleQuantizer2) (j : Nat) : ScaleQuantizer2 :=
  if s.lastPitch i j ≠ s.holdPitch i j then
    let s : ScaleQuantizer2 := { s with lastPitch := set2 s.lastPitch i j (s.holdPitch i j) }
    { s with triggerPulse := set2 s.triggerPulse i j ((s.triggerPulse i j).trigger T) }
  else s

/-- The output writes of the channel loop: pitch output, then the trigger output from
the channel's timer. -/
def writeBlock (inp : QInputs) (i : Nat) (shift trans : ℚ) (s : ScaleQuantizer2)
    (j : Nat) : ScaleQuantizer2 :=
  let s : ScaleQuantizer2 :=
    { s with out_OUT := set2 s.out_OUT i j (s.holdPitch i j + shift + trans) }
  let r := (s.triggerPulse i j).process inp.sampleTime
  let s : ScaleQuantizer2 := { s with triggerPulse := set2 s.triggerPulse i j r.1 }
  if r.2 then { s with out_TRIG := set2 s.out_TRIG i j 10 }
  else { s with out_TRIG := set2 s.out_TRIG i j 0 }

/-- The body of the loop over the channels `j` of lane `i`. -/
def channelStep (M : Music) (T : ℚ) (inp : QInputs) (i : Nat) (shift trans : ℚ)
    (nCVChannels nHoldChannels : Nat) (s : ScaleQuantizer2) (j : Nat) : ScaleQuantizer2 :=
  let s := holdBlock M inp i nCVChannels nHoldChannels s j
  let s := changeBlock T i s j
  writeBlock inp i shift trans s j

/-- The body of the loop over the lanes `i`. -/
def laneStep (M : Music) (T : ℚ) (inp : QInputs) (trans : ℚ) (s : ScaleQuantizer2)
    (i : Nat) : ScaleQuantizer2 :=
  let shift := inp.shiftParam i
  let nCVChannels := inp.cvChannels i
  let nHoldChannels := inp.holdChannels i
  let nChannels := max nCVChannels nHoldChannels
  let s := { s with outChannels := fun x => if x = i then nChannels else s.outChannels x }
  let s := { s with trigChannels := fun x => if x = i then nChannels else s.trigChannels x }
  (List.range nChannels).foldl
    (channelStep M T inp i shift trans nCVChannels nHoldChannels) s

/-- `lights[SCALE_LIGHT + i].setBrightness(0.0f)`. -/
def clearScaleLight (s : ScaleQuantizer2) (i : Nat) : ScaleQuantizer2 :=
  { s with scaleLight := fun k => if k = (i : Int) then 0 else s.scaleLight k }

/-- `lights[KEY_LIGHT + i].setBrightness(0.0f)`. -/
def clearKeyLight (s : ScaleQuantizer2) (i : Nat) : ScaleQuantizer2 :=
  { s with keyLight := fun k => if k = (i : Int) then 0 else s.keyLight k }

/-- The two blocks that refresh the scale and key lights. -/
def lightsBlock (M : Music) (s : ScaleQuantizer2) : ScaleQuantizer2 :=
  let s : ScaleQuantizer2 :=
    if s.lastScale ≠ s.currScale ∨ s.firstStep = true then
      let s := (List.range M.NUM_NOTES).foldl clearScaleLight s
      { s with scaleLight := fun k => if k = s.currScale then 10 else s.scaleLight k }
    else s
  if s.lastRoot ≠ s.currRoot ∨ s.firstStep = true then
    let s := (List.range M.NUM_NOTES).foldl clearKeyLight s
    { s with keyLight := fun k => if k = s.currRoot then 10 else s.keyLight k }
  else s

/-- The head of `process`: the previous scale and root are remembered and the
current ones are read from the inputs or the knobs. -/
def readKeyScale (M : Music) (s : ScaleQuantizer2) (inp : QInputs) : ScaleQuantizer2 :=
  let s := { s with lastScale := s.currScale }
  let s := { s with lastRoot := s.currRoot }
  let s := { s with currRoot :=
    if inp.keyConnected then M.getKeyFromVolts inp.keyVoltage else toInt inp.keyParam }
  { s with currScale :=
    if inp.scaleConnected then M.getScaleFromVolts inp.scaleVoltage
    else toInt inp.scaleParam }

/-- `ScaleQuantizer2::process`; `TRIGGER` is the pulse width `digital::TRIGGER`. -/
def process (M : Music) (TRIGGER : ℚ) (s : ScaleQuantizer2) (inp : QInputs) :
    ScaleQuantizer2 :=
  let s := readKeyScale M s inp
  let t := transBlock M s inp
  let s := t.1
  let trans := t.2
  let s := (List.range 8).foldl (laneStep M TRIGGER inp trans) s
  let s := lightsBlock M s
  { s with firstStep := false }

end ScaleQuantizer2
/-- The six array entries of one channel of one lane. -/
structure Cell where
  hold : ℚ
  last : ℚ
  pulse : PulseGenerator
  state : Bool
  out : ℚ
  trig : ℚ

namespace ScaleQuantizer2

/-- The entries `[a][b]` of the arrays and output ports of the quantizer. -/
def cell (s : ScaleQuantizer2) (a b : Nat) : Cell :=
  { hold := s.holdPitch a b, last := s.lastPitch a b, pulse := s.triggerPulse a b,
    state := s.holdState a b, out := s.out_OUT a b, trig := s.out_TRIG a b }

/-- The held pitch of channel `j` of lane `i` after the hold logic of one invocation,
from the held pitch `old` before it, by the number of hold channels and CV channels
of the lane. -/
def heldAfter (M : Music) (inp : QInputs) (root scale : Int) (old : ℚ) (i j : Nat) : ℚ :=
  if inp.holdChannels i = 0 then M.getPitchFromVolts (inp.cvVoltage i j) root scale
  else if inp.holdChannels i = 1 then
    if inp.holdEdge i 0 then M.getPitchFromVolts (inp.cvVoltage i j) root scale else old
  else if inp.cvChannels i = 1 then
    if inp.holdEdge i j then M.getPitchFromVolts (inp.cvVoltage i 0) root scale else old
  else
    if inp.holdEdge i j then M.getPitchFromVolts (inp.cvVoltage i j) root scale else old

/-- What one pass of the channel loop does to the entries of its own channel. -/
def cellStep (M : Music) (T : ℚ) (inp : QInputs) (root scale : Int) (shift trans : ℚ)
    (i j : Nat) (c : Cell) : Cell :=
  let hold := heldAfter M inp root scale c.hold i j
  let r := (if c.last ≠ hold then c.pulse.trigger T else c.pulse).process inp.sampleTime
  { hold := hold, last := hold, pulse := r.1, state := inp.holdEdge i j,
    out := hold + shift + trans, trig := if r.2 then 10 else 0 }

/-- Number of channels of lane `i` that one invocation processes. -/
def nChannels (inp : QInputs) (i : Nat) : Nat := max (inp.cvChannels i) (inp.holdChannels i)

end ScaleQuantizer2
namespace ScaleQuantizer2

/-- The value of the local `trans` of `process` when the lane loop starts: the global
transposition that this invocation adds to every output. -/
def trans (M : Music) (s : ScaleQuantizer2) (inp : QInputs) : ℚ :=
  (transBlock M (readKeyScale M s inp) inp).2

/-- The state after a sequence of invocations of `process`. -/
def run (M : Music) (TRIGGER : ℚ) (s : ScaleQuantizer2) (inps : List QInputs) :
    ScaleQuantizer2 :=
  inps.foldl (process M TRIGGER) s

end ScaleQuantizer2
/-- A sample quantization lookup for the scenarios: a pitch is rounded down to a whole
number of semitones, whatever the root and the scale. -/
def semitones : Music :=
  { getPitchFromVolts := fun v _ _ => ((⌊v * 12⌋ : Int) : ℚ) / 12
    getKeyFromVolts := fun v => ⌊v * 12⌋
    getScaleFromVolts := fun v => ⌊v * 12⌋
    NOTE_C := 0
    SCALE_CHROMATIC := 0
    NUM_NOTES := 12 }

/-- A sample invocation for the scenarios: lane 0 has `cv` CV channels, channel `c` at
`(2 c + 1) / 24` volts, and `hold` hold channels whose edge detectors report `edge`;
the other lanes are unpatched, the key and scale knobs are at 0, the transposition
knob is at `semis` semitones and the sample rate is 48 kHz. -/
def laneInput (cv hold : Nat) (edge : Nat → Bool) (semis : ℚ) : QInputs :=
  { keyConnected := false
    keyVoltage := 0
    keyParam := 0
    scaleConnected := false
    scaleVoltage := 0
    scaleParam := 0
    transVoltage := 0
    transParam := semis
    shiftParam := fun i => if i = 0 then 1 else 0
    cvChannels := fun i => if i = 0 then cv else 0
    holdChannels := fun i => if i = 0 then hold else 0
    cvVoltage := fun _ c => (2 * (c : ℚ) + 1) / 24
    holdEdge := fun i j => decide (i = 0) && edge j
    sampleTime := 1 / 48000 }
/-- The raw transposition of an invocation, in volts:
`(inputs[TRANS_INPUT].getVoltage() + params[TRANS_PARAM].getValue()) / 12.0`. -/
def rawTrans (inp : QInputs) : ℚ := (inp.transVoltage + inp.transParam) / 12

/-- Follows the specification rather than the code: the transposition recomputed on
every invocation without a cache, 0 for a raw value of 0 and otherwise the raw
value quantized to the chromatic scale on C. -/
def uncachedTrans (M : Music) (inp : QInputs) : ℚ :=
  if rawTrans inp = 0 then 0
  else M.getPitchFromVolts (rawTrans inp) M.NOTE_C M.SCALE_CHROMATIC

/-! ## Facts about the C integer helpers -/

theorem cabs_nonneg (x : Int) : 0 ≤ cabs x := by
  unfold cabs; split <;> omega

theorem cabs_of_nonneg {x : Int} (h : 0 ≤ x) : cabs x = x := by
  unfold cabs; split <;> omega

theorem cmod_of_nonneg {a b : Int} (ha : 0 ≤ a) (hb : 0 < b) : cmod a b = a % b := by
  unfold cmod; exact Int.tmod_eq_emod ha (Int.le_of_lt hb)

theorem cmod_lt (a : Int) {b : Int} (hb : 0 < b) : cmod a b < b :=
  Int.tmod_lt_of_pos a hb

theorem cmod_gt (a : Int) {b : Int} (hb : 0 < b) : -b < cmod a b := by
  unfold cmod
  rcases Int.le_total 0 a with h | h
  · have := Int.tmod_nonneg b h; omega
  · have h1 : (-a).tmod b < b := Int.tmod_lt_of_pos _ hb
    have h2 : (-a).tmod b = -(a.tmod b) := by
      rw [Int.tmod_def, Int.tmod_def, Int.neg_tdiv]; ring
    omega

theorem cabs_cmod_lt (a : Int) {b : Int} (hb : 0 < b) : cabs (cmod a b) < b := by
  have h1 := cmod_lt a hb
  have h2 := cmod_gt a hb
  unfold cabs; split <;> omega

/-! ## Facts about the patterns -/

namespace RightArp

theorem right_iterate_advance (k : Nat) (a : RightArp) :
    (advance^[k] a).index = a.index + k ∧ (advance^[k] a).nPitches = a.nPitches := by
  induction k generalizing a with
  | zero => simp
  | succ k ih =>
    rw [Function.iterate_succ_apply]
    obtain ⟨h1, h2⟩ := ih a.advance
    rw [h1, h2]; simp [advance]; omega

end RightArp

namespace LeftArp

theorem left_iterate_advance (k : Nat) (a : LeftArp) :
    (advance^[k] a).index = a.index - k ∧ (advance^[k] a).nPitches = a.nPitches := by
  induction k generalizing a with
  | zero => simp
  | succ k ih =>
    rw [Function.iterate_succ_apply]
    obtain ⟨h1, h2⟩ := ih a.advance
    rw [h1, h2]; simp [advance]; omega

end LeftArp

namespace RightLeftArp

theorem rightLeft_initialise_eq (a : RightLeftArp) (np offset : Int) (r : Bool) :
    a.initialise np offset r =
      { currSt := offset, mag := np - 1, end_ := foldEnd np offset r, nPitches := np } := by
  by_cases h1 : 2 * (np - 1) - 1 < 1 <;> by_cases h2 : (1 : Int) < offset <;>
    by_cases h3 : 2 * (np - 1) - 1 < offset <;> by_cases h4 : offset > 0 <;>
    cases r <;> simp [initialise, foldEnd, h1, h2, h3, h4]

end RightLeftArp

namespace LeftRightArp

theorem leftRight_initialise_eq (a : LeftRightArp) (np offset : Int) (r : Bool) :
    a.initialise np offset r =
      { currSt := offset, mag := np - 1, end_ := foldEnd np offset r, nPitches := np } := by
  by_cases h1 : 2 * (np - 1) - 1 < 1 <;> by_cases h2 : (1 : Int) < offset <;>
    by_cases h3 : 2 * (np - 1) - 1 < offset <;> by_cases h4 : offset > 0 <;>
    cases r <;> simp [initialise, foldEnd, h1, h2, h3, h4]

end LeftRightArp

namespace Arpeggio

theorem initialise_fresh (p : Arpeggio) (N offset : Int) (r : Bool) :
    p.initialise N offset r = p.fresh.initialise N offset r := by
  cases p with
  | right a => simp only [initialise, fresh, RightArp.initialise]; split <;> rfl
  | left a => simp only [initialise, fresh, LeftArp.initialise]; split <;> rfl
  | rightLeft a => simp only [initialise, fresh, RightLeftArp.rightLeft_initialise_eq]
  | leftRight a => simp only [initialise, fresh, LeftRightArp.leftRight_initialise_eq]

theorem inRange_initialise (p : Arpeggio) {N offset : Int} (r : Bool)
    (hN : 1 ≤ N) (hoff : 0 ≤ offset) : InRange N (p.initialise N offset r) := by
  have hpos : 0 < N := by omega
  have hm := Int.emod_nonneg offset (show N ≠ 0 by omega)
  have hl := Int.emod_lt_of_pos offset hpos
  cases p with
  | right a =>
    by_cases h : offset = 0
    · simp only [initialise, RightArp.initialise, InRange, h, ne_eq, not_true_eq_false, if_false]
      refine ⟨trivial, ?_, ?_⟩ <;> omega
    · simp only [initialise, RightArp.initialise, InRange, h, ne_eq, not_false_eq_true, if_true,
        cmod_of_nonneg hoff hpos]
      refine ⟨trivial, ?_, ?_⟩ <;> omega
  | left a =>
    by_cases h : offset = 0
    · simp only [initialise, LeftArp.initialise, InRange, h, ne_eq, not_true_eq_false, if_false]
      refine ⟨trivial, ?_, ?_⟩ <;> omega
    · simp only [initialise, LeftArp.initialise, InRange, h, ne_eq, not_false_eq_true, if_true,
        cmod_of_nonneg hoff hpos]
      refine ⟨trivial, ?_, ?_⟩ <;> omega
  | rightLeft a => simp only [initialise, RightLeftArp.rightLeft_initialise_eq, InRange]
  | leftRight a => simp only [initialise, LeftRightArp.leftRight_initialise_eq, InRange]

theorem nPitches_initialise (p : Arpeggio) (N offset : Int) (r : Bool) :
    (p.initialise N offset r).nPitches = N := by
  cases p with
  | right a => simp only [initialise, nPitches, RightArp.initialise]
  | left a => simp only [initialise, nPitches, LeftArp.initialise]
  | rightLeft a => simp only [initialise, nPitches, RightLeftArp.rightLeft_initialise_eq]
  | leftRight a => simp only [initialise, nPitches, LeftRightArp.leftRight_initialise_eq]

theorem inRange_advance {N : Int} {p : Arpeggio} (h : InRange N p)
    (hf : p.isArpeggioFinished = false) : InRange N p.advance := by
  cases p with
  | right a =>
    simp only [InRange, advance, RightArp.advance, isArpeggioFinished,
      RightArp.isArpeggioFinished, decide_eq_false_iff_not] at *
    omega
  | left a =>
    simp only [InRange, advance, LeftArp.advance, isArpeggioFinished,
      LeftArp.isArpeggioFinished, decide_eq_false_iff_not] at *
    omega
  | rightLeft a => exact h
  | leftRight a => exact h

theorem getPitch_of_inRange {N : Int} {p : Arpeggio} (hN : 1 ≤ N) (h : InRange N p) :
    0 ≤ p.getPitch ∧ p.getPitch ≤ N - 1 := by
  have hpos : 0 < N := by omega
  cases p with
  | right a => simp only [InRange, getPitch, RightArp.getPitch] at *; omega
  | left a => simp only [InRange, getPitch, LeftArp.getPitch] at *; omega
  | rightLeft a =>
    simp only [InRange, getPitch, RightLeftArp.getPitch] at *
    rw [h]
    have := cabs_cmod_lt (a.mag - cabs (a.mag - a.currSt)) hpos
    have := cabs_nonneg (cmod (a.mag - cabs (a.mag - a.currSt)) N)
    omega
  | leftRight a =>
    simp only [InRange, getPitch, LeftRightArp.getPitch] at *
    rw [h, cabs_of_nonneg (cabs_nonneg _)]
    have := cabs_cmod_lt (a.mag - a.currSt) hpos
    have := cabs_nonneg (cmod (a.mag - a.currSt) N)
    omega

theorem inRange_of_steps {N : Int} {p q : Arpeggio} (h : InRange N p) (hs : Steps p q) :
    InRange N q := by
  induction hs with
  | refl => exact h
  | step _ hf ih => exact inRange_advance ih hf

theorem cycle_succ {fuel : Nat} {a : Arpeggio} {l : List Int} (h : cycle fuel a = some l) :
    cycle (fuel + 1) a = some l := by
  induction fuel generalizing a l with
  | zero =>
    simp only [cycle] at h ⊢
    split at h
    · rename_i hf; simp only [hf, if_true]; exact h
    · exact absurd h (by simp)
  | succ n ih =>
    rw [cycle] at h ⊢
    split at h
    · rename_i hf; simp only [hf, if_true]; exact h
    · rename_i hf
      simp only [hf]
      cases hc : cycle n a.advance with
      | none => rw [hc] at h; exact absurd h (by simp)
      | some l1 => rw [hc] at h; rw [ih hc]; exact h

theorem cycle_add {fuel : Nat} {a : Arpeggio} {l : List Int} (k : Nat)
    (h : cycle fuel a = some l) : cycle (fuel + k) a = some l := by
  induction k with
  | zero => exact h
  | succ k ih => exact cycle_succ ih

theorem cycle_unique {f g : Nat} {a : Arpeggio} {l m : List Int}
    (h1 : cycle f a = some l) (h2 : cycle g a = some m) : l = m := by
  have e1 := cycle_add g h1
  have e2 := cycle_add f h2
  rw [Nat.add_comm] at e2
  rw [e1] at e2
  exact Option.some.inj e2

end Arpeggio

namespace RightArp

theorem right_initialise_val (a : RightArp) {N offset : Int} (r : Bool) (hN : 1 ≤ N)
    (hoff : 0 ≤ offset) : a.initialise N offset r = { index := offset % N, nPitches := N } := by
  have hpos : 0 < N := by omega
  by_cases h : offset = 0
  · simp [initialise, h]
  · simp [initialise, h, cmod_of_nonneg hoff hpos]

end RightArp

namespace LeftArp

theorem left_initialise_val (a : LeftArp) {N offset : Int} (r : Bool) (hN : 1 ≤ N)
    (hoff : 0 ≤ offset) :
    a.initialise N offset r = { index := N - 1 - offset % N, nPitches := N } := by
  have hpos : 0 < N := by omega
  by_cases h : offset = 0
  · simp [initialise, h]
  · simp [initialise, h, cmod_of_nonneg hoff hpos]; omega

end LeftArp

/-! ## Facts about the blocks of `process` -/

theorem foldl_push_filter_map {α β : Type} (c : α → Prop) [DecidablePred c] (f : α → β)
    (l : List α) (acc : List β) :
    l.foldl (fun acc p => if c p then acc ++ [f p] else acc) acc
      = acc ++ (l.filter (fun p => decide (c p))).map f := by
  induction l generalizing acc with
  | nil => simp
  | cons x xs ih =>
    rw [List.foldl_cons, ih]
    by_cases hx : c x <;> simp [hx, List.filter_cons]

theorem foldl_push_map {α β : Type} (f : α → β) (l : List α) (acc : List β) :
    l.foldl (fun acc p => acc ++ [f p]) acc = acc ++ l.map f := by
  induction l generalizing acc with
  | nil => simp
  | cons x xs ih => rw [List.foldl_cons, ih]; simp

theorem foldl_push {α : Type} (l acc : List α) :
    l.foldl (fun acc x => acc ++ [x]) acc = acc ++ l := by
  induction l generalizing acc with
  | nil => simp
  | cons x xs ih => rw [List.foldl_cons, ih]; simp

theorem ite_nil_ne_nil (l : List ℚ) : (if l = [] then [0] else l) ≠ [] := by
  split
  · simp
  · assumption

theorem capturedPitchSet_ne_nil (inp : Inputs) : capturedPitchSet inp ≠ [] :=
  ite_nil_ne_nil _

theorem capturedPitchSet_length_pos (inp : Inputs) : 1 ≤ (capturedPitchSet inp).length := by
  have h := capturedPitchSet_ne_nil inp
  cases hc : capturedPitchSet inp with
  | nil => exact absurd hc h
  | cons x xs => simp

namespace Arpeggio

theorem initialiseFaults_of_ne (p : Arpeggio) {np : Int} (offset : Int) (h : np ≠ 0) :
    p.initialiseFaults np offset = false := by
  cases p <;> simp [initialiseFaults, h]

theorem getPitchFaults_of_inRange {N : Int} {p : Arpeggio} (hN : 1 ≤ N) (h : InRange N p) :
    p.getPitchFaults = false := by
  cases p <;> simp only [getPitchFaults, InRange] at * <;> simp <;> omega

end Arpeggio

namespace Arp31

theorem readInputPitches_eq (inp : Inputs) :
    readInputPitches inp =
      if inp.pitchConnected then
        if inp.gateConnected then
          ((List.range inp.pitchChannels).filter (fun p => decide (inp.gateVoltage p > 0))).map
            inp.pitchVoltage
        else (List.range inp.pitchChannels).map inp.pitchVoltage
      else [] := by
  unfold readInputPitches
  split
  · split
    · rw [foldl_push_filter_map (fun p => inp.gateVoltage p > 0)]; simp
    · rw [foldl_push_map]; simp
  · rfl

theorem restart_pitches_eq (inp : Inputs) :
    (if decide ((readInputPitches inp).length = 0) = true then readInputPitches inp ++ [0]
      else readInputPitches inp) = capturedPitchSet inp := by
  unfold capturedPitchSet
  rw [← readInputPitches_eq]
  simp only [decide_eq_true_eq, List.length_eq_zero]
  split
  · rename_i h; rw [h]; rfl
  · rfl

theorem selectArp_cases (n : Int) :
    selectArp n = .arp_right ∨ selectArp n = .arp_left ∨
      selectArp n = .arp_rightleft ∨ selectArp n = .arp_leftright := by
  unfold selectArp
  split_ifs <;> simp

theorem restartBlock_spec (s : Arp31) (inp : Inputs) (offset : Int) :
    ∃ s', restartBlock s inp offset = some s' ∧
      s'.pitches = capturedPitchSet inp ∧ s'.currArp = selectArp s.inputArp ∧
      s'.get s'.currArp = (s.get (selectArp s.inputArp)).initialise
        (capturedPitchSet inp).length offset s.repeatEnd ∧
      s'.isRunning = true ∧ s'.outVolts = s.outVolts ∧ s'.gateMode = s.gateMode ∧
      s'.repeatEnd = s.repeatEnd ∧ s'.inputArp = s.inputArp ∧ s'.out_OUT = s.out_OUT := by
  have hlen : ((capturedPitchSet inp).length : Int) ≠ 0 := by
    have := capturedPitchSet_length_pos inp; omega
  unfold restartBlock
  simp only [restart_pitches_eq, foldl_push, List.nil_append,
    Arpeggio.initialiseFaults_of_ne _ _ hlen]
  refine ⟨_, rfl, ?_⟩
  by_cases hg : (readInputPitches inp).length = 0 <;>
    rcases selectArp_cases s.inputArp with e | e | e | e <;>
    simp [hg, e, get, set, Arpeggio.initialise]

theorem prologue_spec (s : Arp31) (inp : Inputs) :
    (prologue s inp).isRunning = (s.isRunning && inp.clockActive) ∧
    (prologue s inp).inputArp = inp.selector ∧
    (prologue s inp).pitches = s.pitches ∧ (prologue s inp).currArp = s.currArp ∧
    (∀ r, (prologue s inp).get r = s.get r) ∧ (prologue s inp).outVolts = s.outVolts ∧
    (prologue s inp).gateMode = s.gateMode ∧ (prologue s inp).repeatEnd = s.repeatEnd ∧
    (prologue s inp).out_OUT = s.out_OUT := by
  unfold prologue Inputs.selector
  cases inp.clockActive <;> simp <;> intro r <;> cases r <;> rfl

theorem clockBlock_idle (T : ℚ) {s : Arp31} (h : s.isRunning = false) :
    ∃ s1, clockBlock T s = some (s1, true) ∧ s1.isRunning = false ∧
      s1.pitches = s.pitches ∧ s1.currArp = s.currArp ∧ (∀ r, s1.get r = s.get r) ∧
      s1.outVolts = s.outVolts ∧ s1.gateMode = s.gateMode ∧ s1.repeatEnd = s.repeatEnd ∧
      s1.inputArp = s.inputArp ∧ s1.out_OUT = s.out_OUT := by
  unfold clockBlock
  cases he : s.eoc
  all_goals simp [h]
  all_goals (intro r; cases r <;> rfl)

theorem clockBlock_running (T : ℚ) {s : Arp31} {v : ℚ} (h : s.isRunning = true)
    (hf : (s.get s.currArp).getPitchFaults = false)
    (hv : readPitch s.pitches (s.get s.currArp).getPitch = some v) :
    ∃ s1, clockBlock T s = some (s1, (s.get s.currArp).isArpeggioFinished) ∧
      s1.isRunning = true ∧ s1.pitches = s.pitches ∧ s1.currArp = s.currArp ∧
      s1.get s1.currArp = (s.get s.currArp).advance ∧
      s1.outVolts = clamp v (-10) 10 ∧ s1.gateMode = s.gateMode ∧
      s1.repeatEnd = s.repeatEnd ∧ s1.inputArp = s.inputArp ∧ s1.out_OUT = s.out_OUT := by
  unfold clockBlock
  cases hc : s.currArp <;> rw [hc] at hf hv <;> simp only [get] at hf hv <;>
    cases he : s.eoc <;>
    cases hfin : (s.get s.currArp).isArpeggioFinished <;>
    rw [hc] at hfin <;> simp only [get] at hfin <;>
    simp [h, hc, get, set, hf, hv, hfin, Arpeggio.advance]

theorem get_fresh (s : Arp31) (r : ArpRef) : (s.get r).fresh = r.fresh := by
  cases r <;> rfl

theorem uiLength_ne_zero (l : List ℚ) :
    (if l.length ≠ 0 then (l.length : Int) else 1) ≠ 0 := by
  split <;> omega

theorem selectUi_cases (n : Int) :
    selectUi n = .ui_arp_right ∨ selectUi n = .ui_arp_left ∨
      selectUi n = .ui_arp_rightleft ∨ selectUi n = .ui_arp_leftright := by
  unfold selectUi
  split_ifs <;> simp

theorem outputBlock_spec (s : Arp31) (inp : Inputs) (offset : Int) :
    ∃ s', outputBlock s inp offset = some s' ∧
      s'.isRunning = s.isRunning ∧ s'.pitches = s.pitches ∧ s'.currArp = s.currArp ∧
      (∀ r, s'.get r = s.get r) ∧ s'.outVolts = s.outVolts ∧ s'.out_OUT = s.outVolts ∧
      s'.gateMode = s.gateMode ∧ s'.repeatEnd = s.repeatEnd ∧
      s'.out_GATE = (if gatesOn s'.gateMode s'.isRunning (decide (0 < s'.gatePulse.remaining))
        then 10 else 0) := by
  have hnp := uiLength_ne_zero s.pitches
  unfold outputBlock
  simp only [Arpeggio.initialiseFaults_of_ne _ _ hnp]
  refine ⟨_, rfl, ?_⟩
  rcases selectUi_cases s.inputArp with e | e | e | e <;>
    simp [e, setUi, getUi, Arpeggio.initialise, get, gatesOn, PulseGenerator.process]

theorem process_warmup (T : ℚ) (s : Arp31) {inp : Inputs} (h : inp.stepX < 10) :
    process T s inp = some s := by
  unfold process; simp [h]

theorem process_output (T : ℚ) {s s' : Arp31} {inp : Inputs} (hstep : 10 ≤ inp.stepX)
    (h : process T s inp = some s') :
    ∃ s3, outputBlock s3 inp (toInt inp.offsetParam) = some s' := by
  unfold process at h
  simp only [not_lt.mpr hstep, if_false] at h
  split at h
  · exact absurd h (by simp)
  · split at h
    · exact absurd h (by simp)
    · exact ⟨_, h⟩

theorem process_no_edge (T : ℚ) (s : Arp31) {inp : Inputs} (hstep : 10 ≤ inp.stepX)
    (hc : inp.clockStatus = false) :
    ∃ s', process T s inp = some s' ∧
      s'.isRunning = (s.isRunning && inp.clockActive) ∧ s'.pitches = s.pitches ∧
      s'.currArp = s.currArp ∧ (∀ r, s'.get r = s.get r) ∧ s'.outVolts = s.outVolts ∧
      s'.out_OUT = s.outVolts ∧ s'.gateMode = s.gateMode ∧ s'.repeatEnd = s.repeatEnd := by
  obtain ⟨p1, -, p3, p4, p5, p6, p7, p8, -⟩ := prologue_spec s inp
  obtain ⟨s3, h3, o1, o2, o3, o4, o5, o6, o7, o8, -⟩ :=
    outputBlock_spec (prologue s inp) inp (toInt inp.offsetParam)
  refine ⟨s3, ?_, ?_⟩
  · unfold process; simp only [not_lt.mpr hstep, if_false, hc]; simpa using h3
  · refine ⟨by rw [o1, p1], by rw [o2, p3], by rw [o3, p4], fun r => by rw [o4, p5],
      by rw [o5, p6], by rw [o6, p6], by rw [o7, p7], by rw [o8, p8]⟩

theorem process_edge_idle (T : ℚ) (s : Arp31) {inp : Inputs} (hstep : 10 ≤ inp.stepX)
    (hc : inp.clockStatus = true) (hidle : (s.isRunning && inp.clockActive) = false) :
    ∃ s', process T s inp = some s' ∧ s'.isRunning = true ∧
      s'.pitches = capturedPitchSet inp ∧ s'.currArp = selectArp inp.selector ∧
      s'.get s'.currArp = (selectArp inp.selector).fresh.initialise
        (capturedPitchSet inp).length (toInt inp.offsetParam) s.repeatEnd ∧
      s'.outVolts = s.outVolts ∧ s'.out_OUT = s.outVolts ∧
      s'.gateMode = s.gateMode ∧ s'.repeatEnd = s.repeatEnd := by
  obtain ⟨p1, p2, -, -, -, p6, p7, p8, -⟩ := prologue_spec s inp
  obtain ⟨s1, h1, -, -, -, -, c5, c6, c7, c8, -⟩ :=
    clockBlock_idle T (s := prologue s inp) (by rw [p1]; exact hidle)
  obtain ⟨s2, h2, r1, r2, r3, r4, r5, r6, r7, -⟩ :=
    restartBlock_spec s1 inp (toInt inp.offsetParam)
  obtain ⟨s3, h3, o1, o2, o3, o4, o5, o6, o7, o8, -⟩ :=
    outputBlock_spec s2 inp (toInt inp.offsetParam)
  refine ⟨s3, ?_, ?_⟩
  · unfold process; simp only [not_lt.mpr hstep, if_false, hc, if_true, h1, h2]; exact h3
  · rw [c8, p2] at r2 r3
    rw [Arpeggio.initialise_fresh, get_fresh, c7, p8] at r3
    refine ⟨by rw [o1, r4], by rw [o2, r1], by rw [o3, r2], ?_, by rw [o5, r5, c5, p6],
      by rw [o6, r5, c5, p6], by rw [o7, r6, c6, p7], by rw [o8, r7, c7, p8]⟩
    rw [o4, o3]; exact r3

theorem process_edge_running (T : ℚ) {s : Arp31} {inp : Inputs} {v : ℚ}
    (hstep : 10 ≤ inp.stepX) (hc : inp.clockStatus = true) (hrun : s.isRunning = true)
    (hact : inp.clockActive = true)
    (hf : (s.get s.currArp).getPitchFaults = false)
    (hv : readPitch s.pitches (s.get s.currArp).getPitch = some v) :
    ∃ s', process T s inp = some s' ∧ s'.isRunning = true ∧
      s'.outVolts = clamp v (-10) 10 ∧ s'.out_OUT = clamp v (-10) 10 ∧
      s'.gateMode = s.gateMode ∧ s'.repeatEnd = s.repeatEnd ∧
      ((s.get s.currArp).isArpeggioFinished = false →
        s'.pitches = s.pitches ∧ s'.currArp = s.currArp ∧
        s'.get s'.currArp = (s.get s.currArp).advance) ∧
      ((s.get s.currArp).isArpeggioFinished = true →
        s'.pitches = capturedPitchSet inp ∧ s'.currArp = selectArp inp.selector ∧
        s'.get s'.currArp = (selectArp inp.selector).fresh.initialise
          (capturedPitchSet inp).length (toInt inp.offsetParam) s.repeatEnd) := by
  obtain ⟨p1, p2, p3, p4, p5, -, p7, p8, -⟩ := prologue_spec s inp
  have hrun1 : (prologue s inp).isRunning = true := by rw [p1, hrun, hact]; rfl
  obtain ⟨s1, h1, c1, c2, c3, c4, c5, c6, c7, c8, -⟩ :=
    clockBlock_running T (s := prologue s inp) (v := v) hrun1
      (by rw [p4, p5]; exact hf) (by rw [p3, p4, p5]; exact hv)
  rw [p4, p5] at h1 c4
  cases hfin : (s.get s.currArp).isArpeggioFinished
  · obtain ⟨s3, h3, o1, o2, o3, o4, o5, o6, o7, o8, -⟩ :=
      outputBlock_spec s1 inp (toInt inp.offsetParam)
    refine ⟨s3, ?_, ?_⟩
    · unfold process
      simp only [not_lt.mpr hstep, if_false, hc, if_true, h1, hfin]
      exact h3
    · refine ⟨by rw [o1, c1], by rw [o5, c5], by rw [o6, c5], by rw [o7, c6, p7],
        by rw [o8, c7, p8], fun _ => ⟨by rw [o2, c2, p3], by rw [o3, c3, p4], ?_⟩,
        fun h => absurd h (by simp)⟩
      rw [o4, o3, c4]
  · obtain ⟨s2, h2, r1, r2, r3, r4, r5, r6, r7, -⟩ :=
      restartBlock_spec s1 inp (toInt inp.offsetParam)
    obtain ⟨s3, h3, o1, o2, o3, o4, o5, o6, o7, o8, -⟩ :=
      outputBlock_spec s2 inp (toInt inp.offsetParam)
    refine ⟨s3, ?_, ?_⟩
    · unfold process
      simp only [not_lt.mpr hstep, if_false, hc, if_true, h1, hfin, h2]
      exact h3
    · rw [c8, p2] at r2 r3
      rw [Arpeggio.initialise_fresh, get_fresh, c7, p8] at r3
      refine ⟨by rw [o1, r4], by rw [o5, r5, c5], by rw [o6, r5, c5], by rw [o7, r6, c6, p7],
        by rw [o8, r7, c7, p8], fun h => absurd h (by simp),
        fun _ => ⟨by rw [o2, r1], by rw [o3, r2], ?_⟩⟩
      rw [o4, o3]; exact r3

end Arp31

/-! ## Invariants of the engine -/

theorem toInt_nonneg {q : ℚ} (h : 0 ≤ q) : 0 ≤ toInt q := by
  unfold toInt
  exact Int.tdiv_nonneg (Rat.num_nonneg.mpr h) (Int.ofNat_nonneg _)

theorem clamp_bounds (v : ℚ) : -10 ≤ clamp v (-10) 10 ∧ clamp v (-10) 10 ≤ 10 := by
  unfold clamp
  refine ⟨le_max_right _ _, max_le (min_le_right _ _) (by norm_num)⟩

theorem readPitch_of_range {l : List ℚ} {i : Int} (h0 : 0 ≤ i) (h1 : i ≤ l.length - 1) :
    ∃ v, readPitch l i = some v := by
  have hlt : i.toNat < l.length := by omega
  exact ⟨l[i.toNat], by simp [readPitch, h0, List.getElem?_eq_getElem hlt]⟩

namespace Arpeggio

theorem nPitches_of_inRange {N : Int} {p : Arpeggio} (h : InRange N p) : p.nPitches = N := by
  cases p <;> simp only [InRange, nPitches] at * <;> first | exact h | exact h.1

end Arpeggio

namespace Arp31

theorem safe_read {s : Arp31} (hs : Safe s) (hrun : s.isRunning = true) :
    (s.get s.currArp).getPitchFaults = false ∧
      ∃ v, readPitch s.pitches (s.get s.currArp).getPitch = some v := by
  obtain ⟨h1, h2⟩ := hs hrun
  have hN : (1 : Int) ≤ s.pitches.length := by omega
  obtain ⟨g0, g1⟩ := Arpeggio.getPitch_of_inRange hN h2
  exact ⟨Arpeggio.getPitchFaults_of_inRange hN h2, readPitch_of_range g0 g1⟩

theorem safe_restart {s' : Arp31} {inp : Inputs} {r : ArpRef} {rep : Bool}
    (hv : inp.Valid) (hp : s'.pitches = capturedPitchSet inp)
    (hg : s'.get s'.currArp = r.fresh.initialise (capturedPitchSet inp).length
      (toInt inp.offsetParam) rep) : Safe s' := by
  intro _
  have hlen := capturedPitchSet_length_pos inp
  rw [hg, hp]
  exact ⟨hlen, Arpeggio.inRange_initialise _ _ (by omega) (toInt_nonneg hv.1)⟩

theorem process_total {T : ℚ} {s : Arp31} (hs : Safe s) (inp : Inputs) :
    ∃ s', process T s inp = some s' := by
  by_cases hstep : inp.stepX < 10
  · exact ⟨s, process_warmup T s hstep⟩
  · have hstep := not_lt.mp hstep
    cases hc : inp.clockStatus
    · obtain ⟨s', h, -⟩ := process_no_edge T s hstep hc
      exact ⟨s', h⟩
    · cases hi : (s.isRunning && inp.clockActive)
      · obtain ⟨s', h, -⟩ := process_edge_idle T s hstep hc hi
        exact ⟨s', h⟩
      · simp only [Bool.and_eq_true] at hi
        obtain ⟨hf, v, hv⟩ := safe_read hs hi.1
        obtain ⟨s', h, -⟩ := process_edge_running T hstep hc hi.1 hi.2 hf hv
        exact ⟨s', h⟩

theorem safe_process {T : ℚ} {s s' : Arp31} {inp : Inputs} (hs : Safe s) (hv : inp.Valid)
    (h : process T s inp = some s') : Safe s' := by
  by_cases hstep : inp.stepX < 10
  · rw [process_warmup T s hstep] at h
    exact (Option.some.inj h) ▸ hs
  · have hstep := not_lt.mp hstep
    cases hc : inp.clockStatus
    · obtain ⟨s'', h', e1, e2, e3, e4, -⟩ := process_no_edge T s hstep hc
      rw [h'] at h
      obtain rfl := Option.some.inj h
      intro hrun
      rw [e1] at hrun
      simp only [Bool.and_eq_true] at hrun
      rw [e2, e3, e4]
      exact hs hrun.1
    · cases hi : (s.isRunning && inp.clockActive)
      · obtain ⟨s'', h', -, e2, e3, e4, -⟩ := process_edge_idle T s hstep hc hi
        rw [h'] at h
        obtain rfl := Option.some.inj h
        exact safe_restart hv e2 e4
      · simp only [Bool.and_eq_true] at hi
        obtain ⟨hf, v, hread⟩ := safe_read hs hi.1
        obtain ⟨s'', h', -, -, -, -, -, ea, er⟩ :=
          process_edge_running T hstep hc hi.1 hi.2 hf hread
        rw [h'] at h
        obtain rfl := Option.some.inj h
        cases hfin : (s.get s.currArp).isArpeggioFinished
        · obtain ⟨e2, e3, e4⟩ := ea hfin
          intro _
          rw [e4, e2]
          obtain ⟨k1, k2⟩ := hs hi.1
          exact ⟨k1, Arpeggio.inRange_advance k2 hfin⟩
        · obtain ⟨e2, e3, e4⟩ := er hfin
          exact safe_restart hv e2 e4

theorem getD_of_total {o : Option Arp31} {d : Arp31} (h : ∃ s, o = some s) :
    o = some (o.getD d) := by
  obtain ⟨s, rfl⟩ := h
  rfl

theorem process_started :
    process pulseWidth initial (chordInput true) = some started :=
  getD_of_total (process_total (fun h => absurd h (by decide)) _)

theorem reachable_safe {T : ℚ} {s : Arp31} (h : Reachable T s) : Safe s := by
  induction h with
  | initial => intro hrun; exact absurd hrun (by decide)
  | process inp _ hv hp ih => exact safe_process ih hv hp
  | setGateMode m _ ih => exact ih
  | setRepeatEnd r _ ih => exact ih
  | onReset _ _ => intro hrun; exact absurd hrun (by simp [onReset])

theorem reachable_gate {T : ℚ} {s : Arp31} (h : Reachable T s) :
    s.out_GATE = 0 ∨ s.out_GATE = 10 := by
  induction h with
  | initial => exact Or.inl rfl
  | @process s s' inp _ _ hp ih =>
    by_cases hstep : inp.stepX < 10
    · rw [process_warmup T s hstep] at hp
      exact (Option.some.inj hp) ▸ ih
    · obtain ⟨s3, h3⟩ := process_output T (not_lt.mp hstep) hp
      obtain ⟨s'', h4, -, -, -, -, -, -, -, -, hg⟩ :=
        outputBlock_spec s3 inp (toInt inp.offsetParam)
      rw [h3] at h4
      obtain rfl := Option.some.inj h4
      rw [hg]
      cases gatesOn s'.gateMode s'.isRunning (decide (0 < s'.gatePulse.remaining)) <;> simp
  | setGateMode m _ ih => exact ih
  | setRepeatEnd r _ ih => exact ih
  | onReset _ ih => exact ih

/-- The held output: the port shows `outVolts`, which lies in `[-10, 10]`. -/
theorem reachable_held {T : ℚ} {s : Arp31} (h : Reachable T s) :
    s.out_OUT = s.outVolts ∧ -10 ≤ s.outVolts ∧ s.outVolts ≤ 10 := by
  induction h with
  | initial => exact ⟨rfl, by decide, by decide⟩
  | @process s s' inp hr hv hp ih =>
    have hs := reachable_safe hr
    by_cases hstep : inp.stepX < 10
    · rw [process_warmup T s hstep] at hp
      exact (Option.some.inj hp) ▸ ih
    · have hstep := not_lt.mp hstep
      cases hc : inp.clockStatus
      · obtain ⟨s'', h', -, -, -, -, e5, e6, -⟩ := process_no_edge T s hstep hc
        rw [h'] at hp
        obtain rfl := Option.some.inj hp
        rw [e5, e6]; exact ⟨rfl, ih.2⟩
      · cases hi : (s.isRunning && inp.clockActive)
        · obtain ⟨s'', h', -, -, -, -, e5, e6, -⟩ := process_edge_idle T s hstep hc hi
          rw [h'] at hp
          obtain rfl := Option.some.inj hp
          rw [e5, e6]; exact ⟨rfl, ih.2⟩
        · simp only [Bool.and_eq_true] at hi
          obtain ⟨hf, v, hread⟩ := safe_read hs hi.1
          obtain ⟨s'', h', -, e5, e6, -⟩ :=
            process_edge_running T hstep hc hi.1 hi.2 hf hread
          rw [h'] at hp
          obtain rfl := Option.some.inj hp
          rw [e5, e6]; exact ⟨rfl, clamp_bounds v⟩
  | setGateMode m _ ih => exact ih
  | setRepeatEnd r _ ih => exact ih
  | onReset _ ih => exact ih

theorem reachable_started : Reachable pulseWidth started :=
  Reachable.process (chordInput true) Reachable.initial ⟨by decide, by decide⟩ process_started

theorem process_played :
    process pulseWidth started (chordInput true) = some played :=
  getD_of_total (process_total (reachable_safe reachable_started) _)

end Arp31

/-! ## One Ascending cycle, invocation by invocation -/

theorem drop_of_getElem? {l : List ℚ} {k : Nat} {v : ℚ} (h : l[k]? = some v) :
    l.drop k = v :: l.drop (k + 1) := by
  obtain ⟨hk, rfl⟩ := List.getElem?_eq_some.mp h
  exact List.drop_eq_getElem_cons hk

theorem take_concat_last {l : List ℚ} {k : Nat} {v : ℚ} (h : l[k]? = some v)
    (hk : k + 1 = l.length) : l.take k ++ [v] = l := by
  have h1 : l.drop k = [v] := by
    rw [drop_of_getElem? h, List.drop_eq_nil_of_le (by omega)]
  have h2 := List.take_append_drop k l
  rw [h1] at h2
  exact h2

theorem readPitch_natCast (l : List ℚ) (k : Nat) : readPitch l (k : Int) = l[k]? := by
  simp [readPitch]

namespace Arp31

theorem edgeOutputs_append (T : ℚ) (l1 l2 : List Inputs) (s s1 s2 : Arp31)
    (o1 o2 : List ℚ) (h1 : edgeOutputs T s l1 = some (o1, s1))
    (h2 : edgeOutputs T s1 l2 = some (o2, s2)) :
    edgeOutputs T s (l1 ++ l2) = some (o1 ++ o2, s2) := by
  induction l1 generalizing s o1 with
  | nil =>
    simp only [edgeOutputs, Option.some.injEq, Prod.mk.injEq] at h1
    obtain ⟨rfl, rfl⟩ := h1
    simpa using h2
  | cons inp rest ih =>
    simp only [List.cons_append, edgeOutputs] at h1 ⊢
    cases hp : process T s inp with
    | none => rw [hp] at h1; exact absurd h1 (by simp)
    | some sa =>
      rw [hp] at h1
      simp only at h1 ⊢
      cases hr : edgeOutputs T sa rest with
      | none => rw [hr] at h1; exact absurd h1 (by simp)
      | some pr =>
        obtain ⟨oa, sb⟩ := pr
        rw [hr] at h1
        simp only [Option.some.injEq, Prod.mk.injEq] at h1
        obtain ⟨rfl, rfl⟩ := h1
        have hi := ih sa oa hr
        simp only [List.append_eq]
        rw [hi]
        cases inp.clockStatus <;> simp

theorem ascending_no_edge (T : ℚ) {P : List ℚ} {k : Nat} {s : Arp31} {inp : Inputs}
    (hs : AscendingAt P k s) (hact : inp.clockActive = true) (hstep : 10 ≤ inp.stepX)
    (hc : inp.clockStatus = false) :
    ∃ s', process T s inp = some s' ∧ AscendingAt P k s' ∧ s'.repeatEnd = s.repeatEnd := by
  obtain ⟨a1, a2, a3, a4⟩ := hs
  obtain ⟨s', h, e1, e2, e3, e4, -, -, -, e8⟩ := process_no_edge T s hstep hc
  refine ⟨s', h, ⟨by rw [e1, a1, hact]; rfl, by rw [e2, a2], by rw [e3, a3], ?_⟩, e8⟩
  rw [e4, e3]; exact a4

theorem ascending_read {P : List ℚ} {k : Nat} {s : Arp31} (hs : AscendingAt P k s) :
    (s.get s.currArp).getPitchFaults = false ∧
      readPitch s.pitches (s.get s.currArp).getPitch = P[k]? ∧
      (s.get s.currArp).isArpeggioFinished = decide (k + 1 ≥ P.length) := by
  obtain ⟨-, a2, -, a4⟩ := hs
  rw [a4, a2]
  refine ⟨rfl, readPitch_natCast P k, ?_⟩
  simp only [Arpeggio.isArpeggioFinished, RightArp.isArpeggioFinished, decide_eq_decide]
  omega

theorem ascending_edge (T : ℚ) {P : List ℚ} {k : Nat} {s : Arp31} {inp : Inputs}
    (hs : AscendingAt P k s) (hact : inp.clockActive = true) (hstep : 10 ≤ inp.stepX)
    (hc : inp.clockStatus = true) (hk : k + 1 < P.length) :
    ∃ s' v, process T s inp = some s' ∧ P[k]? = some v ∧
      s'.out_OUT = clamp v (-10) 10 ∧ AscendingAt P (k + 1) s' ∧
      s'.repeatEnd = s.repeatEnd := by
  obtain ⟨hf, hr, hfin⟩ := ascending_read hs
  obtain ⟨a1, a2, a3, a4⟩ := hs
  have hv : P[k]? = some (P.get ⟨k, by omega⟩) := List.getElem?_eq_getElem (by omega)
  rw [hv] at hr
  have hfin' : (s.get s.currArp).isArpeggioFinished = false := by
    rw [hfin]; simp; omega
  obtain ⟨s', h, e1, -, e3, -, e5, ea, -⟩ :=
    process_edge_running T hstep hc a1 hact hf hr
  obtain ⟨b1, b2, b3⟩ := ea hfin'
  refine ⟨s', _, h, hv, e3, ⟨e1, by rw [b1, a2], by rw [b2, a3], ?_⟩, e5⟩
  rw [b3, a4]
  simp [Arpeggio.advance, RightArp.advance]

theorem ascending_last_edge (T : ℚ) {P : List ℚ} {k : Nat} {s : Arp31} {inp : Inputs}
    (hs : AscendingAt P k s) (hact : inp.clockActive = true) (hstep : 10 ≤ inp.stepX)
    (hc : inp.clockStatus = true) (hk : k + 1 = P.length) :
    ∃ s' v, process T s inp = some s' ∧ P[k]? = some v ∧
      s'.out_OUT = clamp v (-10) 10 ∧ s'.isRunning = true ∧
      s'.pitches = capturedPitchSet inp ∧ s'.currArp = selectArp inp.selector ∧
      s'.get s'.currArp = (selectArp inp.selector).fresh.initialise
        (capturedPitchSet inp).length (toInt inp.offsetParam) s.repeatEnd := by
  obtain ⟨hf, hr, hfin⟩ := ascending_read hs
  obtain ⟨a1, a2, a3, a4⟩ := hs
  have hv : P[k]? = some (P.get ⟨k, by omega⟩) := List.getElem?_eq_getElem (by omega)
  rw [hv] at hr
  have hfin' : (s.get s.currArp).isArpeggioFinished = true := by
    rw [hfin]; simp; omega
  obtain ⟨s', h, e1, -, e3, -, -, -, er⟩ :=
    process_edge_running T hstep hc a1 hact hf hr
  obtain ⟨b1, b2, b3⟩ := er hfin'
  exact ⟨s', _, h, hv, e3, e1, b1, b2, b3⟩

theorem ascending_run (T : ℚ) (P : List ℚ) (pre : List Inputs) :
    ∀ (k : Nat) (s : Arp31), AscendingAt P k s →
      (∀ i ∈ pre, i.clockActive = true ∧ 10 ≤ i.stepX) →
      k + edgeCount pre < P.length →
      ∃ s', edgeOutputs T s pre
          = some (((P.drop k).take (edgeCount pre)).map (fun v => clamp v (-10) 10), s') ∧
        AscendingAt P (k + edgeCount pre) s' ∧ s'.repeatEnd = s.repeatEnd := by
  induction pre with
  | nil =>
    intro k s hs _ _
    exact ⟨s, by simp [edgeOutputs, edgeCount], by simpa [edgeCount] using hs, rfl⟩
  | cons inp rest ih =>
    intro k s hs hall hlt
    have hin := hall inp (List.mem_cons_self _ _)
    have hrest : ∀ i ∈ rest, i.clockActive = true ∧ 10 ≤ i.stepX :=
      fun i hi => hall i (List.mem_cons_of_mem _ hi)
    cases hc : inp.clockStatus
    · have hcount : edgeCount (inp :: rest) = edgeCount rest := by
        simp [edgeCount, List.filter_cons, hc]
      rw [hcount] at hlt ⊢
      obtain ⟨s1, h1, hs1, r1⟩ := ascending_no_edge T hs hin.1 hin.2 hc
      obtain ⟨s2, h2, hs2, r2⟩ := ih k s1 hs1 hrest hlt
      refine ⟨s2, ?_, hs2, by rw [r2, r1]⟩
      simp only [edgeOutputs, h1, h2, hc]
      rfl
    · have hcount : edgeCount (inp :: rest) = edgeCount rest + 1 := by
        simp [edgeCount, List.filter_cons, hc]
      rw [hcount] at hlt ⊢
      obtain ⟨s1, v, h1, hv, ho, hs1, r1⟩ :=
        ascending_edge T hs hin.1 hin.2 hc (by omega)
      obtain ⟨s2, h2, hs2, r2⟩ := ih (k + 1) s1 hs1 hrest (by omega)
      have hs2' : AscendingAt P (k + (edgeCount rest + 1)) s2 := by
        rw [show k + (edgeCount rest + 1) = k + 1 + edgeCount rest by omega]
        exact hs2
      refine ⟨s2, ?_, hs2', by rw [r2, r1]⟩
      simp only [edgeOutputs, h1, h2, hc, if_true, ho]
      rw [drop_of_getElem? hv, List.take_succ_cons, List.map_cons]

end Arp31

/-! ## The claims about the patterns -/

/-- C2: for each of the four patterns, every `N ≥ 1`, `offset ≥ 0` and `repeatEnds`,
whatever the object held before: after `initialise(N, offset, repeatEnds)` and any
number of `advance()` calls, each made while `isArpeggioFinished()` was false,
`getPitch()` lies in `[0, N-1]`. -/
theorem getPitch_in_range (p q : Arpeggio) (N offset : Int) (repeatEnds : Bool)
    (hN : 1 ≤ N) (hoff : 0 ≤ offset)
    (hsteps : Arpeggio.Steps (p.initialise N offset repeatEnds) q) :
    0 ≤ q.getPitch ∧ q.getPitch ≤ N - 1 :=
  Arpeggio.getPitch_of_inRange hN
    (Arpeggio.inRange_of_steps (Arpeggio.inRange_initialise p repeatEnds hN hoff) hsteps)

theorem getPitch_in_range_witness :
    (1 : Int) ≤ 4 ∧ (0 : Int) ≤ 7 ∧
      Arpeggio.Steps ((Arpeggio.leftRight {}).initialise 4 7 true)
        ((Arpeggio.leftRight {}).initialise 4 7 true).advance ∧
      0 ≤ ((Arpeggio.leftRight {}).initialise 4 7 true).advance.getPitch ∧
      ((Arpeggio.leftRight {}).initialise 4 7 true).advance.getPitch ≤ 4 - 1 :=
  ⟨by decide, by decide, Arpeggio.Steps.step Arpeggio.Steps.refl (by decide),
    getPitch_in_range (Arpeggio.leftRight {}) _ 4 7 true (by decide) (by decide)
      (Arpeggio.Steps.step Arpeggio.Steps.refl (by decide))⟩

/-- C4: for the Ascending and the Descending pattern, `N ≥ 1` and `offset ≥ 0`, the
start position is `offset mod N` resp. `(N-1) - (offset mod N)`, and
`isArpeggioFinished()` first holds after exactly `(N-1) - (offset mod N)` calls of
`advance()`: it holds after that many calls and after no smaller number. -/
theorem one_way_cycle_length (a : RightArp) (b : LeftArp) (N offset : Int)
    (repeatEnds : Bool) (hN : 1 ≤ N) (hoff : 0 ≤ offset) :
    ∃ k : Nat, (k : Int) = (N - 1) - offset % N ∧
      (a.initialise N offset repeatEnds).getPitch = offset % N ∧
      (b.initialise N offset repeatEnds).getPitch = (N - 1) - offset % N ∧
      (RightArp.advance^[k] (a.initialise N offset repeatEnds)).isArpeggioFinished = true ∧
      (∀ j < k,
        (RightArp.advance^[j] (a.initialise N offset repeatEnds)).isArpeggioFinished = false) ∧
      (LeftArp.advance^[k] (b.initialise N offset repeatEnds)).isArpeggioFinished = true ∧
      (∀ j < k,
        (LeftArp.advance^[j] (b.initialise N offset repeatEnds)).isArpeggioFinished = false) := by
  have hpos : 0 < N := by omega
  have hm := Int.emod_nonneg offset (show N ≠ 0 by omega)
  have hl := Int.emod_lt_of_pos offset hpos
  refine ⟨((N - 1) - offset % N).toNat, by omega, ?_, ?_, ?_, ?_, ?_, ?_⟩
  · rw [RightArp.right_initialise_val a repeatEnds hN hoff]; rfl
  · rw [LeftArp.left_initialise_val b repeatEnds hN hoff]; rfl
  · rw [RightArp.right_initialise_val a repeatEnds hN hoff]
    obtain ⟨h1, h2⟩ := RightArp.right_iterate_advance ((N - 1) - offset % N).toNat
      { index := offset % N, nPitches := N }
    simp only [RightArp.isArpeggioFinished, h1, h2, decide_eq_true_eq]
    omega
  · intro j hj
    rw [RightArp.right_initialise_val a repeatEnds hN hoff]
    obtain ⟨h1, h2⟩ := RightArp.right_iterate_advance j { index := offset % N, nPitches := N }
    simp only [RightArp.isArpeggioFinished, h1, h2, decide_eq_false_iff_not]
    omega
  · rw [LeftArp.left_initialise_val b repeatEnds hN hoff]
    obtain ⟨h1, h2⟩ := LeftArp.left_iterate_advance ((N - 1) - offset % N).toNat
      { index := N - 1 - offset % N, nPitches := N }
    simp only [LeftArp.isArpeggioFinished, h1, decide_eq_true_eq]
    omega
  · intro j hj
    rw [LeftArp.left_initialise_val b repeatEnds hN hoff]
    obtain ⟨h1, h2⟩ := LeftArp.left_iterate_advance j { index := N - 1 - offset % N, nPitches := N }
    simp only [LeftArp.isArpeggioFinished, h1, decide_eq_false_iff_not]
    omega

theorem one_way_cycle_length_witness :
    (1 : Int) ≤ 4 ∧ (0 : Int) ≤ 6 ∧
    ∃ k : Nat, (k : Int) = (4 - 1) - 6 % 4 ∧
      (({} : RightArp).initialise 4 6 false).getPitch = 6 % 4 ∧
      (({} : LeftArp).initialise 4 6 false).getPitch = (4 - 1) - 6 % 4 ∧
      (RightArp.advance^[k] (({} : RightArp).initialise 4 6 false)).isArpeggioFinished = true ∧
      (∀ j < k,
        (RightArp.advance^[j] (({} : RightArp).initialise 4 6 false)).isArpeggioFinished
          = false) ∧
      (LeftArp.advance^[k] (({} : LeftArp).initialise 4 6 false)).isArpeggioFinished = true ∧
      (∀ j < k,
        (LeftArp.advance^[j] (({} : LeftArp).initialise 4 6 false)).isArpeggioFinished
          = false) :=
  ⟨by decide, by decide, one_way_cycle_length {} {} 4 6 false (by decide) (by decide)⟩

/-- C5, as stated, fails: no amount of `advance()` calls makes the cycle of the
Ascending-Descending pattern with 4 pitches, offset 0 and `repeatEnds = false` read
`0,1,2,3,2,1,0`. -/
theorem fold_cycle_4_not_seven :
    ¬ ∃ fuel, Arpeggio.cycle fuel ((Arpeggio.rightLeft {}).initialise 4 0 false)
        = some [0, 1, 2, 3, 2, 1, 0] := by
  rintro ⟨fuel, h⟩
  have h5 : Arpeggio.cycle 5 ((Arpeggio.rightLeft {}).initialise 4 0 false)
      = some [0, 1, 2, 3, 2, 1] := by decide
  exact absurd (Arpeggio.cycle_unique h h5) (by decide)

/-- C5, amended: with 4 pitches, offset 0 and `repeatEnds = false`, whatever the
object held before, the cycle is finished after 5 calls of `advance()` and reads
`0,1,2,3,2,1` for Ascending-Descending and `3,2,1,0,1,2` for Descending-Ascending. -/
theorem fold_cycle_4 (a : RightLeftArp) (b : LeftRightArp) :
    Arpeggio.cycle 5 ((Arpeggio.rightLeft a).initialise 4 0 false) = some [0, 1, 2, 3, 2, 1] ∧
    Arpeggio.cycle 5 ((Arpeggio.leftRight b).initialise 4 0 false)
      = some [3, 2, 1, 0, 1, 2] := by
  rw [Arpeggio.initialise_fresh (Arpeggio.rightLeft a),
    Arpeggio.initialise_fresh (Arpeggio.leftRight b)]
  simp only [Arpeggio.fresh]
  exact ⟨by decide, by decide⟩

/-- C6, as stated, fails: for the Ascending-Descending pattern with 4 pitches and
offset 0, the cycle with `repeatEnds = true` is not the cycle with
`repeatEnds = false` followed by one more occurrence of its terminal index. -/
theorem repeat_not_terminal_twice :
    ¬ ∃ (f g : Nat) (l : List Int) (t : Int),
        Arpeggio.cycle f ((Arpeggio.rightLeft {}).initialise 4 0 false) = some l ∧
        l.getLast? = some t ∧
        Arpeggio.cycle g ((Arpeggio.rightLeft {}).initialise 4 0 true) = some (l ++ [t]) := by
  rintro ⟨f, g, l, t, hl, ht, hg⟩
  have h5 : Arpeggio.cycle 5 ((Arpeggio.rightLeft {}).initialise 4 0 false)
      = some [0, 1, 2, 3, 2, 1] := by decide
  have h6 : Arpeggio.cycle 6 ((Arpeggio.rightLeft {}).initialise 4 0 true)
      = some [0, 1, 2, 3, 2, 1, 0] := by decide
  have e := Arpeggio.cycle_unique hl h5
  subst e
  have e2 : t = 1 := by
    have : ([0, 1, 2, 3, 2, 1] : List Int).getLast? = some 1 := by decide
    rw [this] at ht
    exact (Option.some.inj ht).symm
  subst e2
  exact absurd (Arpeggio.cycle_unique hg h6) (by decide)

/-- C6, amended: with 4 pitches and offset 0, whatever the object held before, the
cycle with `repeatEnds = true` is the cycle with `repeatEnds = false` followed by one
more step of the fold, which is the first index of the cycle again:
`0,1,2,3,2,1` then `0` for Ascending-Descending, `3,2,1,0,1,2` then `3` for
Descending-Ascending. -/
theorem repeat_appends_first (a : RightLeftArp) (b : LeftRightArp) :
    Arpeggio.cycle 5 ((Arpeggio.rightLeft a).initialise 4 0 false) = some [0, 1, 2, 3, 2, 1] ∧
    Arpeggio.cycle 6 ((Arpeggio.rightLeft a).initialise 4 0 true)
      = some ([0, 1, 2, 3, 2, 1] ++ [0]) ∧
    Arpeggio.cycle 5 ((Arpeggio.leftRight b).initialise 4 0 false) = some [3, 2, 1, 0, 1, 2] ∧
    Arpeggio.cycle 6 ((Arpeggio.leftRight b).initialise 4 0 true)
      = some ([3, 2, 1, 0, 1, 2] ++ [3]) := by
  rw [Arpeggio.initialise_fresh (Arpeggio.rightLeft a),
    Arpeggio.initialise_fresh (Arpeggio.leftRight b),
    Arpeggio.initialise_fresh (Arpeggio.rightLeft a) 4 0 true,
    Arpeggio.initialise_fresh (Arpeggio.leftRight b) 4 0 true]
  simp only [Arpeggio.fresh]
  exact ⟨by decide, by decide, by decide, by decide⟩

/-- C7: for each of the four patterns and every prior state `p` of the object,
`initialise(N, offset, repeatEnds)` yields the state that a freshly constructed
object of the same subclass reaches, so the state depends on the arguments only;
initialising again with the same arguments changes nothing, and `getPitch()`,
`isArpeggioFinished()` and the state after any number of `advance()` calls agree
with those of the fresh object. -/
theorem initialise_forgets_history (p : Arpeggio) (N offset : Int) (repeatEnds : Bool) :
    p.initialise N offset repeatEnds = p.fresh.initialise N offset repeatEnds ∧
    (p.initialise N offset repeatEnds).initialise N offset repeatEnds
      = p.initialise N offset repeatEnds ∧
    (p.initialise N offset repeatEnds).getPitch
      = (p.fresh.initialise N offset repeatEnds).getPitch ∧
    (p.initialise N offset repeatEnds).isArpeggioFinished
      = (p.fresh.initialise N offset repeatEnds).isArpeggioFinished ∧
    ∀ k : Nat, Arpeggio.advance^[k] (p.initialise N offset repeatEnds)
      = Arpeggio.advance^[k] (p.fresh.initialise N offset repeatEnds) := by
  have h := Arpeggio.initialise_fresh p N offset repeatEnds
  refine ⟨h, ?_, by rw [h], by rw [h], fun k => by rw [h]⟩
  rw [Arpeggio.initialise_fresh (p.initialise N offset repeatEnds), h]
  cases p <;> rfl

/-! ## The claims about the engine -/

/-- C1: Ascending pattern (selector 0), offset 0.  From any Idle engine, the clock
edge `i0` past the warm-up captures the pitch set `P` of `N ≥ 1` pitches.  Whatever
invocations follow with the clock connected (any number without an edge in between,
any other inputs), the outputs written on the next `N` clock edges are
`clamp(P[0],-10,10), …, clamp(P[N-1],-10,10)` in this order, every invocation
completes, and the `N`-th of these edges, `iN`, restarts the cycle: the pitch set
is captured again and the selected pattern is initialised anew. -/
theorem ascending_cycle_outputs (T : ℚ) (s0 : Arp31) (i0 : Inputs) (pre : List Inputs)
    (iN : Inputs) (hidle : s0.isRunning = false) (hedge0 : i0.clockStatus = true)
    (hstep0 : 10 ≤ i0.stepX) (hsel : i0.selector = 0) (hoff : toInt i0.offsetParam = 0)
    (hpre : ∀ i ∈ pre, i.clockActive = true ∧ 10 ≤ i.stepX)
    (hN : iN.clockActive = true ∧ 10 ≤ iN.stepX ∧ iN.clockStatus = true)
    (hcount : Arp31.edgeCount pre + 1 = (capturedPitchSet i0).length) :
    ∃ s1 sN, Arp31.process T s0 i0 = some s1 ∧ s1.pitches = capturedPitchSet i0 ∧
      Arp31.edgeOutputs T s1 (pre ++ [iN])
        = some ((capturedPitchSet i0).map (fun v => clamp v (-10) 10), sN) ∧
      sN.isRunning = true ∧ sN.pitches = capturedPitchSet iN ∧
      sN.currArp = Arp31.selectArp iN.selector ∧
      sN.get sN.currArp = (Arp31.selectArp iN.selector).fresh.initialise
        (capturedPitchSet iN).length (toInt iN.offsetParam) s0.repeatEnd := by
  obtain ⟨s1, h1, e1, e2, e3, e4, -, -, -, e8⟩ :=
    Arp31.process_edge_idle T s0 hstep0 hedge0 (by rw [hidle]; rfl)
  have hstart : Arp31.AscendingAt (capturedPitchSet i0) 0 s1 := by
    refine ⟨e1, e2, by rw [e3, hsel]; rfl, ?_⟩
    rw [e4, hsel, hoff]
    rfl
  obtain ⟨s2, h2, hs2, r2⟩ :=
    Arp31.ascending_run T (capturedPitchSet i0) pre 0 s1 hstart hpre (by omega)
  rw [Nat.zero_add] at hs2
  obtain ⟨sN, v, h3, hv, ho, f1, f2, f3, f4⟩ :=
    Arp31.ascending_last_edge T hs2 hN.1 hN.2.1 hN.2.2 hcount
  have h4 : Arp31.edgeOutputs T s2 [iN] = some ([clamp v (-10) 10], sN) := by
    simp only [Arp31.edgeOutputs, h3, hN.2.2, if_true, ho]
  refine ⟨s1, sN, h1, e2, ?_, f1, f2, f3, by rw [f4, r2, e8]⟩
  have hone : [clamp v (-10) 10] = List.map (fun v => clamp v (-10) 10) [v] := rfl
  rw [Arp31.edgeOutputs_append T pre [iN] s1 s2 sN _ _ h2 h4, List.drop_zero, hone,
    ← List.map_append, take_concat_last hv hcount]

theorem ascending_cycle_outputs_witness :
    Arp31.initial.isRunning = false ∧ (chordInput true).clockStatus = true ∧
    10 ≤ (chordInput true).stepX ∧ (chordInput true).selector = 0 ∧
    toInt (chordInput true).offsetParam = 0 ∧
    (∀ i ∈ [chordInput false, chordInput true], i.clockActive = true ∧ 10 ≤ i.stepX) ∧
    ((chordInput true).clockActive = true ∧ 10 ≤ (chordInput true).stepX ∧
      (chordInput true).clockStatus = true) ∧
    Arp31.edgeCount [chordInput false, chordInput true] + 1
      = (capturedPitchSet (chordInput true)).length ∧
    ∃ s1 sN, Arp31.process pulseWidth Arp31.initial (chordInput true) = some s1 ∧
      s1.pitches = capturedPitchSet (chordInput true) ∧
      Arp31.edgeOutputs pulseWidth s1 ([chordInput false, chordInput true] ++ [chordInput true])
        = some ((capturedPitchSet (chordInput true)).map (fun v => clamp v (-10) 10), sN) ∧
      sN.isRunning = true ∧ sN.pitches = capturedPitchSet (chordInput true) ∧
      sN.currArp = Arp31.selectArp (chordInput true).selector ∧
      sN.get sN.currArp = (Arp31.selectArp (chordInput true).selector).fresh.initialise
        (capturedPitchSet (chordInput true)).length (toInt (chordInput true).offsetParam)
        Arp31.initial.repeatEnd :=
  ⟨by decide, rfl, by decide, by decide, by decide, by decide, by decide, by decide,
    ascending_cycle_outputs pulseWidth Arp31.initial (chordInput true)
      [chordInput false, chordInput true] (chordInput true) (by decide) rfl (by decide)
      (by decide) (by decide) (by decide) (by decide) (by decide)⟩

/-- C3: in every state reachable from the constructed engine by `process`
invocations with any inputs (offset knob in its range 0..10), menu actions and
resets, whenever the engine is Running the active pattern's `nPitches` equals the
size of the stored pitch set and is at least 1, no `%` by zero occurs in
`getPitch()`, the index `getPitch()` is inside `pitches`, and the next invocation of
`process`, whatever its inputs, completes without a fault. -/
theorem running_pattern_in_bounds (T : ℚ) (s : Arp31) (hreach : Arp31.Reachable T s) :
    (s.isRunning = true →
      (s.get s.currArp).nPitches = s.pitches.length ∧ 1 ≤ s.pitches.length ∧
      (s.get s.currArp).getPitchFaults = false ∧
      0 ≤ (s.get s.currArp).getPitch ∧ (s.get s.currArp).getPitch < s.pitches.length ∧
      ∃ v, readPitch s.pitches (s.get s.currArp).getPitch = some v) ∧
    ∀ inp : Inputs, ∃ s', Arp31.process T s inp = some s' := by
  have hs := Arp31.reachable_safe hreach
  refine ⟨fun hrun => ?_, fun inp => Arp31.process_total hs inp⟩
  obtain ⟨h1, h2⟩ := hs hrun
  have hN : (1 : Int) ≤ s.pitches.length := by omega
  obtain ⟨g0, g1⟩ := Arpeggio.getPitch_of_inRange hN h2
  obtain ⟨hf, hv⟩ := Arp31.safe_read hs hrun
  exact ⟨Arpeggio.nPitches_of_inRange h2, h1, hf, g0, by omega, hv⟩

theorem running_pattern_in_bounds_witness :
    Arp31.Reachable pulseWidth started ∧
    (started.isRunning = true →
      (started.get started.currArp).nPitches = started.pitches.length ∧
      1 ≤ started.pitches.length ∧
      (started.get started.currArp).getPitchFaults = false ∧
      0 ≤ (started.get started.currArp).getPitch ∧
      (started.get started.currArp).getPitch < started.pitches.length ∧
      ∃ v, readPitch started.pitches (started.get started.currArp).getPitch = some v) ∧
    ∀ inp : Inputs, ∃ s', Arp31.process pulseWidth started inp = some s' :=
  ⟨Arp31.reachable_started,
    running_pattern_in_bounds pulseWidth started Arp31.reachable_started⟩

/-- C8: on every restart, that is on an invocation past the warm-up with a clock
edge on which the engine is Idle (or its clock unconnected) or the active pattern
is finished, in any reachable state: the invocation completes, the stored pitch set
becomes the captured set of the specification (gated channels in channel order, or
all channels, or `[0]` when that list is empty), its length is at least 1, the
engine is Running and the selected pattern is initialised with that length. -/
theorem restart_captures_pitch_set (T : ℚ) (s : Arp31) (inp : Inputs)
    (hreach : Arp31.Reachable T s) (hstep : 10 ≤ inp.stepX)
    (hedge : inp.clockStatus = true)
    (hrestart : (s.isRunning && inp.clockActive) = false ∨
      (s.get s.currArp).isArpeggioFinished = true) :
    ∃ s', Arp31.process T s inp = some s' ∧
      s'.pitches = capturedPitchSet inp ∧ 1 ≤ s'.pitches.length ∧ s'.isRunning = true ∧
      s'.currArp = Arp31.selectArp inp.selector ∧
      s'.get s'.currArp = (Arp31.selectArp inp.selector).fresh.initialise
        s'.pitches.length (toInt inp.offsetParam) s.repeatEnd ∧
      (s'.get s'.currArp).nPitches = s'.pitches.length := by
  have hs := Arp31.reachable_safe hreach
  have hlen := capturedPitchSet_length_pos inp
  cases hi : (s.isRunning && inp.clockActive)
  · obtain ⟨s', h, e1, e2, e3, e4, -⟩ := Arp31.process_edge_idle T s hstep hedge hi
    refine ⟨s', h, e2, by rw [e2]; exact hlen, e1, e3, by rw [e4, e2], ?_⟩
    rw [e4, e2, Arpeggio.nPitches_initialise]
  · have hfin : (s.get s.currArp).isArpeggioFinished = true := by
      rcases hrestart with h | h
      · rw [hi] at h; exact absurd h (by decide)
      · exact h
    simp only [Bool.and_eq_true] at hi
    obtain ⟨hf, v, hv⟩ := Arp31.safe_read hs hi.1
    obtain ⟨s', h, e1, -, -, -, -, -, er⟩ :=
      Arp31.process_edge_running T hstep hedge hi.1 hi.2 hf hv
    obtain ⟨e2, e3, e4⟩ := er hfin
    refine ⟨s', h, e2, by rw [e2]; exact hlen, e1, e3, by rw [e4, e2], ?_⟩
    rw [e4, e2, Arpeggio.nPitches_initialise]

theorem restart_captures_pitch_set_witness :
    Arp31.Reachable pulseWidth Arp31.initial ∧ 10 ≤ (chordInput true).stepX ∧
    (chordInput true).clockStatus = true ∧
    ((Arp31.initial.isRunning && (chordInput true).clockActive) = false ∨
      (Arp31.initial.get Arp31.initial.currArp).isArpeggioFinished = true) ∧
    ∃ s', Arp31.process pulseWidth Arp31.initial (chordInput true) = some s' ∧
      s'.pitches = capturedPitchSet (chordInput true) ∧ 1 ≤ s'.pitches.length ∧
      s'.isRunning = true ∧
      s'.currArp = Arp31.selectArp (chordInput true).selector ∧
      s'.get s'.currArp = (Arp31.selectArp (chordInput true).selector).fresh.initialise
        s'.pitches.length (toInt (chordInput true).offsetParam) Arp31.initial.repeatEnd ∧
      (s'.get s'.currArp).nPitches = s'.pitches.length :=
  ⟨Arp31.Reachable.initial, by decide, rfl, Or.inl (by decide),
    restart_captures_pitch_set pulseWidth Arp31.initial (chordInput true)
      Arp31.Reachable.initial (by decide) rfl (Or.inl (by decide))⟩

/-- C10: in every reachable state the gate output after an invocation is 0 or 10.
On every invocation past the warm-up it is 10 exactly when the engine is Running
and the gate pulse is reported active (Trigger), Running and the pulse not active
(Retrigger), Running (Continuous), and it is 0 when the engine is Idle.  The pulse
is reported active when a positive duration remains after this invocation's
decrement; a warm-up invocation returns before it writes any output. -/
theorem gate_output_modes (T : ℚ) (s s' : Arp31) (inp : Inputs)
    (hreach : Arp31.Reachable T s) (h : Arp31.process T s inp = some s') :
    (s'.out_GATE = 0 ∨ s'.out_GATE = 10) ∧
    (10 ≤ inp.stepX →
      (s'.gateMode = GateMode.TRIGGER →
        (s'.out_GATE = 10 ↔ s'.isRunning = true ∧ 0 < s'.gatePulse.remaining)) ∧
      (s'.gateMode = GateMode.RETRIGGER →
        (s'.out_GATE = 10 ↔ s'.isRunning = true ∧ ¬ 0 < s'.gatePulse.remaining)) ∧
      (s'.gateMode = GateMode.CONTINUOUS → (s'.out_GATE = 10 ↔ s'.isRunning = true)) ∧
      (s'.isRunning = false → s'.out_GATE = 0)) := by
  refine ⟨?_, fun hstep => ?_⟩
  · by_cases hw : inp.stepX < 10
    · rw [Arp31.process_warmup T s hw] at h
      rw [← Option.some.inj h]
      exact Arp31.reachable_gate hreach
    · obtain ⟨s3, h3⟩ := Arp31.process_output T (not_lt.mp hw) h
      obtain ⟨s'', h4, -, -, -, -, -, -, -, -, hg⟩ :=
        Arp31.outputBlock_spec s3 inp (toInt inp.offsetParam)
      rw [h3] at h4
      obtain rfl := Option.some.inj h4
      rw [hg]
      cases gatesOn s'.gateMode s'.isRunning (decide (0 < s'.gatePulse.remaining)) <;> simp
  obtain ⟨s3, h3⟩ := Arp31.process_output T hstep h
  obtain ⟨s'', h4, -, -, -, -, -, -, -, -, hg⟩ :=
    Arp31.outputBlock_spec s3 inp (toInt inp.offsetParam)
  rw [h3] at h4
  obtain rfl := Option.some.inj h4
  rw [hg]
  have h10 : (10 : ℚ) ≠ 0 := by norm_num
  unfold gatesOn
  refine ⟨?_, ?_, ?_, ?_⟩
  · intro hm
    cases hr : s'.isRunning <;> by_cases hp : 0 < s'.gatePulse.remaining <;>
      simp [hm, hp, h10]
  · intro hm
    cases hr : s'.isRunning <;> by_cases hp : 0 < s'.gatePulse.remaining <;>
      simp [hm, hp, h10, GateMode.RETRIGGER, GateMode.TRIGGER]
  · intro hm
    cases hr : s'.isRunning <;>
      simp [hm, h10, GateMode.RETRIGGER, GateMode.TRIGGER, GateMode.CONTINUOUS]
  · intro hr
    simp [hr]

theorem gate_output_modes_witness :
    Arp31.Reachable pulseWidth started ∧
    Arp31.process pulseWidth started (chordInput true) = some played ∧
    (played.out_GATE = 0 ∨ played.out_GATE = 10) ∧
    (10 ≤ (chordInput true).stepX →
      (played.gateMode = GateMode.TRIGGER →
        (played.out_GATE = 10 ↔ played.isRunning = true ∧ 0 < played.gatePulse.remaining)) ∧
      (played.gateMode = GateMode.RETRIGGER →
        (played.out_GATE = 10 ↔
          played.isRunning = true ∧ ¬ 0 < played.gatePulse.remaining)) ∧
      (played.gateMode = GateMode.CONTINUOUS →
        (played.out_GATE = 10 ↔ played.isRunning = true)) ∧
      (played.isRunning = false → played.out_GATE = 0)) :=
  ⟨Arp31.reachable_started, Arp31.process_played,
    gate_output_modes pulseWidth started played (chordInput true)
      Arp31.reachable_started Arp31.process_played⟩

/-- C9, as stated, fails.  On the clock edge that starts the first cycle on the chord
`[5, 12]` the output stays at 0 although the stored pitch set and index at the end
of the invocation give `clamp(5) = 5`; on the next clock edge the output is 5, the
pitch of the index before the advance, although the index at the end of the
invocation is 1 and gives `clamp(12) = 10`. -/
theorem output_not_end_index :
    Arp31.process pulseWidth Arp31.initial (chordInput true) = some started ∧
    started.isRunning = true ∧
    readPitch started.pitches (started.get started.currArp).getPitch = some 5 ∧
    started.out_OUT = 0 ∧ started.out_OUT ≠ clamp 5 (-10) 10 ∧
    Arp31.process pulseWidth started (chordInput true) = some played ∧
    played.isRunning = true ∧
    readPitch played.pitches (played.get played.currArp).getPitch = some 12 ∧
    played.out_OUT = 5 ∧ played.out_OUT ≠ clamp 12 (-10) 10 := by
  refine ⟨Arp31.process_started, by decide, by decide, by decide, by decide,
    Arp31.process_played, by decide, by decide, by decide, by decide⟩

/-- C9, amended: in every reachable state, an invocation past the warm-up that has a
clock edge while the engine is Running with its clock connected writes
`clamp(pitches[i], -10, 10)`, where `pitches` and `i = getPitch()` are the stored
pitch set and the active pattern's index when the invocation begins; every other
invocation leaves the output voltage as the previous invocation wrote it; the
output always lies in `[-10, 10]`. -/
theorem output_voltage_held (T : ℚ) (s s' : Arp31) (inp : Inputs)
    (hreach : Arp31.Reachable T s) (h : Arp31.process T s inp = some s') :
    ((10 ≤ inp.stepX ∧ inp.clockStatus = true ∧ s.isRunning = true ∧
        inp.clockActive = true) →
      ∃ v, readPitch s.pitches (s.get s.currArp).getPitch = some v ∧
        s'.out_OUT = clamp v (-10) 10) ∧
    (¬ (10 ≤ inp.stepX ∧ inp.clockStatus = true ∧ s.isRunning = true ∧
        inp.clockActive = true) → s'.out_OUT = s.out_OUT) ∧
    -10 ≤ s'.out_OUT ∧ s'.out_OUT ≤ 10 := by
  have hs := Arp31.reachable_safe hreach
  obtain ⟨k1, k2, k3⟩ := Arp31.reachable_held hreach
  have key : ((10 ≤ inp.stepX ∧ inp.clockStatus = true ∧ s.isRunning = true ∧
        inp.clockActive = true) →
      ∃ v, readPitch s.pitches (s.get s.currArp).getPitch = some v ∧
        s'.out_OUT = clamp v (-10) 10) ∧
    (¬ (10 ≤ inp.stepX ∧ inp.clockStatus = true ∧ s.isRunning = true ∧
        inp.clockActive = true) → s'.out_OUT = s.out_OUT) := by
    constructor
    · rintro ⟨hstep, hc, hrun, hact⟩
      obtain ⟨hf, v, hv⟩ := Arp31.safe_read hs hrun
      obtain ⟨s'', h', -, -, e3, -⟩ := Arp31.process_edge_running T hstep hc hrun hact hf hv
      rw [h'] at h
      obtain rfl := Option.some.inj h
      exact ⟨v, hv, e3⟩
    · intro hn
      by_cases hstep : inp.stepX < 10
      · rw [Arp31.process_warmup T s hstep] at h
        rw [← Option.some.inj h]
      · have hstep := not_lt.mp hstep
        cases hc : inp.clockStatus
        · obtain ⟨s'', h', -, -, -, -, -, e6, -⟩ := Arp31.process_no_edge T s hstep hc
          rw [h'] at h
          obtain rfl := Option.some.inj h
          rw [e6, k1]
        · cases hi : (s.isRunning && inp.clockActive)
          · obtain ⟨s'', h', -, -, -, -, -, e6, -⟩ :=
              Arp31.process_edge_idle T s hstep hc hi
            rw [h'] at h
            obtain rfl := Option.some.inj h
            rw [e6, k1]
          · simp only [Bool.and_eq_true] at hi
            exact absurd ⟨hstep, hc, hi.1, hi.2⟩ hn
  refine ⟨key.1, key.2, ?_⟩
  by_cases hcond : (10 ≤ inp.stepX ∧ inp.clockStatus = true ∧ s.isRunning = true ∧
        inp.clockActive = true)
  · obtain ⟨v, -, hv⟩ := key.1 hcond
    rw [hv]; exact clamp_bounds v
  · rw [key.2 hcond, k1]; exact ⟨k2, k3⟩

theorem output_voltage_held_witness :
    Arp31.Reachable pulseWidth started ∧
    Arp31.process pulseWidth started (chordInput true) = some played ∧
    ((10 ≤ (chordInput true).stepX ∧ (chordInput true).clockStatus = true ∧
        started.isRunning = true ∧ (chordInput true).clockActive = true) →
      ∃ v, readPitch started.pitches (started.get started.currArp).getPitch = some v ∧
        played.out_OUT = clamp v (-10) 10) ∧
    (¬ (10 ≤ (chordInput true).stepX ∧ (chordInput true).clockStatus = true ∧
        started.isRunning = true ∧ (chordInput true).clockActive = true) →
      played.out_OUT = started.out_OUT) ∧
    -10 ≤ played.out_OUT ∧ played.out_OUT ≤ 10 :=
  ⟨Arp31.reachable_started, Arp31.process_played,
    output_voltage_held pulseWidth started played (chordInput true)
      Arp31.reachable_started Arp31.process_played⟩

/-! ## The end-of-cycle flag and pulse through the blocks of `process` -/

namespace Arp31

theorem prologue_eoc (s : Arp31) (inp : Inputs) :
    (prologue s inp).eoc = s.eoc ∧ (prologue s inp).eocPulse = s.eocPulse ∧
    (prologue s inp).out_EOC = s.out_EOC := by
  unfold prologue
  cases inp.clockActive <;> simp

theorem clockBlock_idle_eoc (T : ℚ) {s : Arp31} (h : s.isRunning = false) :
    ∃ s1, clockBlock T s = some (s1, true) ∧ s1.eoc = false ∧
      s1.eocPulse = (if s.eoc then s.eocPulse.trigger T else s.eocPulse) := by
  unfold clockBlock
  cases he : s.eoc <;> simp [h, he]

theorem clockBlock_running_eoc (T : ℚ) {s : Arp31} {v : ℚ} (h : s.isRunning = true)
    (hf : (s.get s.currArp).getPitchFaults = false)
    (hv : readPitch s.pitches (s.get s.currArp).getPitch = some v) :
    ∃ s1, clockBlock T s = some (s1, (s.get s.currArp).isArpeggioFinished) ∧
      s1.eoc = (s.get s.currArp).isArpeggioFinished ∧
      s1.eocPulse = (if s.eoc then s.eocPulse.trigger T else s.eocPulse) := by
  unfold clockBlock
  cases hc : s.currArp <;> rw [hc] at hf hv <;> simp only [get] at hf hv <;>
    cases he : s.eoc <;>
    cases hfin : (s.get s.currArp).isArpeggioFinished <;>
    rw [hc] at hfin <;> simp only [get] at hfin <;>
    simp [h, hc, get, set, hf, hv, hfin, he, Arpeggio.advance]

theorem restartBlock_eoc (s : Arp31) (inp : Inputs) (offset : Int) :
    ∃ s', restartBlock s inp offset = some s' ∧ s'.eoc = s.eoc ∧
      s'.eocPulse = s.eocPulse := by
  have hlen : ((capturedPitchSet inp).length : Int) ≠ 0 := by
    have := capturedPitchSet_length_pos inp; omega
  unfold restartBlock
  simp only [restart_pitches_eq, foldl_push, List.nil_append,
    Arpeggio.initialiseFaults_of_ne _ _ hlen]
  refine ⟨_, rfl, ?_⟩
  by_cases hg : (readInputPitches inp).length = 0 <;>
    rcases selectArp_cases s.inputArp with e | e | e | e <;>
    simp [hg, e, get, set, Arpeggio.initialise]

theorem outputBlock_eoc (s : Arp31) (inp : Inputs) (offset : Int) :
    ∃ s', outputBlock s inp offset = some s' ∧ s'.eoc = s.eoc ∧
      s'.eocPulse = (s.eocPulse.process inp.sampleTime).1 ∧
      s'.out_EOC = (if (s.eocPulse.process inp.sampleTime).2 then 10 else 0) := by
  have hnp := uiLength_ne_zero s.pitches
  unfold outputBlock
  simp only [Arpeggio.initialiseFaults_of_ne _ _ hnp]
  refine ⟨_, rfl, ?_⟩
  rcases selectUi_cases s.inputArp with e | e | e | e <;>
    simp [e, setUi, getUi, Arpeggio.initialise]

end Arp31
namespace Arp31

theorem process_eoc {T : ℚ} {s s' : Arp31} {inp : Inputs} (hs : Safe s)
    (h : process T s inp = some s') :
    s'.eoc = (if clocked inp then detectsFinished s inp else s.eoc) ∧
    (inp.stepX < 10 → s'.eocPulse = s.eocPulse ∧ s'.out_EOC = s.out_EOC) ∧
    (10 ≤ inp.stepX → s'.eocPulse = (eocPulseStep T s inp).1 ∧
      s'.out_EOC = (if (eocPulseStep T s inp).2 then 10 else 0)) := by
  by_cases hw : inp.stepX < 10
  · rw [process_warmup T s hw] at h
    obtain rfl := Option.some.inj h
    have : ¬ (10 ≤ inp.stepX) := by omega
    simp [clocked, this, hw]
  · have hstep := not_lt.mp hw
    obtain ⟨p1, p2, p3⟩ := prologue_eoc s inp
    obtain ⟨q1, -, q3, q4, q5, -⟩ := prologue_spec s inp
    refine ⟨?_, fun h' => absurd h' hw, fun _ => ?_⟩ <;>
    unfold process at h <;> simp only [hw, if_false] at h <;>
    cases hc : inp.clockStatus <;> simp only [hc] at h
    · obtain ⟨s3, h3, o1, -⟩ := outputBlock_eoc (prologue s inp) inp (toInt inp.offsetParam)
      simp only [Bool.false_eq_true, if_false] at h
      rw [h3] at h
      obtain rfl := Option.some.inj h
      simp [clocked, hc, o1, p1]
    · simp only [if_true] at h
      cases hi : (s.isRunning && inp.clockActive)
      · obtain ⟨s1, h1, c1, -⟩ :=
          clockBlock_idle_eoc T (s := prologue s inp) (by rw [q1]; exact hi)
        obtain ⟨s2, h2, r1, -⟩ := restartBlock_eoc s1 inp (toInt inp.offsetParam)
        obtain ⟨s3, h3, o1, -⟩ := outputBlock_eoc s2 inp (toInt inp.offsetParam)
        simp only [h1, if_true, h2] at h
        rw [h3] at h
        obtain rfl := Option.some.inj h
        simp [clocked, detectsFinished, hc, hstep, hi, o1, r1, c1]
      · have hi' := hi
        simp only [Bool.and_eq_true] at hi'
        obtain ⟨hf, v, hv⟩ := safe_read hs hi'.1
        obtain ⟨s1, h1, c1, -⟩ :=
          clockBlock_running_eoc T (s := prologue s inp) (v := v) (by rw [q1]; exact hi)
            (by rw [q4, q5]; exact hf) (by rw [q3, q4, q5]; exact hv)
        rw [q4, q5] at h1 c1
        cases hfin : (s.get s.currArp).isArpeggioFinished
        · obtain ⟨s3, h3, o1, -⟩ := outputBlock_eoc s1 inp (toInt inp.offsetParam)
          simp only [h1, hfin, Bool.false_eq_true, if_false] at h
          rw [h3] at h
          obtain rfl := Option.some.inj h
          simp [clocked, detectsFinished, hc, hstep, hi, o1, c1, hfin]
        · obtain ⟨s2, h2, r1, -⟩ := restartBlock_eoc s1 inp (toInt inp.offsetParam)
          obtain ⟨s3, h3, o1, -⟩ := outputBlock_eoc s2 inp (toInt inp.offsetParam)
          simp only [h1, hfin, if_true, h2] at h
          rw [h3] at h
          obtain rfl := Option.some.inj h
          simp [clocked, detectsFinished, hc, hstep, hi, o1, r1, c1, hfin]
    · obtain ⟨s3, h3, -, o2, o3⟩ :=
        outputBlock_eoc (prologue s inp) inp (toInt inp.offsetParam)
      simp only [Bool.false_eq_true, if_false] at h
      rw [h3] at h
      obtain rfl := Option.some.inj h
      simp [eocPulseStep, eocTriggers, clocked, hc, o2, o3, p2]
    · simp only [if_true] at h
      cases hi : (s.isRunning && inp.clockActive)
      · obtain ⟨s1, h1, -, c2⟩ :=
          clockBlock_idle_eoc T (s := prologue s inp) (by rw [q1]; exact hi)
        obtain ⟨s2, h2, -, r2⟩ := restartBlock_eoc s1 inp (toInt inp.offsetParam)
        obtain ⟨s3, h3, -, o2, o3⟩ := outputBlock_eoc s2 inp (toInt inp.offsetParam)
        simp only [h1, if_true, h2] at h
        rw [h3] at h
        obtain rfl := Option.some.inj h
        rw [o2, o3, r2, c2, p1, p2]
        simp [eocPulseStep, eocTriggers, clocked, hc, hstep]
      · have hi' := hi
        simp only [Bool.and_eq_true] at hi'
        obtain ⟨hf, v, hv⟩ := safe_read hs hi'.1
        obtain ⟨s1, h1, -, c2⟩ :=
          clockBlock_running_eoc T (s := prologue s inp) (v := v) (by rw [q1]; exact hi)
            (by rw [q4, q5]; exact hf) (by rw [q3, q4, q5]; exact hv)
        rw [q4, q5] at h1
        cases hfin : (s.get s.currArp).isArpeggioFinished
        · obtain ⟨s3, h3, -, o2, o3⟩ := outputBlock_eoc s1 inp (toInt inp.offsetParam)
          simp only [h1, hfin, Bool.false_eq_true, if_false] at h
          rw [h3] at h
          obtain rfl := Option.some.inj h
          rw [o2, o3, c2, p1, p2]
          simp [eocPulseStep, eocTriggers, clocked, hc, hstep]
        · obtain ⟨s2, h2, -, r2⟩ := restartBlock_eoc s1 inp (toInt inp.offsetParam)
          obtain ⟨s3, h3, -, o2, o3⟩ := outputBlock_eoc s2 inp (toInt inp.offsetParam)
          simp only [h1, hfin, if_true, h2] at h
          rw [h3] at h
          obtain rfl := Option.some.inj h
          rw [o2, o3, r2, c2, p1, p2]
          simp [eocPulseStep, eocTriggers, clocked, hc, hstep]

end Arp31
/-! ## The claims about an unconnected clock and the end-of-cycle pulse -/

/-- The host's edge detector reports no edge on a signal at 0 V, whatever its state. -/
theorem schmitt_no_edge_at_zero (t : SchmittTrigger) : (t.process 0).2 = false := by
  unfold SchmittTrigger.process
  by_cases h : t.state = true
  · simp [h]
  · have h1 : ¬ ((1 : ℚ) ≤ 0) := by norm_num
    simp [h, h1]

/-- On an unconnected clock input the detector reports no clock edge. -/
theorem withClock_unconnected (inp : Inputs) (t : SchmittTrigger) (cable : ℚ)
    (hconn : inp.clockActive = false) :
    (inp.withClock t cable).clockStatus = false ∧
    (inp.withClock t cable).clockActive = false ∧
    (inp.withClock t cable).stepX = inp.stepX := by
  refine ⟨?_, hconn, rfl⟩
  simp only [Inputs.withClock, portVoltage, hconn, Bool.false_eq_true, if_false]
  exact schmitt_no_edge_at_zero t

/-- An invocation without a clock edge on which the clock input is not connected
completes, leaves the engine Idle past the warm-up, changes nothing during the
warm-up, and keeps the patterns, the pitch set and the output voltage. -/
theorem quiet_unconnected_idles (T : ℚ) (s : Arp31) (inp : Inputs)
    (hreach : Arp31.Reachable T s) (hconn : inp.clockActive = false)
    (hedge : inp.clockStatus = false) :
    ∃ s', Arp31.process T s inp = some s' ∧
      (10 ≤ inp.stepX → s'.isRunning = false) ∧ (inp.stepX < 10 → s' = s) ∧
      s'.currArp = s.currArp ∧ (∀ r, s'.get r = s.get r) ∧ s'.pitches = s.pitches ∧
      s'.outVolts = s.outVolts ∧ s'.out_OUT = s.out_OUT := by
  obtain ⟨k1, -⟩ := Arp31.reachable_held hreach
  by_cases hw : inp.stepX < 10
  · exact ⟨s, Arp31.process_warmup T s hw, fun h => absurd hw (by omega), fun _ => rfl,
      rfl, fun _ => rfl, rfl, rfl, rfl⟩
  · obtain ⟨s', h, e1, e2, e3, e4, e5, e6, -⟩ :=
      Arp31.process_no_edge T s (not_lt.mp hw) hedge
    refine ⟨s', h, fun _ => ?_, fun h' => absurd h' hw, e3, e4, e2, e5, by rw [e6, k1]⟩
    rw [e1, hconn, Bool.and_false]

/-- C11: in every reachable state, for every state of the clock edge detector, every
voltage on the clock cable and every value of the other inputs, an invocation on
which the clock input is not connected completes, leaves the engine Idle when it
ends (past the warm-up; a warm-up invocation returns at once and changes nothing at
all), neither advances nor re-initialises any pattern, keeps the stored pitch set,
and writes the same output voltage as the previous invocation. -/
theorem unconnected_clock_idles (T : ℚ) (s : Arp31) (inp : Inputs) (t : SchmittTrigger)
    (cable : ℚ) (hreach : Arp31.Reachable T s) (hconn : inp.clockActive = false) :
    ∃ s', Arp31.process T s (inp.withClock t cable) = some s' ∧
      (10 ≤ inp.stepX → s'.isRunning = false) ∧ (inp.stepX < 10 → s' = s) ∧
      s'.currArp = s.currArp ∧ (∀ r, s'.get r = s.get r) ∧ s'.pitches = s.pitches ∧
      s'.outVolts = s.outVolts ∧ s'.out_OUT = s.out_OUT := by
  obtain ⟨h1, h2, h3⟩ := withClock_unconnected inp t cable hconn
  have h := quiet_unconnected_idles T s (inp.withClock t cable) hreach h2 h1
  rw [h3] at h
  exact h

theorem unconnected_clock_idles_witness :
    Arp31.Reachable pulseWidth played ∧
    ({ chordInput true with clockActive := false } : Inputs).clockActive = false ∧
    ∃ s', Arp31.process pulseWidth played
        (({ chordInput true with clockActive := false } : Inputs).withClock
          { state := false } 5) = some s' ∧
      (10 ≤ ({ chordInput true with clockActive := false } : Inputs).stepX →
        s'.isRunning = false) ∧
      (({ chordInput true with clockActive := false } : Inputs).stepX < 10 → s' = played) ∧
      s'.currArp = played.currArp ∧ (∀ r, s'.get r = played.get r) ∧
      s'.pitches = played.pitches ∧ s'.outVolts = played.outVolts ∧
      s'.out_OUT = played.out_OUT :=
  ⟨Arp31.Reachable.process _ Arp31.reachable_started ⟨by decide, by decide⟩
      Arp31.process_played, rfl,
    unconnected_clock_idles pulseWidth played { chordInput true with clockActive := false }
      { state := false } 5
      (Arp31.Reachable.process _ Arp31.reachable_started ⟨by decide, by decide⟩
        Arp31.process_played) rfl⟩

theorem lastEdge_cons (a : EocStep) (pre : List EocStep) :
    lastEdge (a :: pre) =
      match lastEdge pre with
      | some e => some e
      | none => if a.edge then some a else none := by
  unfold lastEdge
  rw [List.reverse_cons, List.find?_append]
  cases h : List.find? (fun st => st.edge) pre.reverse with
  | some e => rfl
  | none => cases ha : a.edge <;> simp [ha]

theorem eocConsistent_split {p : Bool} {pre post : List EocStep} {st : EocStep}
    (h : EocConsistent p (pre ++ st :: post)) :
    st.fired = (st.edge && (match lastEdge pre with
      | some e => e.finished
      | none => p)) := by
  induction pre generalizing p with
  | nil => exact h.1
  | cons a pre ih =>
    have h2 := ih h.2
    rw [h2, lastEdge_cons]
    cases hl : lastEdge pre with
    | some e => rfl
    | none => cases ha : a.edge <;> simp [lastEdge]

namespace Arp31

theorem eocTrace_consistent (T : ℚ) (ins : List Inputs) :
    ∀ s : Arp31, Reachable T s → (∀ i ∈ ins, i.Valid) →
      ∃ tr, eocTrace T s ins = some tr ∧ tr.length = ins.length ∧
        EocConsistent s.eoc tr := by
  induction ins with
  | nil => intro s _ _; exact ⟨[], rfl, rfl, trivial⟩
  | cons inp rest ih =>
    intro s hr hv
    have hs := reachable_safe hr
    obtain ⟨s1, h1⟩ := process_total (T := T) hs inp
    have hr1 : Reachable T s1 := Reachable.process inp hr (hv inp (List.mem_cons_self _ _)) h1
    obtain ⟨tr, h2, hlen, hc⟩ := ih s1 hr1 (fun i hi => hv i (List.mem_cons_of_mem _ hi))
    obtain ⟨e1, -⟩ := process_eoc hs h1
    refine ⟨_ :: tr, by simp only [eocTrace, h1, h2]; rfl, by simp [hlen], ?_⟩
    refine ⟨rfl, ?_⟩
    rw [e1] at hc
    exact hc

end Arp31

theorem chordInput_valid (e : Bool) : (chordInput e).Valid := by
  cases e <;> exact ⟨by decide, by decide⟩

theorem chordInputs_valid (es : List Bool) : ∀ i ∈ es.map chordInput, i.Valid := by
  intro i hi
  obtain ⟨e, -, rfl⟩ := List.mem_map.mp hi
  exact chordInput_valid e

/-- C12, as stated, fails.  From the constructed engine, with no pitch source (one
default pitch, so a cycle is one note long), three invocations with a clock edge:
the second edge detects the finished pattern, and the third edge both executes
`eocPulse.trigger` and detects the finished pattern of the next cycle. -/
theorem eoc_fires_on_finishing_edge :
    Arp31.eocTrace pulseWidth Arp31.initial [soloInput, soloInput, soloInput]
      = some [{ edge := true, finished := false, fired := false },
              { edge := true, finished := true, fired := false },
              { edge := true, finished := true, fired := true }] ∧
    ¬ ∀ tr, Arp31.eocTrace pulseWidth Arp31.initial [soloInput, soloInput, soloInput]
        = some tr → ∀ st ∈ tr, st.finished = true → st.fired = false := by
  have h : Arp31.eocTrace pulseWidth Arp31.initial [soloInput, soloInput, soloInput]
      = some [{ edge := true, finished := false, fired := false },
              { edge := true, finished := true, fired := false },
              { edge := true, finished := true, fired := true }] := by decide
  refine ⟨h, fun hall => ?_⟩
  have h3 := hall _ h { edge := true, finished := true, fired := true } (by simp) rfl
  exact absurd h3 (by decide)

/-- C12, amended: in every reachable state the end-of-cycle timer is restarted by an
invocation exactly when `eocTriggers` holds.  Along every sequence of invocations
from the constructed engine (offset knob in its range), every invocation completes
and `eocPulse.trigger` is executed on an invocation if and only if that invocation
has a clock edge and on the immediately preceding clock edge the engine was Running
with the active pattern reporting finished; hence never on an invocation without a
clock edge, and on an edge that detects the finished pattern only when the clock
edge before it detected one too: without such a detection on the edge before,
nothing is triggered. -/
theorem eoc_fires_one_edge_late (T : ℚ) (ins : List Inputs) (hvalid : ∀ i ∈ ins, i.Valid) :
    (∀ (s s' : Arp31) (inp : Inputs), Arp31.Reachable T s →
      Arp31.process T s inp = some s' → 10 ≤ inp.stepX →
      s'.eocPulse = ((if Arp31.eocTriggers s inp then s.eocPulse.trigger T
        else s.eocPulse).process inp.sampleTime).1) ∧
    ∃ tr, Arp31.eocTrace T Arp31.initial ins = some tr ∧ tr.length = ins.length ∧
      ∀ pre st post, tr = pre ++ st :: post →
        (st.fired = true ↔
          st.edge = true ∧ ∃ e, lastEdge pre = some e ∧ e.finished = true) ∧
        (st.edge = false → st.fired = false) ∧
        (st.finished = true → (∀ e, lastEdge pre = some e → e.finished = false) →
          st.fired = false) := by
  refine ⟨fun s s' inp hr h hstep =>
    ((Arp31.process_eoc (Arp31.reachable_safe hr) h).2.2 hstep).1, ?_⟩
  obtain ⟨tr, h1, hlen, hc⟩ :=
    Arp31.eocTrace_consistent T ins Arp31.initial Arp31.Reachable.initial hvalid
  refine ⟨tr, h1, hlen, fun pre st post hsplit => ?_⟩
  rw [hsplit] at hc
  have key := eocConsistent_split hc
  have hinit : Arp31.initial.eoc = false := rfl
  rw [hinit] at key
  refine ⟨?_, ?_, ?_⟩
  · rw [key]
    cases hl : lastEdge pre with
    | none => simp
    | some e => simp
  · intro he
    rw [key, he]; rfl
  · intro _ hall
    rw [key]
    cases hl : lastEdge pre with
    | none => simp
    | some e => simp [hall e hl]

theorem eoc_fires_one_edge_late_witness :
    (∀ i ∈ [chordInput true, chordInput true, chordInput true, chordInput false,
        chordInput true], i.Valid) ∧
    (∀ (s s' : Arp31) (inp : Inputs), Arp31.Reachable pulseWidth s →
      Arp31.process pulseWidth s inp = some s' → 10 ≤ inp.stepX →
      s'.eocPulse = ((if Arp31.eocTriggers s inp then s.eocPulse.trigger pulseWidth
        else s.eocPulse).process inp.sampleTime).1) ∧
    ∃ tr, Arp31.eocTrace pulseWidth Arp31.initial
        [chordInput true, chordInput true, chordInput true, chordInput false,
          chordInput true] = some tr ∧
      tr.length = [chordInput true, chordInput true, chordInput true, chordInput false,
        chordInput true].length ∧
      ∀ pre st post, tr = pre ++ st :: post →
        (st.fired = true ↔
          st.edge = true ∧ ∃ e, lastEdge pre = some e ∧ e.finished = true) ∧
        (st.edge = false → st.fired = false) ∧
        (st.finished = true → (∀ e, lastEdge pre = some e → e.finished = false) →
          st.fired = false) :=
  ⟨chordInputs_valid [true, true, true, false, true],
    eoc_fires_one_edge_late pulseWidth
      [chordInput true, chordInput true, chordInput true, chordInput false, chordInput true]
      (chordInputs_valid [true, true, true, false, true])⟩
namespace Arp31

theorem run_append (T : ℚ) (a b : List Inputs) (s s1 s2 : Arp31)
    (h1 : run T s a = some s1) (h2 : run T s1 b = some s2) :
    run T s (a ++ b) = some s2 := by
  induction a generalizing s with
  | nil =>
    simp only [run, Option.some.injEq] at h1
    subst h1
    simpa using h2
  | cons inp rest ih =>
    simp only [List.cons_append, run] at h1 ⊢
    cases hp : process T s inp with
    | none => rw [hp] at h1; exact absurd h1 (by simp)
    | some sa =>
      rw [hp] at h1
      simp only at h1 ⊢
      have hi := ih sa h1
      simp only [List.append_eq]
      exact hi

theorem pulse_idle_step (p : PulseGenerator) {dt : ℚ} (hp : p.remaining = 0)
    (hdt : 0 ≤ dt) : (p.process dt).1.remaining = 0 ∧ (p.process dt).2 = false := by
  simp only [PulseGenerator.process, hp, zero_sub]
  have h : max 0 (-dt) = 0 := max_eq_left (by linarith)
  rw [h]; simp

theorem pulse_fired_step (p : PulseGenerator) {T dt : ℚ} (hdt : dt < T) :
    0 < ((p.trigger T).process dt).1.remaining ∧ ((p.trigger T).process dt).2 = true := by
  simp only [PulseGenerator.process, PulseGenerator.trigger]
  have h : 0 < max 0 (T - dt) := lt_max_of_lt_right (by linarith)
  exact ⟨h, by simpa using h⟩

theorem step_quiet (T : ℚ) {s : Arp31} {inp : Inputs} (hr : Reachable T s)
    (hq : inp.Quiet) :
    ∃ s', process T s inp = some s' ∧ Reachable T s' ∧ s'.eoc = s.eoc ∧
      (s.eocPulse.remaining = 0 → s'.eocPulse.remaining = 0 ∧ s'.out_EOC = 0) ∧
      (∀ P k, AscendingAt P k s → AscendingAt P k s') := by
  obtain ⟨hv, hact, hstep, hc, hdt⟩ := hq
  have hs := reachable_safe hr
  obtain ⟨s', h⟩ := process_total (T := T) hs inp
  obtain ⟨e1, -, e3⟩ := process_eoc hs h
  obtain ⟨e3, e4⟩ := e3 hstep
  have hcl : clocked inp = false := by simp [clocked, hc]
  refine ⟨s', h, Reachable.process inp hr hv h, by rw [e1, hcl]; rfl, fun h0 => ?_,
    fun P k ha => ?_⟩
  · have ht : eocTriggers s inp = false := by simp [eocTriggers, hcl]
    simp only [eocPulseStep, ht, Bool.false_eq_true, if_false] at e3 e4
    obtain ⟨k1, k2⟩ := pulse_idle_step s.eocPulse h0 hdt
    rw [e3, e4, k1, k2]
    simp
  · obtain ⟨s'', h', ha', -⟩ := ascending_no_edge T ha hact hstep hc
    rw [h] at h'
    obtain rfl := Option.some.inj h'
    exact ha'

theorem gap_quiet (T : ℚ) (g : List Inputs) :
    ∀ s : Arp31, Reachable T s → (∀ i ∈ g, i.Quiet) →
      ∃ s', run T s g = some s' ∧ Reachable T s' ∧ s'.eoc = s.eoc ∧
        (s.eocPulse.remaining = 0 → s'.eocPulse.remaining = 0) ∧
        (∀ P k, AscendingAt P k s → AscendingAt P k s') := by
  induction g with
  | nil => intro s hr _; exact ⟨s, rfl, hr, rfl, fun h => h, fun _ _ h => h⟩
  | cons inp rest ih =>
    intro s hr hq
    obtain ⟨s1, h1, hr1, a1, a2, a3⟩ := step_quiet T hr (hq inp (List.mem_cons_self _ _))
    obtain ⟨s2, h2, hr2, b1, b2, b3⟩ :=
      ih s1 hr1 (fun i hi => hq i (List.mem_cons_of_mem _ hi))
    refine ⟨s2, by simp only [run, h1, h2], hr2, by rw [b1, a1],
      fun h0 => b2 (a2 h0).1, fun P k ha => b3 P k (a3 P k ha)⟩

theorem step_edge (T : ℚ) {s : Arp31} {inp : Inputs} (hr : Reachable T s)
    (he : inp.Edge) :
    ∃ s', process T s inp = some s' ∧ Reachable T s' ∧
      s'.eoc = (s.isRunning && (s.get s.currArp).isArpeggioFinished) ∧
      (s.eoc = false → s.eocPulse.remaining = 0 →
        s'.eocPulse.remaining = 0 ∧ s'.out_EOC = 0) ∧
      (s.eoc = true → inp.sampleTime < T →
        0 < s'.eocPulse.remaining ∧ s'.out_EOC = 10) ∧
      (∀ P k, AscendingAt P k s → k + 1 < P.length → AscendingAt P (k + 1) s') := by
  obtain ⟨hv, hact, hstep, hc, hdt⟩ := he
  have hs := reachable_safe hr
  obtain ⟨s', h⟩ := process_total (T := T) hs inp
  obtain ⟨e1, -, e3⟩ := process_eoc hs h
  obtain ⟨e3, e4⟩ := e3 hstep
  have hcl : clocked inp = true := by simp [clocked, hc, hstep]
  refine ⟨s', h, Reachable.process inp hr hv h, ?_, fun h0 h1 => ?_, fun h0 h1 => ?_,
    fun P k ha hk => ?_⟩
  · rw [e1, hcl]; simp [detectsFinished, hcl, hact]
  · have ht : eocTriggers s inp = false := by simp [eocTriggers, h0]
    simp only [eocPulseStep, ht, Bool.false_eq_true, if_false] at e3 e4
    obtain ⟨k1, k2⟩ := pulse_idle_step s.eocPulse h1 hdt
    rw [e3, e4, k1, k2]
    simp
  · have ht : eocTriggers s inp = true := by simp [eocTriggers, h0, hcl]
    simp only [eocPulseStep, ht, if_true] at e3 e4
    obtain ⟨k1, k2⟩ := pulse_fired_step s.eocPulse h1
    rw [e3, e4, k2]
    exact ⟨k1, by simp⟩
  · obtain ⟨s'', v, h', -, -, ha', -⟩ := ascending_edge T ha hact hstep hc hk
    rw [h] at h'
    obtain rfl := Option.some.inj h'
    exact ha'

/-- A gap of quiet invocations followed by one clock edge. -/
theorem gap_then_edge (T : ℚ) (g : List Inputs) {s : Arp31} {e : Inputs}
    (hr : Reachable T s) (hg : ∀ i ∈ g, i.Quiet) (he : e.Edge) :
    ∃ s', run T s (g ++ [e]) = some s' ∧ Reachable T s' ∧
      (s.eoc = false → s.eocPulse.remaining = 0 →
        s'.eocPulse.remaining = 0 ∧ s'.out_EOC = 0) ∧
      (s.eoc = true → e.sampleTime < T → 0 < s'.eocPulse.remaining ∧ s'.out_EOC = 10) ∧
      (∀ P k, AscendingAt P k s → s'.eoc = decide (k + 1 ≥ P.length)) ∧
      (∀ P k, AscendingAt P k s → k + 1 < P.length → AscendingAt P (k + 1) s') := by
  obtain ⟨s1, h1, hr1, a1, a2, a3⟩ := gap_quiet T g s hr hg
  obtain ⟨s', h2, hr2, b1, b2, b3, b4⟩ := step_edge T hr1 he
  have hrun : run T s1 [e] = some s' := by simp only [run, h2]
  refine ⟨s', run_append T g [e] s s1 s' h1 hrun, hr2,
    fun h0 h00 => b2 (by rw [a1, h0]) (a2 h00), fun h0 hw => b3 (by rw [a1, h0]) hw,
    fun P k ha => ?_, fun P k ha hk => b4 P k (a3 P k ha) hk⟩
  have ha1 := a3 P k ha
  obtain ⟨-, -, hfin⟩ := ascending_read ha1
  rw [b1, hfin, ha1.1, Bool.true_and]

end Arp31
theorem triadInput_edge : (triadInput true).Edge :=
  ⟨⟨by decide, by decide⟩, rfl, by decide, rfl, by norm_num [triadInput, chordInput]⟩

theorem triadInput_quiet_list : ∀ i ∈ [triadInput false], i.Quiet := by
  intro i hi
  rw [List.mem_singleton] at hi
  subst hi
  exact ⟨⟨by decide, by decide⟩, rfl, by decide, rfl, by norm_num [triadInput, chordInput]⟩

theorem triadInput_short_sample : (triadInput true).sampleTime < pulseWidth := by
  norm_num [triadInput, chordInput, pulseWidth]

namespace Arp31

/-- The first cycle of an Ascending pattern on three pitches, started from the
constructed engine, followed through its first four clock edges. -/
theorem eoc_scenario_steps (T : ℚ) (i0 e1 e2 e3 e4 : Inputs) (g1 g2 g3 g4 : List Inputs)
    (h0 : i0.Edge) (hsel : i0.selector = 0) (hoff : toInt i0.offsetParam = 0)
    (hlen : (capturedPitchSet i0).length = 3)
    (hg1 : ∀ i ∈ g1, i.Quiet) (hg2 : ∀ i ∈ g2, i.Quiet) (hg3 : ∀ i ∈ g3, i.Quiet)
    (hg4 : ∀ i ∈ g4, i.Quiet)
    (he1 : e1.Edge) (he2 : e2.Edge) (he3 : e3.Edge) (he4 : e4.Edge)
    (hw : e4.sampleTime < T) :
    ∃ s0 s1 s2 s3 s4, process T initial i0 = some s0 ∧
      run T s0 (g1 ++ [e1]) = some s1 ∧ s1.out_EOC = 0 ∧
      run T s1 (g2 ++ [e2]) = some s2 ∧
      (s2.get s2.currArp).isArpeggioFinished = true ∧ s2.out_EOC = 0 ∧
      run T s2 (g3 ++ [e3]) = some s3 ∧ s3.out_EOC = 0 ∧
      run T s3 (g4 ++ [e4]) = some s4 ∧ s4.out_EOC = 10 ∧ 0 < s4.eocPulse.remaining := by
  have hi : initial.eoc = false := rfl
  have hp : initial.eocPulse.remaining = 0 := rfl
  obtain ⟨s0, q0, hr0, a1, a2, -, -⟩ := step_edge T Reachable.initial h0
  have ha1 : s0.eoc = false := by rw [a1]; rfl
  obtain ⟨a2, -⟩ := a2 hi hp
  obtain ⟨s0', q0', e1', e2', e3', e4', -⟩ :=
    process_edge_idle T initial h0.2.2.1 h0.2.2.2.1 (by rfl)
  rw [q0] at q0'
  obtain rfl := Option.some.inj q0'
  have hstart : AscendingAt (capturedPitchSet i0) 0 s0 := by
    refine ⟨e1', e2', by rw [e3', hsel]; rfl, ?_⟩
    rw [e4', hsel, hoff]
    rfl
  obtain ⟨s1, q1, hr1, b1, -, b3, b4⟩ := gap_then_edge T g1 hr0 hg1 he1
  obtain ⟨b1, b1'⟩ := b1 ha1 a2
  have hat1 := b4 _ 0 hstart (by omega)
  have hb : s1.eoc = false := by rw [b3 _ 0 hstart]; simp [hlen]
  obtain ⟨s2, q2, hr2, c1, -, c3, c4⟩ := gap_then_edge T g2 hr1 hg2 he2
  obtain ⟨c1, c1'⟩ := c1 hb b1
  have hat2 := c4 _ 1 hat1 (by omega)
  have hc : s2.eoc = false := by rw [c3 _ 1 hat1]; simp [hlen]
  have hfin2 : (s2.get s2.currArp).isArpeggioFinished = true := by
    rw [(ascending_read hat2).2.2]; simp [hlen]
  obtain ⟨s3, q3, hr3, d1, -, d3, -⟩ := gap_then_edge T g3 hr2 hg3 he3
  obtain ⟨d1, d1'⟩ := d1 hc c1
  have hd : s3.eoc = true := by rw [d3 _ 2 hat2]; simp [hlen]
  obtain ⟨s4, q4, -, -, f2, -, -⟩ := gap_then_edge T g4 hr3 hg4 he4
  obtain ⟨f2, f2'⟩ := f2 hd hw
  exact ⟨s0, s1, s2, s3, s4, q0, q1, b1', q2, hfin2, c1', q3, d1', q4, f2', f2⟩

end Arp31
/-- C13, as stated, fails.  From the constructed engine, Ascending pattern on three
pitches with offset 0, a pulse width of 1 ms and a sample time of 1/48000 s: after
the starting edge and three further clock edges the EOC output is 0, not 10. -/
theorem eoc_not_on_third_edge :
    (capturedPitchSet (triadInput true)).length = 3 ∧
    (triadInput true).selector = 0 ∧ toInt (triadInput true).offsetParam = 0 ∧
    (triadInput true).sampleTime < pulseWidth ∧
    Arp31.run pulseWidth Arp31.initial
      [triadInput true, triadInput true, triadInput true, triadInput true]
      = some afterThirdEdge ∧
    afterThirdEdge.out_EOC = 0 ∧ afterThirdEdge.out_EOC ≠ 10 := by
  have hq : ∀ i ∈ ([] : List Inputs), i.Quiet := fun i hi => absurd hi (List.not_mem_nil i)
  have hw : (triadInput true).sampleTime < pulseWidth := by
    norm_num [triadInput, chordInput, pulseWidth]
  obtain ⟨s0, s1, s2, s3, s4, q0, q1, -, q2, -, -, q3, z3, -⟩ :=
    Arp31.eoc_scenario_steps pulseWidth (triadInput true) (triadInput true) (triadInput true)
      (triadInput true) (triadInput true) [] [] [] [] triadInput_edge (by decide)
      (by decide) (by decide) hq hq hq hq triadInput_edge triadInput_edge triadInput_edge
      triadInput_edge hw
  have r0 : Arp31.run pulseWidth Arp31.initial [triadInput true] = some s0 := by
    simp only [Arp31.run, q0]
  have r1 := Arp31.run_append pulseWidth _ _ _ _ _ r0 q1
  have r2 := Arp31.run_append pulseWidth _ _ _ _ _ r1 q2
  have r3 := Arp31.run_append pulseWidth _ _ _ _ _ r2 q3
  have hrun : Arp31.run pulseWidth Arp31.initial
      [triadInput true, triadInput true, triadInput true, triadInput true] = some s3 := r3
  have hs3 : afterThirdEdge = s3 := by
    unfold afterThirdEdge
    rw [hrun]; rfl
  refine ⟨by decide, by decide, by decide, hw, by rw [hs3]; exact hrun, by rw [hs3, z3],
    by rw [hs3, z3]; norm_num⟩

/-- C13, amended: from the constructed engine, Ascending pattern (selector 0) on three
pitches with offset 0, clock connected, any number of edge-free invocations between
the edges.  After the starting edge, clock edges 1 and 2 run the pattern to
completion (`isArpeggioFinished()` holds after edge 2); the EOC output is 0 on the
invocations of edges 1, 2 and 3 (edge 3 detects the finished pattern and restarts
the cycle), and on the invocation of edge 4, with a pulse width longer than the
sample time, the end-of-cycle pulse is active and the EOC output is 10. -/
theorem eoc_pulse_on_fourth_edge (T : ℚ) (i0 e1 e2 e3 e4 : Inputs)
    (g1 g2 g3 g4 : List Inputs)
    (h0 : i0.Edge) (hsel : i0.selector = 0) (hoff : toInt i0.offsetParam = 0)
    (hlen : (capturedPitchSet i0).length = 3)
    (hg1 : ∀ i ∈ g1, i.Quiet) (hg2 : ∀ i ∈ g2, i.Quiet) (hg3 : ∀ i ∈ g3, i.Quiet)
    (hg4 : ∀ i ∈ g4, i.Quiet)
    (he1 : e1.Edge) (he2 : e2.Edge) (he3 : e3.Edge) (he4 : e4.Edge)
    (hw : e4.sampleTime < T) :
    ∃ s0 s1 s2 s3 s4, Arp31.process T Arp31.initial i0 = some s0 ∧
      Arp31.run T s0 (g1 ++ [e1]) = some s1 ∧ s1.out_EOC = 0 ∧
      Arp31.run T s1 (g2 ++ [e2]) = some s2 ∧
      (s2.get s2.currArp).isArpeggioFinished = true ∧ s2.out_EOC = 0 ∧
      Arp31.run T s2 (g3 ++ [e3]) = some s3 ∧ s3.out_EOC = 0 ∧
      Arp31.run T s3 (g4 ++ [e4]) = some s4 ∧ s4.out_EOC = 10 ∧
      0 < s4.eocPulse.remaining :=
  Arp31.eoc_scenario_steps T i0 e1 e2 e3 e4 g1 g2 g3 g4 h0 hsel hoff hlen hg1 hg2 hg3 hg4
    he1 he2 he3 he4 hw

theorem eoc_pulse_on_fourth_edge_witness :
    (triadInput true).Edge ∧ (triadInput true).selector = 0 ∧
    toInt (triadInput true).offsetParam = 0 ∧
    (capturedPitchSet (triadInput true)).length = 3 ∧
    (∀ i ∈ [triadInput false], i.Quiet) ∧ (∀ i ∈ ([] : List Inputs), i.Quiet) ∧
    (triadInput true).sampleTime < pulseWidth ∧
    ∃ s0 s1 s2 s3 s4,
      Arp31.process pulseWidth Arp31.initial (triadInput true) = some s0 ∧
      Arp31.run pulseWidth s0 ([triadInput false] ++ [triadInput true]) = some s1 ∧
      s1.out_EOC = 0 ∧
      Arp31.run pulseWidth s1 ([] ++ [triadInput true]) = some s2 ∧
      (s2.get s2.currArp).isArpeggioFinished = true ∧ s2.out_EOC = 0 ∧
      Arp31.run pulseWidth s2 ([] ++ [triadInput true]) = some s3 ∧ s3.out_EOC = 0 ∧
      Arp31.run pulseWidth s3 ([triadInput false] ++ [triadInput true]) = some s4 ∧
      s4.out_EOC = 10 ∧ 0 < s4.eocPulse.remaining :=
  ⟨triadInput_edge, by decide, by decide, by decide, triadInput_quiet_list,
    fun i hi => absurd hi (List.not_mem_nil i), triadInput_short_sample,
    eoc_pulse_on_fourth_edge pulseWidth (triadInput true) (triadInput true)
      (triadInput true) (triadInput true) (triadInput true)
      [triadInput false] [] [] [triadInput false]
      triadInput_edge (by decide) (by decide) (by decide) triadInput_quiet_list
      (fun i hi => absurd hi (List.not_mem_nil i))
      (fun i hi => absurd hi (List.not_mem_nil i)) triadInput_quiet_list
      triadInput_edge triadInput_edge triadInput_edge triadInput_edge
      triadInput_short_sample⟩
/-! ## The claim about the persisted settings -/

namespace Arp31

theorem dataToJson_get (s : Arp31) :
    json_object_get (dataToJson s) "gateMode" = some (JsonValue.integer s.gateMode) ∧
    json_object_get (dataToJson s) "repeatMode" = some (JsonValue.boolean s.repeatEnd) := by
  constructor <;>
    simp [dataToJson, json_object, json_object_set_new, json_object_get, List.filter,
      List.find?]

end Arp31

/-- C18: for every gate mode (Trigger, Retrigger, Continuous among them) and every
`repeatEnd`, restoring the payload that `dataToJson` produced from `s` into any
engine `t` sets `gateMode` and `repeatEnd` to the values of `s`; restoring a payload
without the key `gateMode` leaves `gateMode` unchanged, and one without the key
`repeatMode` leaves `repeatEnd` unchanged. -/
theorem settings_round_trip (s t : Arp31) (rootJ : JsonObject) :
    (t.dataFromJson s.dataToJson).gateMode = s.gateMode ∧
    (t.dataFromJson s.dataToJson).repeatEnd = s.repeatEnd ∧
    (json_object_get rootJ "gateMode" = none →
      (t.dataFromJson rootJ).gateMode = t.gateMode) ∧
    (json_object_get rootJ "repeatMode" = none →
      (t.dataFromJson rootJ).repeatEnd = t.repeatEnd) := by
  obtain ⟨h1, h2⟩ := Arp31.dataToJson_get s
  refine ⟨?_, ?_, fun h => ?_, fun h => ?_⟩
  · simp only [Arp31.dataFromJson, h1, h2, json_integer_value]
  · simp only [Arp31.dataFromJson, h1, h2, json_boolean_value]
  · simp only [Arp31.dataFromJson, h]
    cases json_object_get rootJ "repeatMode" <;> rfl
  · simp only [Arp31.dataFromJson, h]
    cases json_object_get rootJ "gateMode" <;> rfl

theorem settings_round_trip_witness :
    ((Arp31.initial.setGateMode GateMode.CONTINUOUS).dataFromJson
        ((Arp31.initial.setGateMode GateMode.RETRIGGER).setRepeatEnd true).dataToJson).gateMode
      = ((Arp31.initial.setGateMode GateMode.RETRIGGER).setRepeatEnd true).gateMode ∧
    ((Arp31.initial.setGateMode GateMode.CONTINUOUS).dataFromJson
        ((Arp31.initial.setGateMode GateMode.RETRIGGER).setRepeatEnd true).dataToJson).repeatEnd
      = ((Arp31.initial.setGateMode GateMode.RETRIGGER).setRepeatEnd true).repeatEnd ∧
    (json_object_get [("repeatMode", JsonValue.boolean true)] "gateMode" = none →
      ((Arp31.initial.setGateMode GateMode.CONTINUOUS).dataFromJson
        [("repeatMode", JsonValue.boolean true)]).gateMode
        = (Arp31.initial.setGateMode GateMode.CONTINUOUS).gateMode) ∧
    (json_object_get [("repeatMode", JsonValue.boolean true)] "repeatMode" = none →
      ((Arp31.initial.setGateMode GateMode.CONTINUOUS).dataFromJson
        [("repeatMode", JsonValue.boolean true)]).repeatEnd
        = (Arp31.initial.setGateMode GateMode.CONTINUOUS).repeatEnd) :=
  settings_round_trip ((Arp31.initial.setGateMode GateMode.RETRIGGER).setRepeatEnd true)
    (Arp31.initial.setGateMode GateMode.CONTINUOUS) [("repeatMode", JsonValue.boolean true)]
/-! ## The fold traversal for every pattern length -/

namespace Arpeggio

theorem range_succ_map {β : Type} (f : Nat → β) (d : Nat) :
    (List.range (d + 1)).map f = f 0 :: (List.range d).map (fun i => f (i + 1)) := by
  rw [List.range_succ_eq_map, List.map_cons, List.map_map]
  rfl

theorem cycle_rightLeft (m e N : Int) (d : Nat) :
    ∀ c : Int, c + d = e →
      cycle d (rightLeft { currSt := c, mag := m, end_ := e, nPitches := N }) =
        some ((List.range (d + 1)).map (fun i : Nat =>
          cabs (cmod (m - cabs (m - (c + i))) N))) := by
  induction d with
  | zero =>
    intro c hc
    have hce : c = e := by simpa using hc
    simp [cycle, isArpeggioFinished, RightLeftArp.isArpeggioFinished, hce, getPitch,
      RightLeftArp.getPitch, show List.range 1 = [0] from rfl]
  | succ d ih =>
    intro c hc
    have hne : c ≠ e := by push_cast at hc; omega
    have hih := ih (c + 1) (by push_cast at hc ⊢; omega)
    rw [range_succ_map]
    simp only [cycle, isArpeggioFinished, RightLeftArp.isArpeggioFinished, hne,
      decide_False, Bool.false_eq_true, if_false, advance, RightLeftArp.advance, hih,
      Option.map_some', getPitch, RightLeftArp.getPitch]
    simp only [Nat.cast_zero, add_zero, Nat.cast_add, Nat.cast_one, Option.some.injEq,
      List.cons.injEq, true_and]
    apply List.map_congr_left
    intro i _
    rw [show c + 1 + (i : Int) = c + ((i : Int) + 1) by ring]

theorem cycle_leftRight (m e N : Int) (d : Nat) :
    ∀ c : Int, c + d = e →
      cycle d (leftRight { currSt := c, mag := m, end_ := e, nPitches := N }) =
        some ((List.range (d + 1)).map (fun i : Nat =>
          cabs (cabs (cmod (m - (c + i)) N)))) := by
  induction d with
  | zero =>
    intro c hc
    have hce : c = e := by simpa using hc
    simp [cycle, isArpeggioFinished, LeftRightArp.isArpeggioFinished, hce, getPitch,
      LeftRightArp.getPitch, show List.range 1 = [0] from rfl]
  | succ d ih =>
    intro c hc
    have hne : c ≠ e := by push_cast at hc; omega
    have hih := ih (c + 1) (by push_cast at hc ⊢; omega)
    rw [range_succ_map]
    simp only [cycle, isArpeggioFinished, LeftRightArp.isArpeggioFinished, hne,
      decide_False, Bool.false_eq_true, if_false, advance, LeftRightArp.advance, hih,
      Option.map_some', getPitch, LeftRightArp.getPitch]
    simp only [Nat.cast_zero, add_zero, Nat.cast_add, Nat.cast_one, Option.some.injEq,
      List.cons.injEq, true_and]
    apply List.map_congr_left
    intro i _
    rw [show c + 1 + (i : Int) = c + ((i : Int) + 1) by ring]

end Arpeggio

theorem cmod_of_lt {a b : Int} (ha : 0 ≤ a) (hb : a < b) : cmod a b = a := by
  rw [cmod_of_nonneg ha (by omega)]
  exact Int.emod_eq_of_lt ha hb

theorem foldEnd_plain {n : Nat} (hn : 2 ≤ n) : foldEnd n 0 false = 2 * (n : Int) - 3 := by
  unfold foldEnd
  have h1 : ¬ (2 * ((n : Int) - 1) - 1 < 1) := by omega
  have h2 : ¬ (2 * ((n : Int) - 1) - 1 < 0) := by omega
  simp only [h1, h2, if_false, gt_iff_lt, lt_self_iff_false, Bool.false_eq_true]
  omega

/-- C19: for every pattern length `N ≥ 2`, offset 0 and `repeatEnds = false`,
whatever the object held before, the cycle (the indices read after `initialise` and
after each `advance()` up to and including the first finished state, reached after
`2N-3` calls) is `0,1,…,N-1,N-2,…,1` for `RightLeftArp` and `N-1,N-2,…,0,1,…,N-2`
for `LeftRightArp`; it has `2N-2` elements and ends on 1 resp. `N-2`, not on the
first note of the cycle. -/
theorem fold_cycle_general (n : Nat) (a : RightLeftArp) (b : LeftRightArp) (hn : 2 ≤ n) :
    Arpeggio.cycle (2 * n - 3) ((Arpeggio.rightLeft a).initialise n 0 false)
      = some ((List.range n).map (fun i : Nat => (i : Int)) ++
          (List.range (n - 2)).map (fun i : Nat => (n : Int) - 2 - i)) ∧
    Arpeggio.cycle (2 * n - 3) ((Arpeggio.leftRight b).initialise n 0 false)
      = some ((List.range n).map (fun i : Nat => (n : Int) - 1 - i) ++
          (List.range (n - 2)).map (fun i : Nat => (i : Int) + 1)) ∧
    ((List.range n).map (fun i : Nat => (i : Int)) ++
      (List.range (n - 2)).map (fun i : Nat => (n : Int) - 2 - i)).length = 2 * n - 2 ∧
    ((List.range n).map (fun i : Nat => (n : Int) - 1 - i) ++
      (List.range (n - 2)).map (fun i : Nat => (i : Int) + 1)).length = 2 * n - 2 ∧
    ((List.range n).map (fun i : Nat => (i : Int)) ++
      (List.range (n - 2)).map (fun i : Nat => (n : Int) - 2 - i)).getLast? = some 1 ∧
    ((List.range n).map (fun i : Nat => (n : Int) - 1 - i) ++
      (List.range (n - 2)).map (fun i : Nat => (i : Int) + 1)).getLast? = some ((n : Int) - 2) := by
  have hsplit : 2 * n - 3 + 1 = n + (n - 2) := by omega
  refine ⟨?_, ?_, ?_, ?_, ?_, ?_⟩
  · simp only [Arpeggio.initialise, RightLeftArp.rightLeft_initialise_eq, foldEnd_plain hn]
    rw [Arpeggio.cycle_rightLeft _ _ _ (2 * n - 3) 0 (by omega), hsplit,
      List.range_add, List.map_append, List.map_map]
    congr 2
    · apply List.map_congr_left
      intro i hi
      have hi' := List.mem_range.mp hi
      have h1 : cabs ((n : Int) - 1 - (0 + (i : Int))) = (n : Int) - 1 - i := by
        unfold cabs; split <;> omega
      have h2 : (n : Int) - 1 - ((n : Int) - 1 - i) = i := by ring
      rw [h1, h2, cmod_of_lt (by omega) (by omega), cabs_of_nonneg (by omega)]
    · apply List.map_congr_left
      intro i hi
      have hi' := List.mem_range.mp hi
      simp only [Function.comp]
      have h1 : cabs ((n : Int) - 1 - (0 + ((n + i : Nat) : Int))) = (i : Int) + 1 := by
        unfold cabs; push_cast; split <;> omega
      have h2 : (n : Int) - 1 - ((i : Int) + 1) = (n : Int) - 2 - i := by ring
      rw [h1, h2, cmod_of_lt (by omega) (by omega), cabs_of_nonneg (by omega)]
  · simp only [Arpeggio.initialise, LeftRightArp.leftRight_initialise_eq, foldEnd_plain hn]
    rw [Arpeggio.cycle_leftRight _ _ _ (2 * n - 3) 0 (by omega), hsplit,
      List.range_add, List.map_append, List.map_map]
    congr 2
    · apply List.map_congr_left
      intro i hi
      have hi' := List.mem_range.mp hi
      have h1 : (n : Int) - 1 - (0 + (i : Int)) = (n : Int) - 1 - i := by ring
      rw [h1, cmod_of_lt (by omega) (by omega), cabs_of_nonneg (cabs_nonneg _),
        cabs_of_nonneg (by omega)]
    · apply List.map_congr_left
      intro i hi
      have hi' := List.mem_range.mp hi
      simp only [Function.comp]
      have h1 : cmod ((n : Int) - 1 - (0 + ((n + i : Nat) : Int))) n = -((i : Int) + 1) := by
        unfold cmod
        have h2 : ((n : Int) - 1 - (0 + ((n + i : Nat) : Int))) = -((i : Int) + 1) := by
          push_cast; omega
        rw [h2, Int.tmod_def, Int.neg_tdiv, Int.tdiv_eq_zero_of_lt (by omega) (by omega)]
        omega
      rw [h1]
      have h3 : cabs (-((i : Int) + 1)) = (i : Int) + 1 := by unfold cabs; split <;> omega
      rw [h3, cabs_of_nonneg (by omega)]
  · simp; omega
  · simp; omega
  · rcases Nat.lt_or_ge 2 n with h | h
    · obtain ⟨k, hk⟩ : ∃ k, n - 2 = k + 1 := ⟨n - 3, by omega⟩
      rw [hk, List.range_succ, List.map_append, ← List.append_assoc]
      simp
      omega
    · have h2 : n = 2 := by omega
      subst h2
      decide
  · rcases Nat.lt_or_ge 2 n with h | h
    · obtain ⟨k, hk⟩ : ∃ k, n - 2 = k + 1 := ⟨n - 3, by omega⟩
      rw [hk, List.range_succ, List.map_append, ← List.append_assoc]
      simp
      omega
    · have h2 : n = 2 := by omega
      subst h2
      decide

theorem fold_cycle_general_witness :
    2 ≤ 6 ∧
    Arpeggio.cycle (2 * 6 - 3) ((Arpeggio.rightLeft {}).initialise (6 : Nat) 0 false)
      = some ((List.range 6).map (fun i : Nat => (i : Int)) ++
          (List.range (6 - 2)).map (fun i : Nat => ((6 : Nat) : Int) - 2 - i)) ∧
    Arpeggio.cycle (2 * 6 - 3) ((Arpeggio.leftRight {}).initialise (6 : Nat) 0 false)
      = some ((List.range 6).map (fun i : Nat => ((6 : Nat) : Int) - 1 - i) ++
          (List.range (6 - 2)).map (fun i : Nat => (i : Int) + 1)) ∧
    ((List.range 6).map (fun i : Nat => (i : Int)) ++
      (List.range (6 - 2)).map (fun i : Nat => ((6 : Nat) : Int) - 2 - i)).length = 2 * 6 - 2 ∧
    ((List.range 6).map (fun i : Nat => ((6 : Nat) : Int) - 1 - i) ++
      (List.range (6 - 2)).map (fun i : Nat => (i : Int) + 1)).length = 2 * 6 - 2 ∧
    ((List.range 6).map (fun i : Nat => (i : Int)) ++
      (List.range (6 - 2)).map (fun i : Nat => ((6 : Nat) : Int) - 2 - i)).getLast? = some 1 ∧
    ((List.range 6).map (fun i : Nat => ((6 : Nat) : Int) - 1 - i) ++
      (List.range (6 - 2)).map (fun i : Nat => (i : Int) + 1)).getLast?
        = some (((6 : Nat) : Int) - 2) :=
  ⟨by decide, fold_cycle_general 6 {} {} (by decide)⟩

/-! ## Facts about the channel and lane loops of the quantizer -/

namespace ScaleQuantizer2

theorem holdBlock_spec (M : Music) (inp : QInputs) (i : Nat) (s : ScaleQuantizer2)
    (j : Nat) (h0 : j = 0 ∨ s.holdState i 0 = inp.holdEdge i 0) :
    cell (holdBlock M inp i (inp.cvChannels i) (inp.holdChannels i) s j) i j =
      { cell s i j with
        hold := heldAfter M inp s.currRoot s.currScale (s.holdPitch i j) i j,
        state := inp.holdEdge i j } := by
  have hst : set2 s.holdState i j (inp.holdEdge i j) i 0 = inp.holdEdge i 0 := by
    unfold set2
    rcases h0 with h | h
    · subst h; simp
    · by_cases hj : j = 0
      · subst hj; simp
      · have : ¬ (0 = j) := fun e => hj e.symm
        simp [this, h]
  unfold holdBlock
  simp only [hst]
  by_cases c0 : inp.holdChannels i = 0 <;> by_cases c1 : inp.holdChannels i = 1 <;>
    by_cases c2 : inp.cvChannels i = 1 <;> cases e0 : inp.holdEdge i 0 <;>
    cases ej : inp.holdEdge i j <;>
    simp [cell, heldAfter, set2, c0, c1, c2, e0, ej]

theorem holdBlock_other (M : Music) (inp : QInputs) (i nCV nHold : Nat)
    (s : ScaleQuantizer2) (j a b : Nat) (h : ¬ (a = i ∧ b = j)) :
    cell (holdBlock M inp i nCV nHold s j) a b = cell s a b := by
  unfold holdBlock
  simp only []
  repeat' split
  all_goals simp [cell, set2, h]

theorem holdBlock_scalars (M : Music) (inp : QInputs) (i nCV nHold : Nat)
    (s : ScaleQuantizer2) (j : Nat) :
    (holdBlock M inp i nCV nHold s j).currRoot = s.currRoot ∧
    (holdBlock M inp i nCV nHold s j).currScale = s.currScale ∧
    (holdBlock M inp i nCV nHold s j).lastTrans = s.lastTrans := by
  unfold holdBlock
  simp only []
  repeat' split
  all_goals simp

theorem changeBlock_spec (T : ℚ) (i : Nat) (s : ScaleQuantizer2) (j : Nat) :
    cell (changeBlock T i s j) i j =
      { cell s i j with
        last := s.holdPitch i j,
        pulse := if s.lastPitch i j ≠ s.holdPitch i j then (s.triggerPulse i j).trigger T
          else s.triggerPulse i j } := by
  unfold changeBlock
  by_cases h : s.lastPitch i j = s.holdPitch i j <;> simp [cell, set2, h]

theorem changeBlock_other (T : ℚ) (i : Nat) (s : ScaleQuantizer2) (j a b : Nat)
    (h : ¬ (a = i ∧ b = j)) : cell (changeBlock T i s j) a b = cell s a b := by
  unfold changeBlock
  split <;> simp [cell, set2, h]

theorem changeBlock_scalars (T : ℚ) (i : Nat) (s : ScaleQuantizer2) (j : Nat) :
    (changeBlock T i s j).currRoot = s.currRoot ∧
    (changeBlock T i s j).currScale = s.currScale ∧
    (changeBlock T i s j).lastTrans = s.lastTrans := by
  unfold changeBlock
  split <;> simp

theorem writeBlock_spec (inp : QInputs) (i : Nat) (shift trans : ℚ) (s : ScaleQuantizer2)
    (j : Nat) :
    cell (writeBlock inp i shift trans s j) i j =
      { cell s i j with
        pulse := ((s.triggerPulse i j).process inp.sampleTime).1,
        out := s.holdPitch i j + shift + trans,
        trig := if ((s.triggerPulse i j).process inp.sampleTime).2 then 10 else 0 } := by
  unfold writeBlock
  simp only []
  split <;> simp_all [cell, set2]

theorem writeBlock_other (inp : QInputs) (i : Nat) (shift trans : ℚ) (s : ScaleQuantizer2)
    (j a b : Nat) (h : ¬ (a = i ∧ b = j)) :
    cell (writeBlock inp i shift trans s j) a b = cell s a b := by
  unfold writeBlock
  simp only []
  split <;> simp [cell, set2, h]

theorem writeBlock_scalars (inp : QInputs) (i : Nat) (shift trans : ℚ)
    (s : ScaleQuantizer2) (j : Nat) :
    (writeBlock inp i shift trans s j).currRoot = s.currRoot ∧
    (writeBlock inp i shift trans s j).currScale = s.currScale ∧
    (writeBlock inp i shift trans s j).lastTrans = s.lastTrans := by
  unfold writeBlock
  simp only []
  split <;> simp

end ScaleQuantizer2
namespace ScaleQuantizer2

theorem channelStep_self (M : Music) (T : ℚ) (inp : QInputs) (i : Nat) (shift trans : ℚ)
    (s : ScaleQuantizer2) (j : Nat)
    (h0 : j = 0 ∨ s.holdState i 0 = inp.holdEdge i 0) :
    cell (channelStep M T inp i shift trans (inp.cvChannels i) (inp.holdChannels i) s j) i j
      = cellStep M T inp s.currRoot s.currScale shift trans i j (cell s i j) := by
  have h1 := holdBlock_spec M inp i s j h0
  have h2 := changeBlock_spec T i
    (holdBlock M inp i (inp.cvChannels i) (inp.holdChannels i) s j) j
  have h3 := writeBlock_spec inp i shift trans
    (changeBlock T i (holdBlock M inp i (inp.cvChannels i) (inp.holdChannels i) s j) j) j
  have e1 : ∀ t : ScaleQuantizer2, t.holdPitch i j = (cell t i j).hold := fun _ => rfl
  have e2 : ∀ t : ScaleQuantizer2, t.lastPitch i j = (cell t i j).last := fun _ => rfl
  have e3 : ∀ t : ScaleQuantizer2, t.triggerPulse i j = (cell t i j).pulse := fun _ => rfl
  unfold channelStep
  simp only []
  rw [h3, e1, e3, h2, e1, e2, e3, h1]
  simp [cellStep, cell]

theorem channelStep_other (M : Music) (T : ℚ) (inp : QInputs) (i : Nat) (shift trans : ℚ)
    (nCV nHold : Nat) (s : ScaleQuantizer2) (j a b : Nat) (h : ¬ (a = i ∧ b = j)) :
    cell (channelStep M T inp i shift trans nCV nHold s j) a b = cell s a b := by
  unfold channelStep
  simp only []
  rw [writeBlock_other _ _ _ _ _ _ _ _ h, changeBlock_other _ _ _ _ _ _ h,
    holdBlock_other _ _ _ _ _ _ _ _ _ h]

theorem channelStep_scalars (M : Music) (T : ℚ) (inp : QInputs) (i : Nat) (shift trans : ℚ)
    (nCV nHold : Nat) (s : ScaleQuantizer2) (j : Nat) :
    (channelStep M T inp i shift trans nCV nHold s j).currRoot = s.currRoot ∧
    (channelStep M T inp i shift trans nCV nHold s j).currScale = s.currScale ∧
    (channelStep M T inp i shift trans nCV nHold s j).lastTrans = s.lastTrans := by
  unfold channelStep
  simp only []
  obtain ⟨a1, a2, a3⟩ := holdBlock_scalars M inp i nCV nHold s j
  obtain ⟨b1, b2, b3⟩ := changeBlock_scalars T i (holdBlock M inp i nCV nHold s j) j
  obtain ⟨c1, c2, c3⟩ := writeBlock_scalars inp i shift trans
    (changeBlock T i (holdBlock M inp i nCV nHold s j) j) j
  exact ⟨by rw [c1, b1, a1], by rw [c2, b2, a2], by rw [c3, b3, a3]⟩

/-- The channel loop of lane `i` over the channels `0 … n-1`. -/
theorem channelLoop_spec (M : Music) (T : ℚ) (inp : QInputs) (i : Nat) (shift trans : ℚ)
    (s : ScaleQuantizer2) (n : Nat) :
    (∀ j, j < n →
      cell ((List.range n).foldl
        (channelStep M T inp i shift trans (inp.cvChannels i) (inp.holdChannels i)) s) i j
        = cellStep M T inp s.currRoot s.currScale shift trans i j (cell s i j)) ∧
    (∀ a b, (a ≠ i ∨ n ≤ b) →
      cell ((List.range n).foldl
        (channelStep M T inp i shift trans (inp.cvChannels i) (inp.holdChannels i)) s) a b
        = cell s a b) ∧
    ((List.range n).foldl
      (channelStep M T inp i shift trans (inp.cvChannels i) (inp.holdChannels i)) s).currRoot
        = s.currRoot ∧
    ((List.range n).foldl
      (channelStep M T inp i shift trans (inp.cvChannels i) (inp.holdChannels i)) s).currScale
        = s.currScale ∧
    ((List.range n).foldl
      (channelStep M T inp i shift trans (inp.cvChannels i) (inp.holdChannels i)) s).lastTrans
        = s.lastTrans := by
  induction n with
  | zero =>
    refine ⟨fun j hj => absurd hj (Nat.not_lt_zero j), fun _ _ _ => rfl, rfl, rfl, rfl⟩
  | succ n ih =>
    obtain ⟨ih1, ih2, ih3, ih4, ih5⟩ := ih
    rw [List.range_succ, List.foldl_append]
    simp only [List.foldl_cons, List.foldl_nil]
    obtain ⟨k1, k2, k3⟩ := channelStep_scalars M T inp i shift trans (inp.cvChannels i)
      (inp.holdChannels i) ((List.range n).foldl
        (channelStep M T inp i shift trans (inp.cvChannels i) (inp.holdChannels i)) s) n
    refine ⟨fun j hj => ?_, fun a b hab => ?_, by rw [k1, ih3], by rw [k2, ih4],
      by rw [k3, ih5]⟩
    · by_cases hjn : j = n
      · subst hjn
        rw [channelStep_self, ih3, ih4, ih2 i j (Or.inr (Nat.le_refl j))]
        by_cases hz : j = 0
        · exact Or.inl hz
        · right
          have hc := ih1 0 (Nat.pos_of_ne_zero hz)
          have hs : ∀ t : ScaleQuantizer2, t.holdState i 0 = (cell t i 0).state :=
            fun _ => rfl
          rw [hs, hc]
          rfl
      · rw [channelStep_other _ _ _ _ _ _ _ _ _ _ _ _ (fun h => hjn h.2)]
        exact ih1 j (by omega)
    · rw [channelStep_other _ _ _ _ _ _ _ _ _ _ _ _ (by
        rintro ⟨rfl, rfl⟩
        rcases hab with h | h
        · exact h rfl
        · omega)]
      exact ih2 a b (by rcases hab with h | h; exact Or.inl h; exact Or.inr (by omega))

end ScaleQuantizer2
namespace ScaleQuantizer2

theorem laneStep_spec (M : Music) (T : ℚ) (inp : QInputs) (trans : ℚ) (s : ScaleQuantizer2)
    (i : Nat) :
    (∀ j, j < nChannels inp i →
      cell (laneStep M T inp trans s i) i j
        = cellStep M T inp s.currRoot s.currScale (inp.shiftParam i) trans i j (cell s i j)) ∧
    (∀ a b, (a ≠ i ∨ nChannels inp i ≤ b) → cell (laneStep M T inp trans s i) a b = cell s a b) ∧
    (laneStep M T inp trans s i).currRoot = s.currRoot ∧
    (laneStep M T inp trans s i).currScale = s.currScale ∧
    (laneStep M T inp trans s i).lastTrans = s.lastTrans := by
  unfold laneStep
  simp only []
  exact channelLoop_spec M T inp i (inp.shiftParam i) trans _ _

/-- The loop over the lanes `0 … m-1`. -/
theorem laneLoop_spec (M : Music) (T : ℚ) (inp : QInputs) (trans : ℚ) (s : ScaleQuantizer2)
    (m : Nat) :
    (∀ i j, i < m → j < nChannels inp i →
      cell ((List.range m).foldl (laneStep M T inp trans) s) i j
        = cellStep M T inp s.currRoot s.currScale (inp.shiftParam i) trans i j (cell s i j)) ∧
    (∀ a b, (m ≤ a ∨ nChannels inp a ≤ b) →
      cell ((List.range m).foldl (laneStep M T inp trans) s) a b = cell s a b) ∧
    ((List.range m).foldl (laneStep M T inp trans) s).currRoot = s.currRoot ∧
    ((List.range m).foldl (laneStep M T inp trans) s).currScale = s.currScale ∧
    ((List.range m).foldl (laneStep M T inp trans) s).lastTrans = s.lastTrans := by
  induction m with
  | zero =>
    refine ⟨fun i j hi => absurd hi (Nat.not_lt_zero i), fun _ _ _ => rfl, rfl, rfl, rfl⟩
  | succ m ih =>
    obtain ⟨ih1, ih2, ih3, ih4, ih5⟩ := ih
    rw [List.range_succ, List.foldl_append]
    simp only [List.foldl_cons, List.foldl_nil]
    obtain ⟨k1, k2, k3, k4, k5⟩ := laneStep_spec M T inp trans
      ((List.range m).foldl (laneStep M T inp trans) s) m
    refine ⟨fun i j hi hj => ?_, fun a b hab => ?_, by rw [k3, ih3], by rw [k4, ih4],
      by rw [k5, ih5]⟩
    · by_cases him : i = m
      · subst him
        rw [k1 j hj, ih3, ih4, ih2 i j (Or.inl (Nat.le_refl i))]
      · rw [k2 i j (Or.inl him)]
        exact ih1 i j (by omega) hj
    · by_cases ham : a = m
      · subst ham
        have hb : nChannels inp a ≤ b := by
          rcases hab with h | h
          · omega
          · exact h
        rw [k2 a b (Or.inr hb)]
        exact ih2 a b (Or.inl (Nat.le_refl a))
      · rw [k2 a b (Or.inl ham)]
        exact ih2 a b (by rcases hab with h | h; exact Or.inl (by omega); exact Or.inr h)

theorem lights_fold_scale (l : List Nat) (s : ScaleQuantizer2) :
    (∀ a b, cell (l.foldl clearScaleLight s) a b = cell s a b) ∧
    (l.foldl clearScaleLight s).currRoot = s.currRoot ∧
    (l.foldl clearScaleLight s).currScale = s.currScale ∧
    (l.foldl clearScaleLight s).lastTrans = s.lastTrans := by
  induction l generalizing s with
  | nil => exact ⟨fun _ _ => rfl, rfl, rfl, rfl⟩
  | cons x xs ih =>
    simp only [List.foldl_cons]
    obtain ⟨h1, h2, h3, h4⟩ := ih (clearScaleLight s x)
    exact ⟨fun a b => by rw [h1]; rfl, by rw [h2]; rfl, by rw [h3]; rfl, by rw [h4]; rfl⟩

theorem lights_fold_key (l : List Nat) (s : ScaleQuantizer2) :
    (∀ a b, cell (l.foldl clearKeyLight s) a b = cell s a b) ∧
    (l.foldl clearKeyLight s).currRoot = s.currRoot ∧
    (l.foldl clearKeyLight s).currScale = s.currScale ∧
    (l.foldl clearKeyLight s).lastTrans = s.lastTrans := by
  induction l generalizing s with
  | nil => exact ⟨fun _ _ => rfl, rfl, rfl, rfl⟩
  | cons x xs ih =>
    simp only [List.foldl_cons]
    obtain ⟨h1, h2, h3, h4⟩ := ih (clearKeyLight s x)
    exact ⟨fun a b => by rw [h1]; rfl, by rw [h2]; rfl, by rw [h3]; rfl, by rw [h4]; rfl⟩

/-- The frame of one light block: a function that keeps cells and the three scalars. -/
theorem lightsBlock_spec (M : Music) (s : ScaleQuantizer2) :
    (∀ a b, cell (lightsBlock M s) a b = cell s a b) ∧
    (lightsBlock M s).currRoot = s.currRoot ∧ (lightsBlock M s).currScale = s.currScale ∧
    (lightsBlock M s).lastTrans = s.lastTrans := by
  have key : ∀ t : ScaleQuantizer2,
      (∀ a b, cell (if t.lastRoot ≠ t.currRoot ∨ t.firstStep = true then
          { (List.range M.NUM_NOTES).foldl clearKeyLight t with
            keyLight := fun k =>
              if k = ((List.range M.NUM_NOTES).foldl clearKeyLight t).currRoot then 10
              else ((List.range M.NUM_NOTES).foldl clearKeyLight t).keyLight k }
        else t) a b = cell t a b) ∧
      (if t.lastRoot ≠ t.currRoot ∨ t.firstStep = true then
          { (List.range M.NUM_NOTES).foldl clearKeyLight t with
            keyLight := fun k =>
              if k = ((List.range M.NUM_NOTES).foldl clearKeyLight t).currRoot then 10
              else ((List.range M.NUM_NOTES).foldl clearKeyLight t).keyLight k }
        else t).currRoot = t.currRoot ∧
      (if t.lastRoot ≠ t.currRoot ∨ t.firstStep = true then
          { (List.range M.NUM_NOTES).foldl clearKeyLight t with
            keyLight := fun k =>
              if k = ((List.range M.NUM_NOTES).foldl clearKeyLight t).currRoot then 10
              else ((List.range M.NUM_NOTES).foldl clearKeyLight t).keyLight k }
        else t).currScale = t.currScale ∧
      (if t.lastRoot ≠ t.currRoot ∨ t.firstStep = true then
          { (List.range M.NUM_NOTES).foldl clearKeyLight t with
            keyLight := fun k =>
              if k = ((List.range M.NUM_NOTES).foldl clearKeyLight t).currRoot then 10
              else ((List.range M.NUM_NOTES).foldl clearKeyLight t).keyLight k }
        else t).lastTrans = t.lastTrans := by
    intro t
    obtain ⟨b1, b2, b3, b4⟩ := lights_fold_key (List.range M.NUM_NOTES) t
    split
    · exact ⟨fun a b => b1 a b, b2, b3, b4⟩
    · exact ⟨fun _ _ => rfl, rfl, rfl, rfl⟩
  obtain ⟨a1, a2, a3, a4⟩ := lights_fold_scale (List.range M.NUM_NOTES) s
  unfold lightsBlock
  simp only []
  by_cases hc : s.lastScale ≠ s.currScale ∨ s.firstStep = true
  · simp only [hc, if_true]
    obtain ⟨k1, k2, k3, k4⟩ := key
      { (List.range M.NUM_NOTES).foldl clearScaleLight s with
        scaleLight := fun k =>
          if k = ((List.range M.NUM_NOTES).foldl clearScaleLight s).currScale then 10
          else ((List.range M.NUM_NOTES).foldl clearScaleLight s).scaleLight k }
    exact ⟨fun a b => (k1 a b).trans (a1 a b), k2.trans a2, k3.trans a3, k4.trans a4⟩
  · simp only [hc, if_false]
    exact key s

end ScaleQuantizer2
namespace ScaleQuantizer2

theorem readKeyScale_frame (M : Music) (s : ScaleQuantizer2) (inp : QInputs) :
    (∀ a b, cell (readKeyScale M s inp) a b = cell s a b) ∧
    (readKeyScale M s inp).lastTrans = s.lastTrans :=
  ⟨fun _ _ => rfl, rfl⟩

theorem transBlock_frame (M : Music) (s : ScaleQuantizer2) (inp : QInputs) :
    (∀ a b, cell (transBlock M s inp).1 a b = cell s a b) ∧
    (transBlock M s inp).1.currRoot = s.currRoot ∧
    (transBlock M s inp).1.currScale = s.currScale := by
  unfold transBlock
  simp only []
  split
  · split
    · exact ⟨fun _ _ => rfl, rfl, rfl⟩
    · exact ⟨fun _ _ => rfl, rfl, rfl⟩
  · exact ⟨fun _ _ => rfl, rfl, rfl⟩

/-- One invocation, channel by channel: every channel below the channel count of one
of the eight lanes is stepped by `cellStep` with this invocation's root, scale and
transposition, every other entry of the arrays is left as it was. -/
theorem process_spec (M : Music) (T : ℚ) (s : ScaleQuantizer2) (inp : QInputs) :
    (∀ i j, i < 8 → j < nChannels inp i →
      cell (process M T s inp) i j
        = cellStep M T inp (readKeyScale M s inp).currRoot (readKeyScale M s inp).currScale
            (inp.shiftParam i) (trans M s inp) i j (cell s i j)) ∧
    (∀ a b, (8 ≤ a ∨ nChannels inp a ≤ b) → cell (process M T s inp) a b = cell s a b) ∧
    (process M T s inp).currRoot = (readKeyScale M s inp).currRoot ∧
    (process M T s inp).currScale = (readKeyScale M s inp).currScale ∧
    (process M T s inp).lastTrans = (transBlock M (readKeyScale M s inp) inp).1.lastTrans := by
  obtain ⟨r1, _⟩ := readKeyScale_frame M s inp
  obtain ⟨t1, t2, t3⟩ := transBlock_frame M (readKeyScale M s inp) inp
  obtain ⟨l1, l2, l3, l4, l5⟩ := laneLoop_spec M T inp (trans M s inp)
    (transBlock M (readKeyScale M s inp) inp).1 8
  obtain ⟨g1, g2, g3, g4⟩ := lightsBlock_spec M
    ((List.range 8).foldl (laneStep M T inp (trans M s inp))
      (transBlock M (readKeyScale M s inp) inp).1)
  have hcell : ∀ a b, cell (process M T s inp) a b
      = cell ((List.range 8).foldl (laneStep M T inp (trans M s inp))
          (transBlock M (readKeyScale M s inp) inp).1) a b := fun a b => g1 a b
  refine ⟨fun i j hi hj => ?_, fun a b hab => ?_, ?_, ?_, ?_⟩
  · rw [hcell, l1 i j hi hj, t2, t3, t1, r1]
  · rw [hcell, l2 a b hab, t1, r1]
  · exact g2.trans (l3.trans t2)
  · exact g3.trans (l4.trans t3)
  · exact g4.trans l5

theorem run_nil (M : Music) (T : ℚ) (s : ScaleQuantizer2) : run M T s [] = s := rfl

theorem run_snoc (M : Music) (T : ℚ) (s : ScaleQuantizer2) (inps : List QInputs)
    (inp : QInputs) : run M T s (inps ++ [inp]) = process M T (run M T s inps) inp := by
  simp [run, List.foldl_append]

/-- Projections of a cell equation. -/
theorem cell_eq_iff (s : ScaleQuantizer2) (a b : Nat) (c : Cell) (h : cell s a b = c) :
    s.holdPitch a b = c.hold ∧ s.lastPitch a b = c.last ∧ s.triggerPulse a b = c.pulse ∧
    s.holdState a b = c.state ∧ s.out_OUT a b = c.out ∧ s.out_TRIG a b = c.trig := by
  subst h
  exact ⟨rfl, rfl, rfl, rfl, rfl, rfl⟩

/-- After any sequence of invocations from the initial state the remembered pitch of
every channel is its held pitch. -/
theorem last_eq_hold (M : Music) (T : ℚ) (h0 : Nat → Nat → Bool) (inps : List QInputs)
    (a b : Nat) :
    (run M T (initial h0) inps).lastPitch a b = (run M T (initial h0) inps).holdPitch a b := by
  induction inps using List.reverseRecOn generalizing a b with
  | nil => rfl
  | append_singleton inps inp ih =>
    rw [run_snoc]
    obtain ⟨p1, p2, _⟩ := process_spec M T (run M T (initial h0) inps) inp
    by_cases hab : 8 ≤ a ∨ nChannels inp a ≤ b
    · obtain ⟨e1, e2, _⟩ := cell_eq_iff _ a b _ (p2 a b hab)
      rw [e1, e2]
      exact ih a b
    · obtain ⟨e1, e2, _⟩ := cell_eq_iff _ a b _ (p1 a b (by omega) (by omega))
      rw [e1, e2]
      rfl

end ScaleQuantizer2
namespace ScaleQuantizer2

/-- An idle timer stays idle and reports no pulse. -/
theorem idle_timer_step (dt : ℚ) (hdt : 0 ≤ dt) :
    (({} : PulseGenerator).process dt).1 = {} ∧ (({} : PulseGenerator).process dt).2 = false := by
  simp [PulseGenerator.process, hdt]

/-- A lane whose single hold gate never rises stays as it was initialised. -/
theorem hold_gate_never_rises (M : Music) (T : ℚ) (h0 : Nat → Nat → Bool) (i : Nat)
    (inps : List QInputs)
    (h : ∀ x ∈ inps, x.holdChannels i = 1 ∧ x.holdEdge i 0 = false ∧ 0 ≤ x.sampleTime)
    (j : Nat) :
    (run M T (initial h0) inps).holdPitch i j = 0 ∧
    (run M T (initial h0) inps).lastPitch i j = 0 ∧
    (run M T (initial h0) inps).triggerPulse i j = {} ∧
    (run M T (initial h0) inps).out_TRIG i j = 0 := by
  induction inps using List.reverseRecOn generalizing j with
  | nil => exact ⟨rfl, rfl, rfl, rfl⟩
  | append_singleton inps inp ih =>
    have hprev := ih (fun x hx => h x (List.mem_append_left _ hx)) j
    obtain ⟨c1, c2, c3⟩ := h inp (List.mem_append_right _ (List.mem_singleton_self inp))
    obtain ⟨i1, i2, i3, i4⟩ := hprev
    rw [run_snoc]
    obtain ⟨p1, p2, _⟩ := process_spec M T (run M T (initial h0) inps) inp
    by_cases hab : 8 ≤ i ∨ nChannels inp i ≤ j
    · obtain ⟨e1, e2, e3, _, _, e6⟩ := cell_eq_iff _ i j _ (p2 i j hab)
      rw [e1, e2, e3, e6]
      exact ⟨i1, i2, i3, i4⟩
    · obtain ⟨e1, e2, e3, _, _, e6⟩ := cell_eq_iff _ i j _ (p1 i j (by omega) (by omega))
      obtain ⟨t1, t2⟩ := idle_timer_step inp.sampleTime c3
      have hh : heldAfter M inp (readKeyScale M (run M T (initial h0) inps) inp).currRoot
          (readKeyScale M (run M T (initial h0) inps) inp).currScale
          ((run M T (initial h0) inps).cell i j).hold i j = 0 := by
        simp only [heldAfter, c1, c2]
        simpa [cell] using i1
      rw [e1, e2, e3, e6]
      simp only [cellStep, hh]
      have hl : ((run M T (initial h0) inps).cell i j).last = 0 := i2
      have hp : ((run M T (initial h0) inps).cell i j).pulse = {} := i3
      simp only [hl, hp, ne_eq, not_true_eq_false, if_false, t1, t2]
      simp

end ScaleQuantizer2
namespace ScaleQuantizer2

/-- The two results of the cache block by cases. -/
theorem transBlock_cases (M : Music) (s : ScaleQuantizer2) (inp : QInputs) :
    (transBlock M s inp).2
      = (if rawTrans inp ≠ 0 then
          (if rawTrans inp ≠ s.lastTrans then
            M.getPitchFromVolts (rawTrans inp) M.NOTE_C M.SCALE_CHROMATIC
          else s.lastTrans)
        else rawTrans inp) ∧
    (transBlock M s inp).1.lastTrans
      = (if rawTrans inp ≠ 0 ∧ rawTrans inp ≠ s.lastTrans then
          M.getPitchFromVolts (rawTrans inp) M.NOTE_C M.SCALE_CHROMATIC
        else s.lastTrans) := by
  unfold transBlock rawTrans
  simp only []
  by_cases h0 : (inp.transVoltage + inp.transParam) / 12 = 0
  · simp [h0]
  · by_cases h1 : (inp.transVoltage + inp.transParam) / 12 = s.lastTrans
    · simp [h0, h1]
    · simp [h0, h1]

/-- The cache holds the sentinel or a value that the chromatic quantization fixes. -/
theorem cache_fixed_point (M : Music) (T : ℚ) (h0 : Nat → Nat → Bool)
    (hidem : ∀ p, M.getPitchFromVolts (M.getPitchFromVolts p M.NOTE_C M.SCALE_CHROMATIC)
        M.NOTE_C M.SCALE_CHROMATIC = M.getPitchFromVolts p M.NOTE_C M.SCALE_CHROMATIC)
    (inps : List QInputs) :
    (run M T (initial h0) inps).lastTrans = -10000 ∨
    M.getPitchFromVolts (run M T (initial h0) inps).lastTrans M.NOTE_C M.SCALE_CHROMATIC
      = (run M T (initial h0) inps).lastTrans := by
  induction inps using List.reverseRecOn with
  | nil => exact Or.inl rfl
  | append_singleton inps inp ih =>
    rw [run_snoc]
    obtain ⟨_, _, _, _, p5⟩ := process_spec M T (run M T (initial h0) inps) inp
    obtain ⟨_, c2⟩ := transBlock_cases M (readKeyScale M (run M T (initial h0) inps) inp) inp
    have hr : (readKeyScale M (run M T (initial h0) inps) inp).lastTrans
        = (run M T (initial h0) inps).lastTrans := rfl
    rw [p5, c2, hr]
    split
    · exact Or.inr (hidem _)
    · exact ih

end ScaleQuantizer2
namespace ScaleQuantizer2

/-- C17: on a lane without hold input (hold channel count 0), after an invocation from
any state the held pitch of every channel below the CV channel count is the
quantization of this invocation's CV voltage of that channel with the root and
scale read on this invocation, and the pitch written to the output channel is the
held pitch plus the octave shift of the lane plus the transposition of this
invocation. -/
theorem live_lane_requantized (M : Music) (T : ℚ) (s : ScaleQuantizer2) (inp : QInputs)
    (i j : Nat) (hi : i < 8) (h0 : inp.holdChannels i = 0) (hj : j < inp.cvChannels i) :
    (process M T s inp).currRoot
      = (if inp.keyConnected then M.getKeyFromVolts inp.keyVoltage else toInt inp.keyParam) ∧
    (process M T s inp).currScale
      = (if inp.scaleConnected then M.getScaleFromVolts inp.scaleVoltage
          else toInt inp.scaleParam) ∧
    (process M T s inp).holdPitch i j
      = M.getPitchFromVolts (inp.cvVoltage i j) (process M T s inp).currRoot
          (process M T s inp).currScale ∧
    (process M T s inp).out_OUT i j
      = (process M T s inp).holdPitch i j + inp.shiftParam i + trans M s inp := by
  obtain ⟨p1, _, p3, p4, _⟩ := process_spec M T s inp
  have hj' : j < nChannels inp i := by
    unfold nChannels
    omega
  obtain ⟨e1, _, _, _, e5, _⟩ := cell_eq_iff _ i j _ (p1 i j hi hj')
  refine ⟨p3, p4, ?_, ?_⟩
  · rw [e1, p3, p4]
    simp only [cellStep, heldAfter, h0, if_true]
  · rw [e5, e1]
    simp only [cellStep]

theorem live_lane_requantized_witness :
    (0 < 8 ∧ (laneInput 2 0 (fun _ => false) 3).holdChannels 0 = 0 ∧
      1 < (laneInput 2 0 (fun _ => false) 3).cvChannels 0) ∧
    (process semitones pulseWidth (initial fun _ _ => false)
        (laneInput 2 0 (fun _ => false) 3)).holdPitch 0 1
      = semitones.getPitchFromVolts ((laneInput 2 0 (fun _ => false) 3).cvVoltage 0 1)
          (process semitones pulseWidth (initial fun _ _ => false)
            (laneInput 2 0 (fun _ => false) 3)).currRoot
          (process semitones pulseWidth (initial fun _ _ => false)
            (laneInput 2 0 (fun _ => false) 3)).currScale :=
  ⟨⟨by decide, rfl, by decide⟩,
    (live_lane_requantized semitones pulseWidth (initial fun _ _ => false)
      (laneInput 2 0 (fun _ => false) 3) 0 1 (by decide) rfl (by decide)).2.2.1⟩

end ScaleQuantizer2
namespace ScaleQuantizer2

/-- C16: change detection.  On an invocation that follows any sequence of invocations
from the initial state, for every lane and every channel below the lane's channel
count, the timer of the channel after the invocation is the timer before it, started
(`trigger`) exactly when the held pitch after this invocation's hold update differs
from the pitch remembered by the previous invocation, and then advanced by one
sample, and the trigger output shows whether that timer is active; and after the
invocation the remembered pitch equals the held pitch on every lane and channel. -/
theorem change_detection (M : Music) (T : ℚ) (h0 : Nat → Nat → Bool) (hist : List QInputs)
    (inp : QInputs) :
    (∀ i j, i < 8 → j < nChannels inp i →
      (process M T (run M T (initial h0) hist) inp).triggerPulse i j
        = ((if (run M T (initial h0) hist).lastPitch i j
                ≠ (process M T (run M T (initial h0) hist) inp).holdPitch i j
            then ((run M T (initial h0) hist).triggerPulse i j).trigger T
            else (run M T (initial h0) hist).triggerPulse i j).process inp.sampleTime).1 ∧
      (process M T (run M T (initial h0) hist) inp).out_TRIG i j
        = (if ((if (run M T (initial h0) hist).lastPitch i j
                ≠ (process M T (run M T (initial h0) hist) inp).holdPitch i j
            then ((run M T (initial h0) hist).triggerPulse i j).trigger T
            else (run M T (initial h0) hist).triggerPulse i j).process inp.sampleTime).2
          then 10 else 0)) ∧
    (∀ a b, (process M T (run M T (initial h0) hist) inp).lastPitch a b
      = (process M T (run M T (initial h0) hist) inp).holdPitch a b) := by
  refine ⟨fun i j hi hj => ?_, fun a b => ?_⟩
  · obtain ⟨p1, _⟩ := process_spec M T (run M T (initial h0) hist) inp
    obtain ⟨e1, _, e3, _, _, e6⟩ := cell_eq_iff _ i j _ (p1 i j hi hj)
    rw [e3, e6, e1]
    exact ⟨rfl, rfl⟩
  · have h := last_eq_hold M T h0 (hist ++ [inp]) a b
    rw [run_snoc] at h
    exact h

theorem change_detection_witness :
    (0 < 8 ∧ 3 < nChannels (laneInput 4 1 (fun _ => true) 0) 0) ∧
    (process semitones pulseWidth
        (run semitones pulseWidth (initial fun _ _ => false)
          [laneInput 4 1 (fun _ => false) 0])
        (laneInput 4 1 (fun _ => true) 0)).triggerPulse 0 3
      = ((if (run semitones pulseWidth (initial fun _ _ => false)
              [laneInput 4 1 (fun _ => false) 0]).lastPitch 0 3
            ≠ (process semitones pulseWidth
                (run semitones pulseWidth (initial fun _ _ => false)
                  [laneInput 4 1 (fun _ => false) 0])
                (laneInput 4 1 (fun _ => true) 0)).holdPitch 0 3
          then ((run semitones pulseWidth (initial fun _ _ => false)
              [laneInput 4 1 (fun _ => false) 0]).triggerPulse 0 3).trigger pulseWidth
          else (run semitones pulseWidth (initial fun _ _ => false)
              [laneInput 4 1 (fun _ => false) 0]).triggerPulse 0 3).process
          (laneInput 4 1 (fun _ => true) 0).sampleTime).1 ∧
    (process semitones pulseWidth
        (run semitones pulseWidth (initial fun _ _ => false)
          [laneInput 4 1 (fun _ => false) 0])
        (laneInput 4 1 (fun _ => true) 0)).lastPitch 0 3
      = (process semitones pulseWidth
        (run semitones pulseWidth (initial fun _ _ => false)
          [laneInput 4 1 (fun _ => false) 0])
        (laneInput 4 1 (fun _ => true) 0)).holdPitch 0 3 :=
  ⟨⟨by decide, by decide⟩,
    ((change_detection semitones pulseWidth (fun _ _ => false)
      [laneInput 4 1 (fun _ => false) 0] (laneInput 4 1 (fun _ => true) 0)).1 0 3
      (by decide) (by decide)).1,
    (change_detection semitones pulseWidth (fun _ _ => false)
      [laneInput 4 1 (fun _ => false) 0] (laneInput 4 1 (fun _ => true) 0)).2 0 3⟩

end ScaleQuantizer2
namespace ScaleQuantizer2

/-- C14: a lane with one hold channel (a shared hold gate), on an invocation that
follows any sequence of invocations from the initial state.  If hold channel 0 has
a rising edge, every channel below the lane's channel count gets as held pitch the
quantization of its own CV voltage with this invocation's root and scale.  If it
has none, the held pitch of every channel is unchanged and no timer is started: the
timers of the channels below the channel count are only advanced by one sample, the
others are untouched.  If the gate has never risen since the initial state, and
no sample time was negative, every channel still has held pitch 0, an idle timer and
trigger output 0. -/
theorem shared_hold_gate (M : Music) (T : ℚ) (h0 : Nat → Nat → Bool) (hist : List QInputs)
    (inp : QInputs) (i : Nat) (hi : i < 8) (h1 : inp.holdChannels i = 1) :
    (inp.holdEdge i 0 = true → ∀ j, j < nChannels inp i →
      (process M T (run M T (initial h0) hist) inp).holdPitch i j
        = M.getPitchFromVolts (inp.cvVoltage i j)
            (process M T (run M T (initial h0) hist) inp).currRoot
            (process M T (run M T (initial h0) hist) inp).currScale) ∧
    (inp.holdEdge i 0 = false → ∀ j,
      (process M T (run M T (initial h0) hist) inp).holdPitch i j
        = (run M T (initial h0) hist).holdPitch i j ∧
      (process M T (run M T (initial h0) hist) inp).triggerPulse i j
        = (if j < nChannels inp i
            then (((run M T (initial h0) hist).triggerPulse i j).process inp.sampleTime).1
            else (run M T (initial h0) hist).triggerPulse i j)) ∧
    ((∀ x ∈ hist ++ [inp], x.holdChannels i = 1 ∧ x.holdEdge i 0 = false ∧ 0 ≤ x.sampleTime) →
      ∀ j, (process M T (run M T (initial h0) hist) inp).holdPitch i j = 0 ∧
        (process M T (run M T (initial h0) hist) inp).triggerPulse i j = {} ∧
        (process M T (run M T (initial h0) hist) inp).out_TRIG i j = 0) := by
  obtain ⟨p1, p2, p3, p4, _⟩ := process_spec M T (run M T (initial h0) hist) inp
  refine ⟨fun he j hj => ?_, fun he j => ?_, fun hall j => ?_⟩
  · obtain ⟨e1, _⟩ := cell_eq_iff _ i j _ (p1 i j hi hj)
    rw [e1, p3, p4]
    simp [cellStep, heldAfter, h1, he]
  · by_cases hj : j < nChannels inp i
    · obtain ⟨e1, _, e3, _⟩ := cell_eq_iff _ i j _ (p1 i j hi hj)
      have hh : heldAfter M inp (readKeyScale M (run M T (initial h0) hist) inp).currRoot
          (readKeyScale M (run M T (initial h0) hist) inp).currScale
          ((run M T (initial h0) hist).cell i j).hold i j
          = (run M T (initial h0) hist).holdPitch i j := by
        simp [heldAfter, h1, he, cell]
      have hl : ((run M T (initial h0) hist).cell i j).last
          = (run M T (initial h0) hist).holdPitch i j := last_eq_hold M T h0 hist i j
      rw [e1, e3]
      simp only [cellStep, hh, hl, ne_eq, not_true_eq_false, if_false, hj, if_true]
      simp [cell]
    · obtain ⟨e1, _, e3, _⟩ := cell_eq_iff _ i j _ (p2 i j (Or.inr (by omega)))
      rw [e1, e3]
      simp only [hj, if_false]
      exact ⟨rfl, rfl⟩
  · have h := hold_gate_never_rises M T h0 i (hist ++ [inp]) hall j
    rw [run_snoc] at h
    exact ⟨h.1, h.2.2.1, h.2.2.2⟩

theorem shared_hold_gate_witness :
    (0 < 8 ∧ (laneInput 4 1 (fun _ => true) 0).holdChannels 0 = 1 ∧
      (laneInput 4 1 (fun _ => true) 0).holdEdge 0 0 = true ∧
      3 < nChannels (laneInput 4 1 (fun _ => true) 0) 0) ∧
    (process semitones pulseWidth
        (run semitones pulseWidth (initial fun _ _ => false)
          [laneInput 4 1 (fun _ => false) 0])
        (laneInput 4 1 (fun _ => true) 0)).holdPitch 0 3
      = semitones.getPitchFromVolts ((laneInput 4 1 (fun _ => true) 0).cvVoltage 0 3)
          (process semitones pulseWidth
            (run semitones pulseWidth (initial fun _ _ => false)
              [laneInput 4 1 (fun _ => false) 0])
            (laneInput 4 1 (fun _ => true) 0)).currRoot
          (process semitones pulseWidth
            (run semitones pulseWidth (initial fun _ _ => false)
              [laneInput 4 1 (fun _ => false) 0])
            (laneInput 4 1 (fun _ => true) 0)).currScale :=
  ⟨⟨by decide, rfl, rfl, by decide⟩,
    (shared_hold_gate semitones pulseWidth (fun _ _ => false)
      [laneInput 4 1 (fun _ => false) 0] (laneInput 4 1 (fun _ => true) 0) 0
      (by decide) rfl).1 rfl 3 (by decide)⟩

end ScaleQuantizer2
namespace ScaleQuantizer2

/-- C15: fan-out.  On a lane with more than one hold channel, after an invocation from
any state: with one CV channel, every channel below the lane's channel count whose
own hold channel has a rising edge gets as held pitch the quantization of CV
channel 0; with another CV channel count it gets the quantization of its own CV
channel; and every channel whose own hold channel has no rising edge, or that is not
below the channel count, keeps its held pitch. -/
theorem hold_fan_out (M : Music) (T : ℚ) (s : ScaleQuantizer2) (inp : QInputs) (i : Nat)
    (hi : i < 8) (hh : 1 < inp.holdChannels i) :
    (inp.cvChannels i = 1 → ∀ j, j < nChannels inp i → inp.holdEdge i j = true →
      (process M T s inp).holdPitch i j
        = M.getPitchFromVolts (inp.cvVoltage i 0) (process M T s inp).currRoot
            (process M T s inp).currScale) ∧
    (inp.cvChannels i ≠ 1 → ∀ j, j < nChannels inp i → inp.holdEdge i j = true →
      (process M T s inp).holdPitch i j
        = M.getPitchFromVolts (inp.cvVoltage i j) (process M T s inp).currRoot
            (process M T s inp).currScale) ∧
    (∀ k, (inp.holdEdge i k = false ∨ nChannels inp i ≤ k) →
      (process M T s inp).holdPitch i k = s.holdPitch i k) := by
  obtain ⟨p1, p2, p3, p4, _⟩ := process_spec M T s inp
  have n0 : inp.holdChannels i ≠ 0 := by omega
  have n1 : inp.holdChannels i ≠ 1 := by omega
  refine ⟨fun hc j hj he => ?_, fun hc j hj he => ?_, fun k hk => ?_⟩
  · obtain ⟨e1, _⟩ := cell_eq_iff _ i j _ (p1 i j hi hj)
    rw [e1, p3, p4]
    simp [cellStep, heldAfter, n0, n1, hc, he]
  · obtain ⟨e1, _⟩ := cell_eq_iff _ i j _ (p1 i j hi hj)
    rw [e1, p3, p4]
    simp [cellStep, heldAfter, n0, n1, hc, he]
  · by_cases hj : k < nChannels inp i
    · have he : inp.holdEdge i k = false := by
        rcases hk with h | h
        · exact h
        · omega
      obtain ⟨e1, _⟩ := cell_eq_iff _ i k _ (p1 i k hi hj)
      rw [e1]
      by_cases hc : inp.cvChannels i = 1 <;> simp [cellStep, heldAfter, n0, n1, hc, he, cell]
    · obtain ⟨e1, _⟩ := cell_eq_iff _ i k _ (p2 i k (Or.inr (by omega)))
      rw [e1]
      rfl

theorem hold_fan_out_witness :
    (0 < 8 ∧ 1 < (laneInput 1 3 (fun j => decide (j = 2)) 0).holdChannels 0 ∧
      (laneInput 1 3 (fun j => decide (j = 2)) 0).cvChannels 0 = 1 ∧
      2 < nChannels (laneInput 1 3 (fun j => decide (j = 2)) 0) 0 ∧
      (laneInput 1 3 (fun j => decide (j = 2)) 0).holdEdge 0 2 = true ∧
      (laneInput 1 3 (fun j => decide (j = 2)) 0).holdEdge 0 0 = false ∧
      (laneInput 1 3 (fun j => decide (j = 2)) 0).holdEdge 0 1 = false) ∧
    (process semitones pulseWidth (initial fun _ _ => false)
        (laneInput 1 3 (fun j => decide (j = 2)) 0)).holdPitch 0 2
      = semitones.getPitchFromVolts ((laneInput 1 3 (fun j => decide (j = 2)) 0).cvVoltage 0 0)
          (process semitones pulseWidth (initial fun _ _ => false)
            (laneInput 1 3 (fun j => decide (j = 2)) 0)).currRoot
          (process semitones pulseWidth (initial fun _ _ => false)
            (laneInput 1 3 (fun j => decide (j = 2)) 0)).currScale ∧
    (process semitones pulseWidth (initial fun _ _ => false)
        (laneInput 1 3 (fun j => decide (j = 2)) 0)).holdPitch 0 0
      = (initial fun _ _ => false).holdPitch 0 0 ∧
    (process semitones pulseWidth (initial fun _ _ => false)
        (laneInput 1 3 (fun j => decide (j = 2)) 0)).holdPitch 0 1
      = (initial fun _ _ => false).holdPitch 0 1 :=
  ⟨⟨by decide, by decide, rfl, by decide, rfl, rfl, rfl⟩,
    (hold_fan_out semitones pulseWidth (initial fun _ _ => false)
      (laneInput 1 3 (fun j => decide (j = 2)) 0) 0 (by decide) (by decide)).1 rfl 2
      (by decide) rfl,
    (hold_fan_out semitones pulseWidth (initial fun _ _ => false)
      (laneInput 1 3 (fun j => decide (j = 2)) 0) 0 (by decide) (by decide)).2.2 0
      (Or.inl rfl),
    (hold_fan_out semitones pulseWidth (initial fun _ _ => false)
      (laneInput 1 3 (fun j => decide (j = 2)) 0) 0 (by decide) (by decide)).2.2 1
      (Or.inl rfl)⟩

end ScaleQuantizer2
namespace ScaleQuantizer2

/-- C20: the transposition cache is transparent.  If the quantization to the chromatic
scale on C is idempotent and the raw transposition of an invocation is not the
sentinel -10000, then on an invocation that follows any sequence of invocations from
the initial state the global transposition is the uncached value, 0 for a raw value
of 0 and the quantized raw value otherwise, and it is what the invocation adds to
the held pitch and the octave shift on every channel below the channel count of
every lane. -/
theorem trans_cache_transparent (M : Music) (T : ℚ) (h0 : Nat → Nat → Bool)
    (hist : List QInputs) (inp : QInputs)
    (hidem : ∀ p, M.getPitchFromVolts (M.getPitchFromVolts p M.NOTE_C M.SCALE_CHROMATIC)
        M.NOTE_C M.SCALE_CHROMATIC = M.getPitchFromVolts p M.NOTE_C M.SCALE_CHROMATIC)
    (hraw : rawTrans inp ≠ -10000) :
    trans M (run M T (initial h0) hist) inp = uncachedTrans M inp ∧
    (∀ i j, i < 8 → j < nChannels inp i →
      (process M T (run M T (initial h0) hist) inp).out_OUT i j
        = (process M T (run M T (initial h0) hist) inp).holdPitch i j + inp.shiftParam i
          + uncachedTrans M inp) := by
  have key : trans M (run M T (initial h0) hist) inp = uncachedTrans M inp := by
    obtain ⟨c1, _⟩ := transBlock_cases M (readKeyScale M (run M T (initial h0) hist) inp) inp
    have hr : (readKeyScale M (run M T (initial h0) hist) inp).lastTrans
        = (run M T (initial h0) hist).lastTrans := rfl
    unfold trans uncachedTrans
    rw [c1, hr]
    by_cases hz : rawTrans inp = 0
    · rw [if_neg (not_not.mpr hz), if_pos hz, hz]
    · rw [if_pos hz, if_neg hz]
      by_cases hl : rawTrans inp = (run M T (initial h0) hist).lastTrans
      · rw [if_neg (not_not.mpr hl)]
        rcases cache_fixed_point M T h0 hidem hist with h | h
        · exact absurd (hl.trans h) hraw
        · rw [hl]
          exact h.symm
      · rw [if_pos hl]
  refine ⟨key, fun i j hi hj => ?_⟩
  obtain ⟨p1, _⟩ := process_spec M T (run M T (initial h0) hist) inp
  obtain ⟨e1, _, _, _, e5, _⟩ := cell_eq_iff _ i j _ (p1 i j hi hj)
  rw [e5, e1, key]
  simp only [cellStep]

theorem trans_cache_transparent_witness :
    ((∀ p, semitones.getPitchFromVolts
        (semitones.getPitchFromVolts p semitones.NOTE_C semitones.SCALE_CHROMATIC)
        semitones.NOTE_C semitones.SCALE_CHROMATIC
        = semitones.getPitchFromVolts p semitones.NOTE_C semitones.SCALE_CHROMATIC) ∧
      rawTrans (laneInput 2 0 (fun _ => false) 3) ≠ -10000) ∧
    trans semitones
        (run semitones pulseWidth (initial fun _ _ => false)
          [laneInput 2 0 (fun _ => false) 3])
        (laneInput 2 0 (fun _ => false) 3)
      = uncachedTrans semitones (laneInput 2 0 (fun _ => false) 3) :=
  ⟨⟨fun p => by simp [semitones], by norm_num [rawTrans, laneInput]⟩,
    (trans_cache_transparent semitones pulseWidth (fun _ _ => false)
      [laneInput 2 0 (fun _ => false) 3] (laneInput 2 0 (fun _ => false) 3)
      (fun p => by simp [semitones]) (by norm_num [rawTrans, laneInput])).1⟩

end ScaleQuantizer2

namespace RightLeftArp

theorem rightLeft_iterate_advance (k : Nat) (a : RightLeftArp) :
    (advance^[k] a).currSt = a.currSt + k ∧ (advance^[k] a).end_ = a.end_ := by
  induction k generalizing a with
  | zero => simp
  | succ k ih =>
    rw [Function.iterate_succ_apply]
    obtain ⟨h1, h2⟩ := ih a.advance
    refine ⟨?_, ?_⟩
    · rw [h1]
      simp only [advance, Nat.cast_add, Nat.cast_one]
      omega
    · rw [h2]
      rfl

end RightLeftArp

namespace LeftRightArp

theorem leftRight_iterate_advance (k : Nat) (a : LeftRightArp) :
    (advance^[k] a).currSt = a.currSt + k ∧ (advance^[k] a).end_ = a.end_ := by
  induction k generalizing a with
  | zero => simp
  | succ k ih =>
    rw [Function.iterate_succ_apply]
    obtain ⟨h1, h2⟩ := ih a.advance
    refine ⟨?_, ?_⟩
    · rw [h1]
      simp only [advance, Nat.cast_add, Nat.cast_one]
      omega
    · rw [h2]
      rfl

end LeftRightArp

/-- The distance from the start position to `end` that the fold patterns' `initialise`
leaves, by the three cases of the offset. -/
theorem foldEnd_sub (N offset : Int) (r : Bool) (hoff : 0 ≤ offset) :
    foldEnd N offset r - offset
      = (if offset > max 1 (2 * (N - 1) - 1) then (if r then 1 else 0)
          else if 0 < offset then max 1 (2 * (N - 1) - 1) - offset + 1 + (if r then 1 else 0)
          else max 1 (2 * (N - 1) - 1) + (if r then 1 else 0)) := by
  unfold foldEnd
  simp only [max_def]
  cases r <;> simp only [Bool.false_eq_true, if_false, if_true] <;> split_ifs <;> omega

theorem foldEnd_ge (N offset : Int) (r : Bool) : offset ≤ foldEnd N offset r := by
  unfold foldEnd
  cases r <;> simp only [Bool.false_eq_true, if_false, if_true] <;> split_ifs <;> omega

/-- C21: every fold cycle ends.  For the Ascending-Descending and the
Descending-Ascending pattern, every `N`, every `offset ≥ 0` and both values of
`repeatEnds`, `initialise` leaves `currSt ≤ end`; `isArpeggioFinished()` holds after
`j` calls of `advance()` exactly when `j = end - offset`, so the test is met and
never skipped, and the cycle read with that many calls has `end - offset + 1`
entries.  With `e0 = max(1, 2(N-1)-1)` and `r = 1` if `repeatEnds`, else 0, the
number `end - offset` is `r` when `offset > e0`, `e0 - offset + 1 + r` when
`0 < offset ≤ e0`, and `e0 + r` when `offset = 0`. -/
theorem fold_cycle_ends (a : RightLeftArp) (b : LeftRightArp) (N offset : Int)
    (repeatEnds : Bool) (hoff : 0 ≤ offset) :
    (a.initialise N offset repeatEnds).currSt ≤ (a.initialise N offset repeatEnds).end_ ∧
    (b.initialise N offset repeatEnds).currSt ≤ (b.initialise N offset repeatEnds).end_ ∧
    ∃ k : Nat,
      (k : Int) = (a.initialise N offset repeatEnds).end_ - offset ∧
      (k : Int) = (b.initialise N offset repeatEnds).end_ - offset ∧
      (k : Int)
        = (if offset > max 1 (2 * (N - 1) - 1) then (if repeatEnds then 1 else 0)
          else if 0 < offset then
            max 1 (2 * (N - 1) - 1) - offset + 1 + (if repeatEnds then 1 else 0)
          else max 1 (2 * (N - 1) - 1) + (if repeatEnds then 1 else 0)) ∧
      (∀ j : Nat,
        (RightLeftArp.advance^[j] (a.initialise N offset repeatEnds)).isArpeggioFinished = true
          ↔ j = k) ∧
      (∀ j : Nat,
        (LeftRightArp.advance^[j] (b.initialise N offset repeatEnds)).isArpeggioFinished = true
          ↔ j = k) ∧
      (∃ l, Arpeggio.cycle k ((Arpeggio.rightLeft a).initialise N offset repeatEnds) = some l ∧
        l.length = k + 1) ∧
      (∃ l, Arpeggio.cycle k ((Arpeggio.leftRight b).initialise N offset repeatEnds) = some l ∧
        l.length = k + 1) := by
  have hge := foldEnd_ge N offset repeatEnds
  have hsub := foldEnd_sub N offset repeatEnds hoff
  have hk : ((foldEnd N offset repeatEnds - offset).toNat : Int)
      = foldEnd N offset repeatEnds - offset := by omega
  simp only [Arpeggio.initialise, RightLeftArp.rightLeft_initialise_eq,
    LeftRightArp.leftRight_initialise_eq]
  refine ⟨hge, hge, (foldEnd N offset repeatEnds - offset).toNat, hk, hk, hk.trans hsub,
    fun j => ?_, fun j => ?_, ?_, ?_⟩
  · obtain ⟨h1, h2⟩ := RightLeftArp.rightLeft_iterate_advance j
      { currSt := offset, mag := N - 1, end_ := foldEnd N offset repeatEnds, nPitches := N }
    simp only [RightLeftArp.isArpeggioFinished, h1, h2, decide_eq_true_eq]
    omega
  · obtain ⟨h1, h2⟩ := LeftRightArp.leftRight_iterate_advance j
      { currSt := offset, mag := N - 1, end_ := foldEnd N offset repeatEnds, nPitches := N }
    simp only [LeftRightArp.isArpeggioFinished, h1, h2, decide_eq_true_eq]
    omega
  · refine ⟨_, Arpeggio.cycle_rightLeft (N - 1) (foldEnd N offset repeatEnds) N _ offset
      (by omega), ?_⟩
    simp
  · refine ⟨_, Arpeggio.cycle_leftRight (N - 1) (foldEnd N offset repeatEnds) N _ offset
      (by omega), ?_⟩
    simp

theorem fold_cycle_ends_witness :
    (0 : Int) ≤ 2 ∧
    ∃ k : Nat,
      (k : Int) = (({} : RightLeftArp).initialise 4 2 true).end_ - 2 ∧
      (k : Int) = (({} : LeftRightArp).initialise 4 2 true).end_ - 2 ∧
      (k : Int)
        = (if (2 : Int) > max 1 (2 * (4 - 1) - 1) then (if true = true then 1 else 0)
          else if (0 : Int) < 2 then
            max 1 (2 * (4 - 1) - 1) - 2 + 1 + (if true = true then 1 else 0)
          else max 1 (2 * (4 - 1) - 1) + (if true = true then 1 else 0)) ∧
      (∀ j : Nat,
        (RightLeftArp.advance^[j] (({} : RightLeftArp).initialise 4 2 true)).isArpeggioFinished
          = true ↔ j = k) ∧
      (∀ j : Nat,
        (LeftRightArp.advance^[j] (({} : LeftRightArp).initialise 4 2 true)).isArpeggioFinished
          = true ↔ j = k) ∧
      (∃ l, Arpeggio.cycle k ((Arpeggio.rightLeft {}).initialise 4 2 true) = some l ∧
        l.length = k + 1) ∧
      (∃ l, Arpeggio.cycle k ((Arpeggio.leftRight {}).initialise 4 2 true) = some l ∧
        l.length = k + 1) :=
  ⟨by decide, (fold_cycle_ends {} {} 4 2 true (by decide)).2.2⟩

end AH
